import Mathlib

/-!
# A verification model of the nnet3 computation optimizer (nnet-optimize.h)

The repository provides the header `src/nnet3/nnet-optimize.h`: the options
struct `NnetOptimizeOptions` (with its default constructor), the declarations
of the optimization passes (`Optimize`, `VariableMergingOptimization`,
`ConsolidateModelUpdate`, `RemoveUnnecessaryZeroing`, `MoveSizingCommands`,
`RemoveUnnecessaryAllocation`) and the class `CachingOptimizingCompiler`.
The pass bodies and the IR types (`NnetComputation`, `ComputationRequest`)
live in translation units that are not part of the repository snapshot, so
they are modelled here from the specification (sections 3, 4 and 9 of the
design document), faithfully to its words.  Everything that the header does
define (field lists, default values, constructor initialisation) is
translated from the header directly.
-/

namespace KaldiNnet3

/-- From nnet-optimize.h lines 32-53: the options struct controlling which
optimizations run.  All fields are booleans. -/
structure NnetOptimizeOptions where
  optimize : Bool
  consolidate_model_update : Bool
  propagate_in_place : Bool
  backprop_in_place : Bool
  remove_assignments : Bool
  allow_left_merge : Bool
  allow_right_merge : Bool
  initialize_undefined : Bool
  move_sizing_commands : Bool
  allocate_from_other : Bool
  deriving DecidableEq, Repr

/-- From nnet-optimize.h lines 44-53: the default constructor sets every
field to true. -/
def NnetOptimizeOptions.default : NnetOptimizeOptions where
  optimize := true
  consolidate_model_update := true
  propagate_in_place := true
  backprop_in_place := true
  remove_assignments := true
  allow_left_merge := true
  allow_right_merge := true
  initialize_undefined := true
  move_sizing_commands := true
  allocate_from_other := true

/-- Modelled from the spec: section 3 "Matrix" — an allocation unit with a row
count and a column count, identified by its position in the computation's
matrix list.  The defining translation unit is not under src/. -/
structure MatrixInfo where
  numRows : Nat
  numCols : Nat
  deriving DecidableEq, Repr

/-- Modelled from the spec: section 3 "Submatrix" — a rectangular view
(row-offset, row-count, col-offset, col-count) into exactly one matrix,
holding the matrix id.  The defining translation unit is not under src/. -/
structure SubmatrixInfo where
  matrixId : Nat
  rowOffset : Nat
  numRows : Nat
  colOffset : Nat
  numCols : Nat
  deriving DecidableEq, Repr

/-- Modelled from the spec: section 3 "Command" — one IR instruction: an
opcode (allocate, deallocate, propagate, backprop, copy/add, model-update,
reuse-allocation, no-op) plus operand ids.  Allocation and deallocation
commands carry matrix ids; all other operands are submatrix ids.  The
defining translation unit is not under src/. -/
inductive Command where
  | allocMatrixZeroed (m : Nat)
  | allocMatrixUndefined (m : Nat)
  | allocFromOther (m fromM : Nat)
  | allocFromOtherZeroed (m fromM : Nat)
  | deallocMatrix (m : Nat)
  | propagate (dst src : Nat)
  | backprop (dst src : Nat)
  | matrixCopy (dst src : Nat)
  | matrixAdd (dst src : Nat)
  | modelUpdate (param operand : Nat)
  | modelUpdateConsolidated (param : Nat) (operands : List Nat)
  | noOperation
  deriving DecidableEq, Repr

/-- Modelled from the spec: section 3 "Computation" — owns the matrices, the
submatrices and the ordered command sequence, plus the one-shot consolidation
phase flag of design note section 9.  The defining translation unit is not
under src/. -/
structure NnetComputation where
  matrices : List MatrixInfo
  submatrices : List SubmatrixInfo
  commands : List Command
  consolidationDone : Bool
  deriving DecidableEq, Repr

/-- The submatrix ids a command reads (its data inputs).  `matrixAdd` reads
its destination too, since the add accumulates into it. -/
def Command.readSubmatrices : Command → List Nat
  | .propagate _ src => [src]
  | .backprop _ src => [src]
  | .matrixCopy _ src => [src]
  | .matrixAdd dst src => [dst, src]
  | .modelUpdate _ operand => [operand]
  | .modelUpdateConsolidated _ operands => operands
  | _ => []

/-- The submatrix ids a command writes (its data outputs). -/
def Command.writeSubmatrices : Command → List Nat
  | .propagate dst _ => [dst]
  | .backprop dst _ => [dst]
  | .matrixCopy dst _ => [dst]
  | .matrixAdd dst _ => [dst]
  | _ => []

/-- Whether a command is the allocating command of matrix `m`; the reuse
commands `allocFromOther` count as allocations of their first operand. -/
def Command.isAllocFor : Command → Nat → Bool
  | .allocMatrixZeroed m', m => m' = m
  | .allocMatrixUndefined m', m => m' = m
  | .allocFromOther m' _, m => m' = m
  | .allocFromOtherZeroed m' _, m => m' = m
  | _, _ => false

/-- Whether a command is the deallocating command of matrix `m`; the reuse
commands count as the deallocation of the matrix whose storage they take. -/
def Command.isDeallocFor : Command → Nat → Bool
  | .deallocMatrix m', m => m' = m
  | .allocFromOther _ fromM, m => fromM = m
  | .allocFromOtherZeroed _ fromM, m => fromM = m
  | _, _ => false

/-- A plain (non-reuse) allocation of matrix `m`. -/
def Command.isPlainAllocFor : Command → Nat → Bool
  | .allocMatrixZeroed m', m => m' = m
  | .allocMatrixUndefined m', m => m' = m
  | _, _ => false

/-- A plain deallocation of matrix `m`. -/
def Command.isPlainDeallocFor : Command → Nat → Bool
  | .deallocMatrix m', m => m' = m
  | _, _ => false

/-- Whether submatrix id `s` is a view into matrix `m`. -/
def NnetComputation.smTouches (comp : NnetComputation) (s m : Nat) : Bool :=
  match comp.submatrices[s]? with
  | some sm => sm.matrixId = m
  | none => false

/-- Whether submatrix id `s` covers the whole extent of matrix `m`. -/
def NnetComputation.smCoversMatrix (comp : NnetComputation) (s m : Nat) : Bool :=
  match comp.submatrices[s]? with
  | some sm =>
    sm.matrixId = m &&
      match comp.matrices[sm.matrixId]? with
      | some mat =>
        sm.rowOffset = 0 && sm.numRows = mat.numRows &&
          sm.colOffset = 0 && sm.numCols = mat.numCols
      | none => false
  | none => false

/-- Analyzer primitive: command `c` reads some data of matrix `m`. -/
def NnetComputation.readsMatrix (comp : NnetComputation) (c : Command) (m : Nat) : Bool :=
  c.readSubmatrices.any (fun s => comp.smTouches s m)

/-- Analyzer primitive: command `c` writes some data of matrix `m`. -/
def NnetComputation.writesMatrix (comp : NnetComputation) (c : Command) (m : Nat) : Bool :=
  c.writeSubmatrices.any (fun s => comp.smTouches s m)

/-- Analyzer primitive: command `c` writes the whole extent of matrix `m`
through a submatrix covering all of it. -/
def NnetComputation.wholeWritesMatrix (comp : NnetComputation) (c : Command) (m : Nat) : Bool :=
  c.writeSubmatrices.any (fun s => comp.smCoversMatrix s m)

/-- Analyzer primitive: command `c` accesses (reads or writes) data of matrix
`m`.  Sizing commands are not data accesses. -/
def NnetComputation.accessesMatrix (comp : NnetComputation) (c : Command) (m : Nat) : Bool :=
  comp.readsMatrix c m || comp.writesMatrix c m

/-- Scan of the command list deciding whether matrix `m` is fully written
before it is first read: a conservative analysis that succeeds only when a
whole-extent write occurs strictly before any read of any part of `m`
(commands that read and write `m` at once count as reads first). -/
def writtenBeforeReadGo (comp : NnetComputation) (m : Nat) : List Command → Bool
  | [] => true
  | c :: rest =>
    if comp.readsMatrix c m then false
    else if comp.wholeWritesMatrix c m then true
    else writtenBeforeReadGo comp m rest

/-- Modelled from the spec: section 4.1/4.4 — the Analyzer's guarantee that
every element of matrix `m` is written before it is read.  The analyzer's
translation unit is not under src/. -/
def NnetComputation.writtenBeforeRead (comp : NnetComputation) (m : Nat) : Bool :=
  writtenBeforeReadGo comp m comp.commands

/-- The ordered list of command indices that access (read or write) data of
matrix `m` — the analyzer's access list for the variable backing `m`. -/
def NnetComputation.accessIndexes (comp : NnetComputation) (m : Nat) : List Nat :=
  (comp.commands.enum.filter (fun p => comp.accessesMatrix p.2 m)).map (fun p => p.1)

/-- Modelled from the spec: section 3 "ComputationRequest" — the cache key:
which named inputs/outputs are required at which time indices, plus flags
affecting gradient computation.  Equality is field-by-field value equality.
The defining translation unit is not under src/. -/
structure ComputationRequest where
  inputs : List (String × List Int)
  outputs : List (String × List Int)
  need_model_derivative : Bool
  store_component_stats : Bool
  deriving DecidableEq, Repr

/-- Modelled from the spec: section 1 — the network together with the
out-of-scope graph compiler that builds the initial, correctness-first IR
for a request.  Neither is under src/; the topology is read-only during
compilation, so it is modelled as the building function itself. -/
structure Nnet where
  build : ComputationRequest → NnetComputation

/-! ## Zero-init elimination (spec section 4.4, header lines 131-133) -/

/-- The rewriting step of zero-init elimination: a zero-initialising
allocation is downgraded to an uninitialised allocation exactly when the
analyzer proves the matrix fully written before read; every other command is
left unchanged. -/
def downgradeCmd (comp : NnetComputation) : Command → Command
  | .allocMatrixZeroed m =>
    if comp.writtenBeforeRead m then .allocMatrixUndefined m else .allocMatrixZeroed m
  | c => c

/-- Modelled from the spec: section 4.4 — `RemoveUnnecessaryZeroing` (declared
at nnet-optimize.h lines 131-133; its body is not under src/) changes, where
possible, matrix initialisations of type kAllocMatrixZeroed to
kAllocMatrixUndefined, guarded by the analyzer's written-before-read proof
over the matrix's full extent. -/
def RemoveUnnecessaryZeroing (nnet : Nnet) (comp : NnetComputation) : NnetComputation :=
  { comp with commands := comp.commands.map (downgradeCmd comp) }

theorem readSubmatrices_downgradeCmd (comp : NnetComputation) (c : Command) :
    (downgradeCmd comp c).readSubmatrices = c.readSubmatrices := by
  cases c <;> simp only [downgradeCmd] <;> first
    | rfl
    | (split <;> rfl)

theorem writeSubmatrices_downgradeCmd (comp : NnetComputation) (c : Command) :
    (downgradeCmd comp c).writeSubmatrices = c.writeSubmatrices := by
  cases c <;> simp only [downgradeCmd] <;> first
    | rfl
    | (split <;> rfl)

theorem smTouches_congr {c1 c2 : NnetComputation}
    (h : c1.submatrices = c2.submatrices) (s m : Nat) :
    c1.smTouches s m = c2.smTouches s m := by
  unfold NnetComputation.smTouches
  rw [h]

theorem smCoversMatrix_congr {c1 c2 : NnetComputation}
    (hs : c1.submatrices = c2.submatrices) (hm : c1.matrices = c2.matrices)
    (s m : Nat) :
    c1.smCoversMatrix s m = c2.smCoversMatrix s m := by
  unfold NnetComputation.smCoversMatrix
  rw [hs, hm]

theorem readsMatrix_congr {c1 c2 : NnetComputation}
    (h : c1.submatrices = c2.submatrices) (c : Command) (m : Nat) :
    c1.readsMatrix c m = c2.readsMatrix c m := by
  unfold NnetComputation.readsMatrix
  congr 1
  funext s
  exact smTouches_congr h s m

theorem writesMatrix_congr {c1 c2 : NnetComputation}
    (h : c1.submatrices = c2.submatrices) (c : Command) (m : Nat) :
    c1.writesMatrix c m = c2.writesMatrix c m := by
  unfold NnetComputation.writesMatrix
  congr 1
  funext s
  exact smTouches_congr h s m

theorem wholeWritesMatrix_congr {c1 c2 : NnetComputation}
    (hs : c1.submatrices = c2.submatrices) (hm : c1.matrices = c2.matrices)
    (c : Command) (m : Nat) :
    c1.wholeWritesMatrix c m = c2.wholeWritesMatrix c m := by
  unfold NnetComputation.wholeWritesMatrix
  congr 1
  funext s
  exact smCoversMatrix_congr hs hm s m

theorem accessesMatrix_congr {c1 c2 : NnetComputation}
    (h : c1.submatrices = c2.submatrices) (c : Command) (m : Nat) :
    c1.accessesMatrix c m = c2.accessesMatrix c m := by
  unfold NnetComputation.accessesMatrix
  rw [readsMatrix_congr h, writesMatrix_congr h]

/-- The written-before-read scan is unchanged by a command rewriting that
keeps every command's read and write operand lists, on a computation with
the same submatrices and matrices. -/
theorem writtenBeforeReadGo_map_invariant {c1 c2 : NnetComputation}
    (hs : c1.submatrices = c2.submatrices) (hm : c1.matrices = c2.matrices)
    (m : Nat) (f : Command → Command)
    (hr : ∀ c, (f c).readSubmatrices = c.readSubmatrices)
    (hw : ∀ c, (f c).writeSubmatrices = c.writeSubmatrices) :
    ∀ l : List Command, writtenBeforeReadGo c1 m (l.map f) = writtenBeforeReadGo c2 m l := by
  intro l
  induction l with
  | nil => rfl
  | cons c rest ih =>
    simp only [List.map_cons, writtenBeforeReadGo]
    have h1 : c1.readsMatrix (f c) m = c2.readsMatrix c m := by
      rw [readsMatrix_congr hs]
      unfold NnetComputation.readsMatrix
      rw [hr]
    have h2 : c1.wholeWritesMatrix (f c) m = c2.wholeWritesMatrix c m := by
      rw [wholeWritesMatrix_congr hs hm]
      unfold NnetComputation.wholeWritesMatrix
      rw [hw]
    rw [h1, h2, ih]

theorem ruz_submatrices (n : Nnet) (comp : NnetComputation) :
    (RemoveUnnecessaryZeroing n comp).submatrices = comp.submatrices := rfl

theorem ruz_matrices (n : Nnet) (comp : NnetComputation) :
    (RemoveUnnecessaryZeroing n comp).matrices = comp.matrices := rfl

/-- Zero-init elimination does not disturb the analyzer's written-before-read
result for any matrix: the pass only changes allocation kinds, which are not
data accesses. -/
theorem writtenBeforeRead_ruz (n : Nnet) (comp : NnetComputation) (m : Nat) :
    (RemoveUnnecessaryZeroing n comp).writtenBeforeRead m = comp.writtenBeforeRead m := by
  unfold NnetComputation.writtenBeforeRead
  exact @writtenBeforeReadGo_map_invariant (RemoveUnnecessaryZeroing n comp) comp
    rfl rfl m (downgradeCmd comp)
    (readSubmatrices_downgradeCmd comp) (writeSubmatrices_downgradeCmd comp)
    comp.commands

theorem downgradeCmd_of_not_zeroed (c1 : NnetComputation) {c : Command}
    (h : ∀ m, c ≠ .allocMatrixZeroed m) : downgradeCmd c1 c = c := by
  cases c <;> first
    | rfl
    | exact absurd rfl (h _)

/-- Helper for idempotence: applying the downgrade step of a second run to
the output of a first run changes nothing. -/
theorem downgradeCmd_downgradeCmd (n : Nnet) (comp : NnetComputation) (c : Command) :
    downgradeCmd (RemoveUnnecessaryZeroing n comp) (downgradeCmd comp c) = downgradeCmd comp c := by
  cases c with
  | allocMatrixZeroed m =>
    by_cases h : comp.writtenBeforeRead m = true
    · simp only [downgradeCmd, h, if_pos]
    · have hf : comp.writtenBeforeRead m = false := by
        cases hv : comp.writtenBeforeRead m
        · rfl
        · exact absurd hv h
      simp only [downgradeCmd, hf, Bool.false_eq_true, if_false,
        writtenBeforeRead_ruz n comp m]
  | _ =>
    rw [downgradeCmd_of_not_zeroed comp (by intro m h; cases h)]
    rw [downgradeCmd_of_not_zeroed _ (by intro m h; cases h)]

/-- Zero-init elimination is idempotent. -/
theorem ruz_idem (n n' : Nnet) (comp : NnetComputation) :
    RemoveUnnecessaryZeroing n' (RemoveUnnecessaryZeroing n comp) =
      RemoveUnnecessaryZeroing n comp := by
  unfold RemoveUnnecessaryZeroing
  cases comp with
  | mk mats sms cmds flag =>
    simp only [NnetComputation.mk.injEq, and_true, true_and]
    rw [List.map_map]
    apply List.map_congr_left
    intro c _
    exact downgradeCmd_downgradeCmd n ⟨mats, sms, cmds, flag⟩ c

/-! ## Sizing-command motion (spec section 4.5, header lines 136-138) -/

/-- The sizing commands the motion pass may move: plain allocations and plain
deallocations.  Reuse commands are tied to two matrices at once and stay put. -/
def Command.isMovableSizing : Command → Bool
  | .allocMatrixZeroed _ => true
  | .allocMatrixUndefined _ => true
  | .deallocMatrix _ => true
  | _ => false

/-- The non-movable commands of a computation, in order. -/
def coreOf (comp : NnetComputation) : List Command :=
  comp.commands.filter (fun c => !c.isMovableSizing)

/-- The plain allocation command of matrix `m`, if any. -/
def allocCmdOf (comp : NnetComputation) (m : Nat) : Option Command :=
  comp.commands.find? (fun c => c.isPlainAllocFor m)

/-- Whether matrix `m` has a plain deallocation command. -/
def hasPlainDealloc (comp : NnetComputation) (m : Nat) : Bool :=
  comp.commands.any (fun c => c.isPlainDeallocFor m)

/-- The positions (within a given core command list) of the data accesses to
matrix `m`. -/
def coreAccessIdxs (comp : NnetComputation) (core : List Command) (m : Nat) : List Nat :=
  (core.enum.filter (fun p => comp.accessesMatrix p.2 m)).map (fun p => p.1)

/-- The allocations to be placed directly before core position `j`: the plain
allocation of every matrix whose first data access is at `j`. -/
def allocsAt (n : Nat) (allocOf : Nat → Option Command) (firstA : Nat → Option Nat)
    (j : Nat) : List Command :=
  (List.range n).filterMap (fun m => if firstA m = some j then allocOf m else none)

/-- The deallocations to be placed directly after core position `j`: a plain
deallocation of every matrix that has one and whose last data access is at `j`. -/
def deallocsAt (n : Nat) (hasD : Nat → Bool) (lastA : Nat → Option Nat)
    (j : Nat) : List Command :=
  (List.range n).filterMap (fun m =>
    if lastA m = some j && hasD m then some (Command.deallocMatrix m) else none)

/-- Interleaves the placed sizing commands with the core commands, tracking
the core position. -/
def rebuildBody (A D : Nat → List Command) : Nat → List Command → List Command
  | _, [] => []
  | j, c :: rest => A j ++ c :: (D j ++ rebuildBody A D (j + 1) rest)

/-- The sizing commands of matrices without any data access: their allocation
immediately followed by their deallocation, appended after everything else. -/
def sizingTail (n : Nat) (allocOf : Nat → Option Command) (hasD : Nat → Bool)
    (aKey firstA : Nat → Option Nat) : List Command :=
  (List.range n).flatMap (fun m =>
    (if aKey m = none then (allocOf m).toList else []) ++
    (if firstA m = none && hasD m then [Command.deallocMatrix m] else []))

/-- The rebuilt command list of the sizing-motion pass. -/
def rebuildSizing (core : List Command) (n : Nat) (allocOf : Nat → Option Command)
    (hasD : Nat → Bool) (aKey firstA lastA : Nat → Option Nat) : List Command :=
  rebuildBody (allocsAt n allocOf aKey) (deallocsAt n hasD lastA) 0 core ++
    sizingTail n allocOf hasD aKey firstA

/-- Modelled from the spec: section 4.5 — `MoveSizingCommands` (declared at
nnet-optimize.h lines 136-138; its body is not under src/) moves commands
that allocate matrices as late as possible (directly before the first data
access) and commands that deallocate matrices as early as possible (directly
after the last data access), as permitted by the analyzer's access data. -/
def MoveSizingCommands (nnet : Nnet) (comp : NnetComputation) : NnetComputation :=
  let core := coreOf comp
  let rebuilt :=
    rebuildSizing core comp.matrices.length (allocCmdOf comp) (hasPlainDealloc comp)
      (fun m => ((coreAccessIdxs comp core m).head?).or
        (core.findIdx? (fun c => c.isDeallocFor m)))
      (fun m => (coreAccessIdxs comp core m).head?)
      (fun m => (coreAccessIdxs comp core m).getLast?)
  { comp with commands := rebuilt }

/-! ### Classification lemmas for sizing commands -/

theorem isPlainAllocFor_isMovable {c : Command} {m : Nat}
    (h : c.isPlainAllocFor m = true) : c.isMovableSizing = true := by
  cases c <;> simp_all [Command.isPlainAllocFor, Command.isMovableSizing]

theorem isPlainDeallocFor_iff {c : Command} {m : Nat} :
    c.isPlainDeallocFor m = true ↔ c = .deallocMatrix m := by
  cases c <;> simp [Command.isPlainDeallocFor]

theorem isPlainAllocFor_of_ne {c : Command} {m m' : Nat}
    (h : c.isPlainAllocFor m = true) (hne : m' ≠ m) : c.isPlainAllocFor m' = false := by
  cases c <;> simp_all [Command.isPlainAllocFor] <;> omega

theorem isPlainAllocFor_deallocMatrix (k m : Nat) :
    (Command.deallocMatrix k).isPlainAllocFor m = false := rfl

theorem isPlainAllocFor_of_isPlainDealloc {c : Command} {m m' : Nat}
    (h : c.isPlainDeallocFor m = true) : c.isPlainAllocFor m' = false := by
  rw [isPlainDeallocFor_iff.mp h]
  rfl

/-! ### Range helpers -/

theorem filterMap_range_single {α : Type} (m : Nat) (f : Nat → Option α)
    (h : ∀ k, k ≠ m → f k = none) :
    ∀ n, m < n → (List.range n).filterMap f = (f m).toList := by
  intro n
  induction n with
  | zero => omega
  | succ n ih =>
    intro hm
    rw [List.range_succ, List.filterMap_append]
    by_cases hc : m = n
    · subst hc
      have hnil : (List.range m).filterMap f = [] := by
        rw [List.filterMap_eq_nil_iff]
        intro k hk
        have hk' : k < m := List.mem_range.mp hk
        exact h k (by omega)
      rw [hnil]
      cases hv : f m <;> simp [List.filterMap_cons, hv]
    · have hm' : m < n := by omega
      have hfn : f n = none := h n (by omega)
      rw [ih hm']
      simp [List.filterMap_cons, hfn]

theorem flatMap_range_single {α : Type} (m : Nat) (f : Nat → List α)
    (h : ∀ k, k ≠ m → f k = []) :
    ∀ n, m < n → (List.range n).flatMap f = f m := by
  intro n
  induction n with
  | zero => omega
  | succ n ih =>
    intro hm
    rw [List.range_succ, List.flatMap_append]
    by_cases hc : m = n
    · subst hc
      have hnil : (List.range m).flatMap f = [] := by
        rw [List.flatMap_eq_nil_iff]
        intro k hk
        have hk' : k < m := List.mem_range.mp hk
        exact h k (by omega)
      simp [hnil]
    · have hm' : m < n := by omega
      have hfn : f n = [] := h n (by omega)
      rw [ih hm']
      simp [hfn]

/-! ### Membership in the rebuilt command list -/

theorem mem_allocsAt {n : Nat} {allocOf : Nat → Option Command} {firstA : Nat → Option Nat}
    {j : Nat} {c : Command} (h : c ∈ allocsAt n allocOf firstA j) :
    ∃ m', m' < n ∧ allocOf m' = some c ∧ firstA m' = some j := by
  simp only [allocsAt, List.mem_filterMap, List.mem_range] at h
  obtain ⟨m', hm', hc⟩ := h
  by_cases hf : firstA m' = some j
  · rw [if_pos hf] at hc
    exact ⟨m', hm', hc, hf⟩
  · rw [if_neg hf] at hc
    cases hc

theorem mem_deallocsAt {n : Nat} {hasD : Nat → Bool} {lastA : Nat → Option Nat}
    {j : Nat} {c : Command} (h : c ∈ deallocsAt n hasD lastA j) :
    ∃ m', m' < n ∧ c = .deallocMatrix m' ∧ lastA m' = some j ∧ hasD m' = true := by
  simp only [deallocsAt, List.mem_filterMap, List.mem_range] at h
  obtain ⟨m', hm', hc⟩ := h
  by_cases hf : (lastA m' = some j && hasD m') = true
  · rw [if_pos hf] at hc
    have := Bool.and_eq_true_iff.mp hf
    exact ⟨m', hm', (Option.some.injEq _ _ ▸ hc).symm, by
      simpa using this.1, this.2⟩
  · rw [if_neg hf] at hc
    cases hc

theorem mem_sizingTail {n : Nat} {allocOf : Nat → Option Command} {hasD : Nat → Bool}
    {aKey firstA : Nat → Option Nat} {c : Command}
    (h : c ∈ sizingTail n allocOf hasD aKey firstA) :
    ∃ m', m' < n ∧
      ((aKey m' = none ∧ allocOf m' = some c) ∨
       (c = .deallocMatrix m' ∧ firstA m' = none ∧ hasD m' = true)) := by
  simp only [sizingTail, List.mem_flatMap, List.mem_range] at h
  obtain ⟨m', hm', hc⟩ := h
  rcases List.mem_append.mp hc with hc1 | hc2
  · by_cases hf : aKey m' = none
    · rw [if_pos hf] at hc1
      exact ⟨m', hm', Or.inl ⟨hf, Option.mem_toList.mp hc1⟩⟩
    · rw [if_neg hf] at hc1
      cases hc1
  · by_cases hd : (firstA m' = none && hasD m') = true
    · rw [if_pos hd] at hc2
      rcases List.mem_singleton.mp hc2 with rfl
      have := Bool.and_eq_true_iff.mp hd
      exact ⟨m', hm', Or.inr ⟨rfl, by simpa using this.1, this.2⟩⟩
    · rw [if_neg hd] at hc2
      cases hc2

theorem mem_rebuildBody {A D : Nat → List Command} {c : Command} :
    ∀ (core : List Command) (j : Nat),
      c ∈ rebuildBody A D j core ↔
        (∃ i, j ≤ i ∧ i < j + core.length ∧ (c ∈ A i ∨ c ∈ D i)) ∨ c ∈ core := by
  intro core
  induction core with
  | nil =>
    intro j
    simp only [rebuildBody, List.not_mem_nil, or_false, List.length_nil]
    constructor
    · intro h
      cases h
    · rintro ⟨i, h1, h2, _⟩
      omega
  | cons d rest ih =>
    intro j
    simp only [rebuildBody, List.mem_append, List.mem_cons, ih (j + 1), List.length_cons]
    constructor
    · rintro (hA | rfl | hD | (⟨i, h1, h2, hi⟩ | hrest))
      · exact Or.inl ⟨j, le_refl j, by omega, Or.inl hA⟩
      · exact Or.inr (Or.inl rfl)
      · exact Or.inl ⟨j, le_refl j, by omega, Or.inr hD⟩
      · exact Or.inl ⟨i, by omega, by omega, hi⟩
      · exact Or.inr (Or.inr hrest)
    · rintro (⟨i, h1, h2, hi⟩ | (rfl | hrest))
      · by_cases hij : i = j
        · subst hij
          rcases hi with hA | hD
          · exact Or.inl hA
          · exact Or.inr (Or.inr (Or.inl hD))
        · exact Or.inr (Or.inr (Or.inr (Or.inl ⟨i, by omega, by omega, hi⟩)))
      · exact Or.inr (Or.inl rfl)
      · exact Or.inr (Or.inr (Or.inr (Or.inr hrest)))

/-- Filtering the rebuilt body back to non-movable commands recovers the core:
all inserted commands are movable sizing commands. -/
theorem filter_rebuildBody {n : Nat} {allocOf : Nat → Option Command} {hasD : Nat → Bool}
    {firstA lastA : Nat → Option Nat}
    (hA : ∀ m a, allocOf m = some a → a.isPlainAllocFor m = true) :
    ∀ (core : List Command) (j : Nat), (∀ c ∈ core, c.isMovableSizing = false) →
      (rebuildBody (allocsAt n allocOf firstA) (deallocsAt n hasD lastA) j core).filter
        (fun c => !c.isMovableSizing) = core := by
  intro core
  induction core with
  | nil =>
    intro j _
    rfl
  | cons d rest ih =>
    intro j hcore
    have hd : d.isMovableSizing = false := hcore d (List.mem_cons_self d rest)
    have hAmov : (allocsAt n allocOf firstA j).filter (fun c => !c.isMovableSizing) = [] := by
      rw [List.filter_eq_nil_iff]
      intro a ha
      obtain ⟨m', _, hsome, _⟩ := mem_allocsAt ha
      simp [isPlainAllocFor_isMovable (hA m' a hsome)]
    have hDmov : (deallocsAt n hasD lastA j).filter (fun c => !c.isMovableSizing) = [] := by
      rw [List.filter_eq_nil_iff]
      intro a ha
      obtain ⟨m', _, rfl, _, _⟩ := mem_deallocsAt ha
      simp [Command.isMovableSizing]
    simp only [rebuildBody, List.filter_append, hAmov, List.filter_cons, hd,
      Bool.not_false, if_pos, List.nil_append]
    rw [hDmov, List.nil_append]
    rw [ih (j + 1) (fun c hc => hcore c (List.mem_cons_of_mem d hc))]

/-- Every command of the sizing tail is a movable sizing command. -/
theorem sizingTail_movable {n : Nat} {allocOf : Nat → Option Command} {hasD : Nat → Bool}
    {aKey firstA : Nat → Option Nat}
    (hA : ∀ m a, allocOf m = some a → a.isPlainAllocFor m = true) :
    ∀ c ∈ sizingTail n allocOf hasD aKey firstA, c.isMovableSizing = true := by
  intro c hc
  obtain ⟨m', _, hor⟩ := mem_sizingTail hc
  rcases hor with ⟨_, hsome⟩ | ⟨rfl, _, _⟩
  · exact isPlainAllocFor_isMovable (hA m' c hsome)
  · rfl

theorem allocCmdOf_isPlainAlloc (comp : NnetComputation) :
    ∀ m a, allocCmdOf comp m = some a → a.isPlainAllocFor m = true := by
  intro m a h
  unfold allocCmdOf at h
  have := List.find?_some h
  simpa using this

theorem mem_coreOf_not_movable {comp : NnetComputation} {c : Command}
    (h : c ∈ coreOf comp) : c.isMovableSizing = false := by
  have := (List.mem_filter.mp h).2
  simpa using this

/-- The sizing-motion pass leaves the core command sequence unchanged. -/
theorem coreOf_msc (nnet : Nnet) (comp : NnetComputation) :
    coreOf (MoveSizingCommands nnet comp) = coreOf comp := by
  show (rebuildSizing (coreOf comp) comp.matrices.length (allocCmdOf comp)
      (hasPlainDealloc comp) _ _ _).filter (fun c => !c.isMovableSizing) = coreOf comp
  unfold rebuildSizing
  rw [List.filter_append]
  rw [filter_rebuildBody (allocCmdOf_isPlainAlloc comp) (coreOf comp) 0
    (fun c hc => mem_coreOf_not_movable hc)]
  have htail : (sizingTail comp.matrices.length (allocCmdOf comp) (hasPlainDealloc comp)
      (fun m => ((coreAccessIdxs comp (coreOf comp) m).head?).or
        ((coreOf comp).findIdx? (fun c => c.isDeallocFor m)))
      (fun m => (coreAccessIdxs comp (coreOf comp) m).head?)).filter
        (fun c => !c.isMovableSizing) = [] := by
    rw [List.filter_eq_nil_iff]
    intro a ha
    simp [sizingTail_movable (allocCmdOf_isPlainAlloc comp) a ha]
  rw [htail, List.append_nil]

/-! ### Locating the plain allocation of a matrix in the rebuilt list -/

theorem find?_allocsAt {n m : Nat} {allocOf : Nat → Option Command} {firstA : Nat → Option Nat}
    (hA : ∀ m a, allocOf m = some a → a.isPlainAllocFor m = true) (hm : m < n) (j : Nat) :
    (allocsAt n allocOf firstA j).find? (fun c => c.isPlainAllocFor m) =
      if firstA m = some j then allocOf m else none := by
  rw [← List.filter_head?]
  unfold allocsAt
  rw [List.filter_filterMap]
  rw [filterMap_range_single m _ ?hother n hm]
  case hother =>
    intro k hk
    by_cases hf : firstA k = some j
    · rw [if_pos hf]
      cases hv : allocOf k with
      | none => rfl
      | some a =>
        have hpa : a.isPlainAllocFor m = false :=
          isPlainAllocFor_of_ne (hA k a hv) (Ne.symm hk)
        simp [Option.filter, hpa]
    · rw [if_neg hf]
      rfl
  by_cases hf : firstA m = some j
  · rw [if_pos hf]
    cases hv : allocOf m with
    | none => rfl
    | some a =>
      have hpa : a.isPlainAllocFor m = true := hA m a hv
      simp [Option.filter, hpa]
  · rw [if_neg hf]
    rfl

theorem find?_deallocsAt {n m : Nat} {hasD : Nat → Bool} {lastA : Nat → Option Nat} (j : Nat) :
    (deallocsAt n hasD lastA j).find? (fun c => c.isPlainAllocFor m) = none := by
  rw [List.find?_eq_none]
  intro c hc
  obtain ⟨m', _, rfl, _, _⟩ := mem_deallocsAt hc
  simp [Command.isPlainAllocFor]

theorem find?_rebuildBody_of_none {n m : Nat} {allocOf : Nat → Option Command}
    {hasD : Nat → Bool} {firstA lastA : Nat → Option Nat}
    (hA : ∀ m a, allocOf m = some a → a.isPlainAllocFor m = true) (hm : m < n)
    (hnone : firstA m = none) :
    ∀ (core : List Command) (j : Nat), (∀ c ∈ core, c.isMovableSizing = false) →
      (rebuildBody (allocsAt n allocOf firstA) (deallocsAt n hasD lastA) j core).find?
        (fun c => c.isPlainAllocFor m) = none := by
  intro core
  induction core with
  | nil =>
    intro j _
    rfl
  | cons d rest ih =>
    intro j hcore
    have hd : d.isPlainAllocFor m = false := by
      cases hv : d.isPlainAllocFor m
      · rfl
      · have := isPlainAllocFor_isMovable hv
        rw [hcore d (List.mem_cons_self d rest)] at this
        cases this
    simp only [rebuildBody, List.find?_append]
    rw [find?_allocsAt hA hm j]
    rw [List.find?_cons_of_neg _ (by simp [hd])]
    rw [List.find?_append, find?_deallocsAt j]
    rw [ih (j + 1) (fun c hc => hcore c (List.mem_cons_of_mem d hc))]
    simp [hnone]

theorem find?_rebuildBody_of_some {n m : Nat} {allocOf : Nat → Option Command}
    {hasD : Nat → Bool} {firstA lastA : Nat → Option Nat}
    (hA : ∀ m a, allocOf m = some a → a.isPlainAllocFor m = true) (hm : m < n)
    {j0 : Nat} (hsome : firstA m = some j0) :
    ∀ (core : List Command) (j : Nat), (∀ c ∈ core, c.isMovableSizing = false) →
      (rebuildBody (allocsAt n allocOf firstA) (deallocsAt n hasD lastA) j core).find?
        (fun c => c.isPlainAllocFor m) =
        if j ≤ j0 ∧ j0 < j + core.length then allocOf m else none := by
  intro core
  induction core with
  | nil =>
    intro j _
    have : ¬(j ≤ j0 ∧ j0 < j + ([] : List Command).length) := by
      simp only [List.length_nil]
      omega
    rw [if_neg this]
    rfl
  | cons d rest ih =>
    intro j hcore
    have hd : d.isPlainAllocFor m = false := by
      cases hv : d.isPlainAllocFor m
      · rfl
      · have := isPlainAllocFor_isMovable hv
        rw [hcore d (List.mem_cons_self d rest)] at this
        cases this
    simp only [rebuildBody, List.find?_append]
    rw [find?_allocsAt hA hm j]
    rw [List.find?_cons_of_neg _ (by simp [hd])]
    rw [List.find?_append, find?_deallocsAt j]
    rw [ih (j + 1) (fun c hc => hcore c (List.mem_cons_of_mem d hc))]
    rw [hsome]
    simp only [Option.some.injEq, Option.none_or, List.length_cons]
    by_cases hj : j0 = j
    · subst hj
      rw [if_pos rfl]
      have hcond : j0 ≤ j0 ∧ j0 < j0 + (rest.length + 1) := ⟨le_refl j0, by omega⟩
      rw [if_pos hcond]
      cases hv : allocOf m with
      | none =>
        simp only [Option.none_or]
        split <;> rfl
      | some a => rfl
    · rw [if_neg hj]
      rw [Option.none_or]
      have hiff : (j + 1 ≤ j0 ∧ j0 < j + 1 + rest.length) ↔
          (j ≤ j0 ∧ j0 < j + (rest.length + 1)) := by omega
      rw [if_congr hiff rfl rfl]

theorem find?_sizingTail {n m : Nat} {allocOf : Nat → Option Command} {hasD : Nat → Bool}
    {aKey firstA : Nat → Option Nat}
    (hA : ∀ m a, allocOf m = some a → a.isPlainAllocFor m = true) (hm : m < n) :
    (sizingTail n allocOf hasD aKey firstA).find? (fun c => c.isPlainAllocFor m) =
      if aKey m = none then allocOf m else none := by
  rw [← List.filter_head?]
  unfold sizingTail
  rw [List.filter_flatMap]
  rw [flatMap_range_single m _ ?hother n hm]
  case hother =>
    intro k hk
    rw [List.filter_eq_nil_iff]
    intro a ha
    rcases List.mem_append.mp ha with h1 | h2
    · by_cases hf : aKey k = none
      · rw [if_pos hf] at h1
        have hv : allocOf k = some a := Option.mem_toList.mp h1
        simp [isPlainAllocFor_of_ne (hA k a hv) (Ne.symm hk)]
      · rw [if_neg hf] at h1
        cases h1
    · by_cases hdk : (firstA k = none && hasD k) = true
      · rw [if_pos hdk] at h2
        rcases List.mem_singleton.mp h2 with rfl
        simp [Command.isPlainAllocFor]
      · rw [if_neg hdk] at h2
        cases h2
  rw [List.filter_append]
  have hdpart : (if (firstA m = none && hasD m) = true
      then [Command.deallocMatrix m] else []).filter
      (fun c => c.isPlainAllocFor m) = [] := by
    split <;> simp [Command.isPlainAllocFor]
  rw [hdpart, List.append_nil]
  by_cases hf : aKey m = none
  · rw [if_pos hf, if_pos hf]
    cases hv : allocOf m with
    | none => rfl
    | some a =>
      have hpa : a.isPlainAllocFor m = true := hA m a hv
      simp [List.filter_cons, hpa, Option.toList]
  · rw [if_neg hf, if_neg hf]
    rfl

/-- The sizing-motion pass does not change which plain allocation command a
matrix has. -/
theorem allocCmdOf_msc (nnet : Nnet) (comp : NnetComputation) (m : Nat)
    (hm : m < comp.matrices.length) :
    allocCmdOf (MoveSizingCommands nnet comp) m = allocCmdOf comp m := by
  have hA := allocCmdOf_isPlainAlloc comp
  have hcore : ∀ c ∈ coreOf comp, c.isMovableSizing = false :=
    fun c hc => mem_coreOf_not_movable hc
  show (rebuildSizing (coreOf comp) comp.matrices.length (allocCmdOf comp)
      (hasPlainDealloc comp) _ _ _).find? (fun c => c.isPlainAllocFor m) = allocCmdOf comp m
  unfold rebuildSizing
  rw [List.find?_append]
  cases hk : ((coreAccessIdxs comp (coreOf comp) m).head?).or
      ((coreOf comp).findIdx? (fun c => c.isDeallocFor m)) with
  | none =>
    rw [find?_rebuildBody_of_none hA hm hk (coreOf comp) 0 hcore]
    rw [find?_sizingTail hA hm]
    simp [hk]
  | some j0 =>
    have hj0 : j0 < (coreOf comp).length := by
      cases hh : (coreAccessIdxs comp (coreOf comp) m).head? with
      | some j1 =>
        rw [hh, Option.or_some] at hk
        cases hk
        have hmem : j0 ∈ coreAccessIdxs comp (coreOf comp) m :=
          List.mem_of_mem_head? (by rw [hh]; rfl)
        simp only [coreAccessIdxs, List.mem_map, List.mem_filter] at hmem
        obtain ⟨p, ⟨hp, _⟩, rfl⟩ := hmem
        exact (List.mem_enum hp).1
      | none =>
        rw [hh, Option.none_or] at hk
        exact (List.findIdx?_eq_some_iff_findIdx_eq.mp hk).1
    rw [find?_rebuildBody_of_some hA hm hk (coreOf comp) 0 hcore]
    rw [if_pos ⟨Nat.zero_le j0, by omega⟩]
    rw [find?_sizingTail hA hm]
    simp [hk]

theorem coreAccessIdxs_lt {comp : NnetComputation} {core : List Command} {m k : Nat}
    (h : k ∈ coreAccessIdxs comp core m) : k < core.length := by
  simp only [coreAccessIdxs, List.mem_map, List.mem_filter] at h
  obtain ⟨p, ⟨hp, _⟩, rfl⟩ := h
  exact (List.mem_enum hp).1

/-- The sizing-motion pass does not change whether a matrix has a plain
deallocation command. -/
theorem hasPlainDealloc_msc (nnet : Nnet) (comp : NnetComputation) (m : Nat)
    (hm : m < comp.matrices.length) :
    hasPlainDealloc (MoveSizingCommands nnet comp) m = hasPlainDealloc comp m := by
  have hA := allocCmdOf_isPlainAlloc comp
  cases hv : hasPlainDealloc comp m with
  | true =>
    show (MoveSizingCommands nnet comp).commands.any (fun c => c.isPlainDeallocFor m) = true
    rw [List.any_eq_true]
    refine ⟨Command.deallocMatrix m, ?memb, by simp [Command.isPlainDeallocFor]⟩
    show Command.deallocMatrix m ∈
      rebuildSizing (coreOf comp) comp.matrices.length (allocCmdOf comp)
        (hasPlainDealloc comp) _ _ _
    unfold rebuildSizing
    rw [List.mem_append]
    by_cases hacc : coreAccessIdxs comp (coreOf comp) m = []
    · refine Or.inr ?_
      unfold sizingTail
      rw [List.mem_flatMap]
      refine ⟨m, List.mem_range.mpr hm, ?_⟩
      rw [List.mem_append]
      refine Or.inr ?_
      rw [if_pos (by simp [hacc, hv])]
      exact List.mem_singleton.mpr rfl
    · obtain ⟨j0, hj0⟩ : ∃ j0,
          (coreAccessIdxs comp (coreOf comp) m).getLast? = some j0 := by
        cases hl : (coreAccessIdxs comp (coreOf comp) m).getLast? with
        | none => exact absurd (List.getLast?_eq_none_iff.mp hl) hacc
        | some j0 => exact ⟨j0, rfl⟩
      have hlen : j0 < (coreOf comp).length :=
        coreAccessIdxs_lt (List.mem_of_mem_getLast? (by rw [hj0]; rfl))
      refine Or.inl ((mem_rebuildBody (coreOf comp) 0).mpr (Or.inl ⟨j0, Nat.zero_le j0,
        by omega, Or.inr ?_⟩))
      unfold deallocsAt
      rw [List.mem_filterMap]
      refine ⟨m, List.mem_range.mpr hm, ?_⟩
      rw [if_pos (by simp [hj0, hv])]
  | false =>
    show (MoveSizingCommands nnet comp).commands.any (fun c => c.isPlainDeallocFor m) = false
    rw [List.any_eq_false]
    intro c hc
    intro hpc
    rcases isPlainDeallocFor_iff.mp hpc with rfl
    revert hc
    show Command.deallocMatrix m ∉
      rebuildSizing (coreOf comp) comp.matrices.length (allocCmdOf comp)
        (hasPlainDealloc comp) _ _ _
    unfold rebuildSizing
    rw [List.mem_append]
    rintro (hbody | htail)
    · rcases (mem_rebuildBody (coreOf comp) 0).mp hbody with ⟨i, _, _, hAD⟩ | hcore
      · rcases hAD with hAi | hDi
        · obtain ⟨m', _, hsome, _⟩ := mem_allocsAt hAi
          have := hA m' _ hsome
          cases this
        · obtain ⟨m', _, heq, _, hd⟩ := mem_deallocsAt hDi
          have hmm : m = m' := by
            injection heq
          rw [← hmm] at hd
          rw [hv] at hd
          cases hd
      · have := mem_coreOf_not_movable hcore
        cases this
    · obtain ⟨m', _, hor⟩ := mem_sizingTail htail
      rcases hor with ⟨_, hsome⟩ | ⟨heq, _, hd⟩
      · have := hA m' _ hsome
        cases this
      · have hmm : m = m' := by
          injection heq
        rw [← hmm] at hd
        rw [hv] at hd
        cases hd

/-! ### Congruence and idempotence of sizing motion -/

theorem coreAccessIdxs_congr {c1 c2 : NnetComputation}
    (h : c1.submatrices = c2.submatrices) (core : List Command) (m : Nat) :
    coreAccessIdxs c1 core m = coreAccessIdxs c2 core m := by
  unfold coreAccessIdxs
  congr 1
  apply List.filter_congr
  intro p _
  exact accessesMatrix_congr h p.2 m

theorem rebuildBody_congr {A1 A2 D1 D2 : Nat → List Command}
    (hA : ∀ j, A1 j = A2 j) (hD : ∀ j, D1 j = D2 j) :
    ∀ (core : List Command) (j : Nat), rebuildBody A1 D1 j core = rebuildBody A2 D2 j core := by
  intro core
  induction core with
  | nil =>
    intro j
    rfl
  | cons d rest ih =>
    intro j
    simp only [rebuildBody, hA j, hD j, ih (j + 1)]

theorem rebuildSizing_congr {core : List Command} {n : Nat}
    {a1 a2 : Nat → Option Command} {d1 d2 : Nat → Bool}
    {k1 k2 f1 f2 l1 l2 : Nat → Option Nat}
    (ha : ∀ m, m < n → a1 m = a2 m) (hd : ∀ m, m < n → d1 m = d2 m)
    (hk : ∀ m, m < n → k1 m = k2 m)
    (hf : ∀ m, m < n → f1 m = f2 m) (hl : ∀ m, m < n → l1 m = l2 m) :
    rebuildSizing core n a1 d1 k1 f1 l1 = rebuildSizing core n a2 d2 k2 f2 l2 := by
  unfold rebuildSizing
  have hAeq : ∀ j, allocsAt n a1 k1 j = allocsAt n a2 k2 j := by
    intro j
    unfold allocsAt
    apply List.filterMap_congr
    intro m hmem
    have hm := List.mem_range.mp hmem
    rw [hk m hm, ha m hm]
  have hDeq : ∀ j, deallocsAt n d1 l1 j = deallocsAt n d2 l2 j := by
    intro j
    unfold deallocsAt
    apply List.filterMap_congr
    intro m hmem
    have hm := List.mem_range.mp hmem
    rw [hl m hm, hd m hm]
  have hTeq : sizingTail n a1 d1 k1 f1 = sizingTail n a2 d2 k2 f2 := by
    unfold sizingTail
    apply List.flatMap_congr
    intro m hmem
    have hm := List.mem_range.mp hmem
    rw [hk m hm, hf m hm, ha m hm, hd m hm]
  rw [rebuildBody_congr hAeq hDeq core 0, hTeq]

theorem NnetComputation.ext4 {a b : NnetComputation} (h1 : a.matrices = b.matrices)
    (h2 : a.submatrices = b.submatrices) (h3 : a.commands = b.commands)
    (h4 : a.consolidationDone = b.consolidationDone) : a = b := by
  cases a
  cases b
  simp only at h1 h2 h3 h4
  rw [h1, h2, h3, h4]

theorem MoveSizingCommands_matrices (nnet : Nnet) (comp : NnetComputation) :
    (MoveSizingCommands nnet comp).matrices = comp.matrices := rfl

theorem MoveSizingCommands_commands (nnet : Nnet) (comp : NnetComputation) :
    (MoveSizingCommands nnet comp).commands =
      rebuildSizing (coreOf comp) comp.matrices.length (allocCmdOf comp)
        (hasPlainDealloc comp)
        (fun m => ((coreAccessIdxs comp (coreOf comp) m).head?).or
          ((coreOf comp).findIdx? (fun c => c.isDeallocFor m)))
        (fun m => (coreAccessIdxs comp (coreOf comp) m).head?)
        (fun m => (coreAccessIdxs comp (coreOf comp) m).getLast?) := rfl

/-- The sizing-motion pass is idempotent: a second run finds every sizing
command already in its extremal position and rebuilds the same sequence. -/
theorem msc_idem (n1 n2 : Nnet) (comp : NnetComputation) :
    MoveSizingCommands n2 (MoveSizingCommands n1 comp) = MoveSizingCommands n1 comp := by
  have hcore := coreOf_msc n1 comp
  have hidx : ∀ m, coreAccessIdxs (MoveSizingCommands n1 comp)
      (coreOf (MoveSizingCommands n1 comp)) m = coreAccessIdxs comp (coreOf comp) m := by
    intro m
    rw [hcore]
    exact coreAccessIdxs_congr rfl (coreOf comp) m
  refine NnetComputation.ext4 rfl rfl ?_ rfl
  rw [MoveSizingCommands_commands n2 (MoveSizingCommands n1 comp),
    MoveSizingCommands_commands n1 comp]
  simp only [hidx, hcore, MoveSizingCommands_matrices]
  exact rebuildSizing_congr (fun m hm => allocCmdOf_msc n1 comp m hm)
    (fun m hm => hasPlainDealloc_msc n1 comp m hm) (fun m _ => rfl) (fun m _ => rfl)
    (fun m _ => rfl)

/-! ## Allocation reuse (spec section 4.6, header lines 140-144) -/

/-- The shape (rows, cols) of matrix `m`, when `m` is a live matrix id. -/
def NnetComputation.shapeOf (comp : NnetComputation) (m : Nat) : Option (Nat × Nat) :=
  match comp.matrices[m]? with
  | some mat => some (mat.numRows, mat.numCols)
  | none => none

/-- Whether `c` is a plain allocation of a matrix of shape `s`. -/
def isPlainAllocOfShape (sh : Nat → Option (Nat × Nat)) (s : Nat × Nat) : Command → Bool
  | .allocMatrixZeroed m => sh m = some s
  | .allocMatrixUndefined m => sh m = some s
  | _ => false

/-- Replaces the first plain allocation of shape `s` in the list by the
matching reuse command taking over matrix `src`, keeping the zeroed or
unzeroed variant of the original allocation; `none` when there is no such
allocation. -/
def replaceFirstAlloc (sh : Nat → Option (Nat × Nat)) (s : Nat × Nat) (src : Nat) :
    List Command → Option (List Command)
  | [] => none
  | c :: rest =>
    match c with
    | .allocMatrixZeroed m =>
      if sh m = some s then some (Command.allocFromOtherZeroed m src :: rest)
      else (replaceFirstAlloc sh s src rest).map (fun l => Command.allocMatrixZeroed m :: l)
    | .allocMatrixUndefined m =>
      if sh m = some s then some (Command.allocFromOther m src :: rest)
      else (replaceFirstAlloc sh s src rest).map (fun l => Command.allocMatrixUndefined m :: l)
    | cOther => (replaceFirstAlloc sh s src rest).map (fun l => cOther :: l)

theorem replaceFirstAlloc_length {sh : Nat → Option (Nat × Nat)} {s : Nat × Nat} {src : Nat} :
    ∀ {l l' : List Command}, replaceFirstAlloc sh s src l = some l' → l'.length = l.length := by
  intro l
  induction l with
  | nil =>
    intro l' h
    cases h
  | cons c rest ih =>
    intro l' h
    cases c <;> simp only [replaceFirstAlloc] at h <;>
      first
      | (rcases Option.map_eq_some'.mp h with ⟨l'', hrec, rfl⟩
         simp [ih hrec])
      | (split at h
         · cases h
           simp
         · rcases Option.map_eq_some'.mp h with ⟨l'', hrec, rfl⟩
           simp [ih hrec])

/-- Modelled from the spec: section 4.6 — the scan of `RemoveUnnecessaryAllocation`
(declared at nnet-optimize.h lines 140-144; its body is not under src/): on
finding a deallocation of a matrix of some shape that is later followed by a
plain allocation of a matrix of the same shape, the pair is replaced by a
single kAllocFromOther / kAllocFromOtherZeroed reuse command (the variant
matching the replaced allocation) sitting at the allocation position. -/
def ruaGo (sh : Nat → Option (Nat × Nat)) : List Command → List Command
  | [] => []
  | c :: rest =>
    match c with
    | .deallocMatrix m =>
      match sh m with
      | some s =>
        match hr : replaceFirstAlloc sh s m rest with
        | some rest' => ruaGo sh rest'
        | none => Command.deallocMatrix m :: ruaGo sh rest
      | none => Command.deallocMatrix m :: ruaGo sh rest
    | cOther => cOther :: ruaGo sh rest
  termination_by l => l.length
  decreasing_by
    all_goals simp only [List.length_cons]
    all_goals first
      | (rw [replaceFirstAlloc_length hr]; omega)
      | omega

/-- Modelled from the spec: section 4.6 — `RemoveUnnecessaryAllocation`
detects cases where we deallocate a matrix and then later allocate another
matrix of the same size, replacing them with commands of type kAllocFromOther
or kAllocFromOtherZeroed. -/
def RemoveUnnecessaryAllocation (nnet : Nnet) (comp : NnetComputation) : NnetComputation :=
  { comp with commands := ruaGo comp.shapeOf comp.commands }

theorem replaceFirstAlloc_eq_none_iff {sh : Nat → Option (Nat × Nat)} {s : Nat × Nat}
    {src : Nat} {l : List Command} :
    replaceFirstAlloc sh s src l = none ↔ ∀ c ∈ l, isPlainAllocOfShape sh s c = false := by
  induction l with
  | nil => simp [replaceFirstAlloc]
  | cons c rest ih =>
    cases c with
    | allocMatrixZeroed m =>
      by_cases hc : sh m = some s
      · simp [replaceFirstAlloc, hc, isPlainAllocOfShape]
      · simp [replaceFirstAlloc, hc, isPlainAllocOfShape, Option.map_eq_none', ih]
    | allocMatrixUndefined m =>
      by_cases hc : sh m = some s
      · simp [replaceFirstAlloc, hc, isPlainAllocOfShape]
      · simp [replaceFirstAlloc, hc, isPlainAllocOfShape, Option.map_eq_none', ih]
    | _ =>
      simp only [replaceFirstAlloc, Option.map_eq_none', List.mem_cons]
      rw [ih]
      constructor
      · intro h c hc
        rcases hc with rfl | hc
        · rfl
        · exact h c hc
      · intro h c hc
        exact h c (Or.inr hc)

theorem replaceFirstAlloc_no_new {sh : Nat → Option (Nat × Nat)} {s t : Nat × Nat} {src : Nat} :
    ∀ {l l' : List Command}, replaceFirstAlloc sh s src l = some l' →
      (∀ c ∈ l, isPlainAllocOfShape sh t c = false) →
      ∀ c ∈ l', isPlainAllocOfShape sh t c = false := by
  intro l
  induction l with
  | nil =>
    intro l' h
    cases h
  | cons c rest ih =>
    intro l' h habs
    have habs_head : isPlainAllocOfShape sh t c = false := habs c (List.mem_cons_self c rest)
    have habs_rest : ∀ d ∈ rest, isPlainAllocOfShape sh t d = false :=
      fun d hd => habs d (List.mem_cons_of_mem c hd)
    cases c with
    | allocMatrixZeroed m =>
      rw [replaceFirstAlloc] at h
      split at h
      · cases h
        intro d hd
        rcases List.mem_cons.mp hd with rfl | hd
        · rfl
        · exact habs_rest d hd
      · rcases Option.map_eq_some'.mp h with ⟨l'', hrec, rfl⟩
        intro d hd
        rcases List.mem_cons.mp hd with rfl | hd
        · exact habs_head
        · exact ih hrec habs_rest d hd
    | allocMatrixUndefined m =>
      rw [replaceFirstAlloc] at h
      split at h
      · cases h
        intro d hd
        rcases List.mem_cons.mp hd with rfl | hd
        · rfl
        · exact habs_rest d hd
      · rcases Option.map_eq_some'.mp h with ⟨l'', hrec, rfl⟩
        intro d hd
        rcases List.mem_cons.mp hd with rfl | hd
        · exact habs_head
        · exact ih hrec habs_rest d hd
    | _ =>
      rw [replaceFirstAlloc] at h
      case _ =>
        rcases Option.map_eq_some'.mp h with ⟨l'', hrec, rfl⟩
        intro d hd
        rcases List.mem_cons.mp hd with rfl | hd
        · exact habs_head
        · exact ih hrec habs_rest d hd
      all_goals (intro k hk; cases hk)

theorem ruaGo_nil {sh : Nat → Option (Nat × Nat)} : ruaGo sh [] = [] := by
  rw [ruaGo]

theorem ruaGo_cons_dealloc_some {sh : Nat → Option (Nat × Nat)} {m : Nat} {s : Nat × Nat}
    {rest rest' : List Command} (hs : sh m = some s)
    (hr : replaceFirstAlloc sh s m rest = some rest') :
    ruaGo sh (Command.deallocMatrix m :: rest) = ruaGo sh rest' := by
  rw [ruaGo]
  simp only [hs]
  split
  · next r2 hr2 =>
    rw [hr] at hr2
    cases hr2
    rfl
  · next hr2 =>
    rw [hr] at hr2
    cases hr2

theorem ruaGo_cons_dealloc_none {sh : Nat → Option (Nat × Nat)} {m : Nat} {s : Nat × Nat}
    {rest : List Command} (hs : sh m = some s)
    (hr : replaceFirstAlloc sh s m rest = none) :
    ruaGo sh (Command.deallocMatrix m :: rest) = Command.deallocMatrix m :: ruaGo sh rest := by
  rw [ruaGo]
  simp only [hs]
  split
  · next r2 hr2 =>
    rw [hr] at hr2
    cases hr2
  · rfl

theorem ruaGo_cons_dealloc_noshape {sh : Nat → Option (Nat × Nat)} {m : Nat}
    {rest : List Command} (hs : sh m = none) :
    ruaGo sh (Command.deallocMatrix m :: rest) = Command.deallocMatrix m :: ruaGo sh rest := by
  rw [ruaGo]
  simp only [hs]

theorem ruaGo_cons_other {sh : Nat → Option (Nat × Nat)} {c : Command} {rest : List Command}
    (hne : ∀ m, c ≠ Command.deallocMatrix m) :
    ruaGo sh (c :: rest) = c :: ruaGo sh rest := by
  cases c <;> first
    | (exact absurd rfl (hne _))
    | (rw [ruaGo]
       all_goals (intro k hk; cases hk))

theorem ruaGo_no_new {sh : Nat → Option (Nat × Nat)} {t : Nat × Nat} :
    ∀ l : List Command, (∀ c ∈ l, isPlainAllocOfShape sh t c = false) →
      ∀ c ∈ ruaGo sh l, isPlainAllocOfShape sh t c = false := by
  intro l
  induction l using ruaGo.induct sh with
  | case1 =>
    intro _ c hc
    rw [ruaGo_nil] at hc
    cases hc
  | case2 rest m s hs rest' hr ih =>
    intro habs
    have habs_rest : ∀ d ∈ rest, isPlainAllocOfShape sh t d = false :=
      fun d hd => habs d (List.mem_cons_of_mem _ hd)
    rw [ruaGo_cons_dealloc_some hs hr]
    exact ih (replaceFirstAlloc_no_new hr habs_rest)
  | case3 rest m s hs hr ih =>
    intro habs
    rw [ruaGo_cons_dealloc_none hs hr]
    intro c hc
    rcases List.mem_cons.mp hc with rfl | hc
    · rfl
    · exact ih (fun d hd => habs d (List.mem_cons_of_mem _ hd)) c hc
  | case4 rest m hs ih =>
    intro habs
    rw [ruaGo_cons_dealloc_noshape hs]
    intro c hc
    rcases List.mem_cons.mp hc with rfl | hc
    · rfl
    · exact ih (fun d hd => habs d (List.mem_cons_of_mem _ hd)) c hc
  | case5 rest cOther hne ih =>
    intro habs
    rw [ruaGo_cons_other (fun m hm => hne m hm)]
    intro d hd
    rcases List.mem_cons.mp hd with rfl | hd
    · exact habs d (List.mem_cons_self d rest)
    · exact ih (fun e he => habs e (List.mem_cons_of_mem _ he)) d hd

/-- The allocation-reuse scan is idempotent: after one run, no remaining
deallocation is followed by a same-shape plain allocation, so a second run
changes nothing. -/
theorem ruaGo_idem (sh : Nat → Option (Nat × Nat)) :
    ∀ l : List Command, ruaGo sh (ruaGo sh l) = ruaGo sh l := by
  intro l
  induction l using ruaGo.induct sh with
  | case1 => rw [ruaGo_nil, ruaGo_nil]
  | case2 rest m s hs rest' hr ih =>
    rw [ruaGo_cons_dealloc_some hs hr]
    exact ih
  | case3 rest m s hs hr ih =>
    rw [ruaGo_cons_dealloc_none hs hr]
    have habs : ∀ c ∈ ruaGo sh rest, isPlainAllocOfShape sh s c = false :=
      ruaGo_no_new rest (replaceFirstAlloc_eq_none_iff.mp hr)
    rw [ruaGo_cons_dealloc_none hs (replaceFirstAlloc_eq_none_iff.mpr habs)]
    rw [ih]
  | case4 rest m hs ih =>
    rw [ruaGo_cons_dealloc_noshape hs]
    rw [ruaGo_cons_dealloc_noshape hs]
    rw [ih]
  | case5 rest cOther hne ih =>
    rw [ruaGo_cons_other (fun m hm => hne m hm)]
    rw [ruaGo_cons_other (fun m hm => hne m hm)]
    rw [ih]

/-- Allocation reuse is idempotent at the pass level. -/
theorem rua_idem (n1 n2 : Nnet) (comp : NnetComputation) :
    RemoveUnnecessaryAllocation n2 (RemoveUnnecessaryAllocation n1 comp) =
      RemoveUnnecessaryAllocation n1 comp := by
  refine NnetComputation.ext4 rfl rfl ?_ rfl
  show ruaGo (RemoveUnnecessaryAllocation n1 comp).shapeOf
      (ruaGo comp.shapeOf comp.commands) = ruaGo comp.shapeOf comp.commands
  have hsh : (RemoveUnnecessaryAllocation n1 comp).shapeOf = comp.shapeOf := rfl
  rw [hsh]
  exact ruaGo_idem comp.shapeOf comp.commands

/-! ## Variable merging (spec section 4.2, header lines 116-120) -/

def Command.isPropagate : Command → Bool
  | .propagate _ _ => true
  | _ => false

def Command.isBackprop : Command → Bool
  | .backprop _ _ => true
  | _ => false

/-- Modelled from the spec: section 4.2 — the in-place gates: merging is
permitted only if in-place execution is allowed for the opcodes touching the
pair: forward propagate ops need `propagate_in_place`, backward backprop ops
need `backprop_in_place`. -/
def mergeInPlaceOk (config : NnetOptimizeOptions) (comp : NnetComputation) (a b : Nat) : Bool :=
  (config.propagate_in_place ||
    comp.commands.all (fun c =>
      !(c.isPropagate && (comp.accessesMatrix c a || comp.accessesMatrix c b)))) &&
  (config.backprop_in_place ||
    comp.commands.all (fun c =>
      !(c.isBackprop && (comp.accessesMatrix c a || comp.accessesMatrix c b))))

/-- Modelled from the spec: section 4.2 — merging must not change the
initialization-kind requirements of the sink: the absorbed destination either
was allocated uninitialised, or is wholly written by the copy command being
eliminated. -/
def mergeInitKindOk (comp : NnetComputation) (b i : Nat) : Bool :=
  (match allocCmdOf comp b with
   | some (.allocMatrixUndefined _) => true
   | _ => false) ||
  (match comp.commands[i]? with
   | some c => comp.wholeWritesMatrix c b
   | none => false)

/-- Modelled from the spec: section 4.2 — the full safety check for merging
the pair of variables backing matrices `a` (the copy source) and `b` (the
copy destination) at the copy command index `i`: whole-matrix views of equal
shape, live intervals overlapping only at `i` (every access of `a` at or
before `i`, every access of `b` at or after `i`), both matrices having plain
allocation and deallocation commands, the in-place gates and the
initialization-kind condition. -/
def mergePairOk (config : NnetOptimizeOptions) (comp : NnetComputation)
    (i srcS dstS a b : Nat) : Bool :=
  decide (a ≠ b) &&
  comp.smCoversMatrix srcS a && comp.smCoversMatrix dstS b &&
  decide (comp.shapeOf a = comp.shapeOf b) && (comp.shapeOf a).isSome &&
  (comp.accessIndexes a).all (fun j => decide (j ≤ i)) &&
  (comp.accessIndexes b).all (fun j => decide (i ≤ j)) &&
  (comp.commands.findIdx? (fun c => c.isPlainAllocFor a)).isSome &&
  (comp.commands.findIdx? (fun c => c.isPlainAllocFor b)).isSome &&
  (comp.commands.findIdx? (fun c => c.isPlainDeallocFor a)).isSome &&
  (comp.commands.findIdx? (fun c => c.isPlainDeallocFor b)).isSome &&
  mergeInPlaceOk config comp a b &&
  mergeInitKindOk comp b i

/-- The merge candidate at command index `i`: when the command is a copy
between whole-matrix views of two distinct matrices and the safety check
passes, returns `(i, survivor, absorbed)` where the direction (which matrix
id survives) follows the allow-right-merge / allow-left-merge flags: a right
merge keeps the source (extending its lifetime forward), a left merge keeps
the destination (extending its lifetime backward). -/
def candAt (config : NnetOptimizeOptions) (comp : NnetComputation) (i : Nat) :
    Option (Nat × Nat × Nat) :=
  match comp.commands[i]? with
  | some (.matrixCopy dstS srcS) =>
    match comp.submatrices[srcS]?, comp.submatrices[dstS]? with
    | some smS, some smD =>
      if mergePairOk config comp i srcS dstS smS.matrixId smD.matrixId then
        if config.allow_right_merge then some (i, smS.matrixId, smD.matrixId)
        else if config.allow_left_merge then some (i, smD.matrixId, smS.matrixId)
        else none
      else none
    | _, _ => none
  | _ => none

/-- The first merge candidate of the computation, scanning the command list. -/
def findMergeCand (config : NnetOptimizeOptions) (comp : NnetComputation) :
    Option (Nat × Nat × Nat) :=
  (List.range comp.commands.length).findSome? (fun i => candAt config comp i)

/-- Renames matrix ids in a command (only sizing and reuse commands carry
matrix ids; data commands reference submatrices). -/
def renameMatrixInCmd (f : Nat → Nat) : Command → Command
  | .allocMatrixZeroed m => .allocMatrixZeroed (f m)
  | .allocMatrixUndefined m => .allocMatrixUndefined (f m)
  | .allocFromOther m fromM => .allocFromOther (f m) (f fromM)
  | .allocFromOtherZeroed m fromM => .allocFromOtherZeroed (f m) (f fromM)
  | .deallocMatrix m => .deallocMatrix (f m)
  | c => c

/-- Renames matrix ids throughout the computation (submatrix records and
sizing commands). -/
def renameMatrixInComp (f : Nat → Nat) (comp : NnetComputation) : NnetComputation :=
  { comp with
    submatrices := comp.submatrices.map (fun sm => { sm with matrixId := f sm.matrixId })
    commands := comp.commands.map (renameMatrixInCmd f) }

/-- The per-command action of one merge on the command list: the dropped
allocation and deallocation indices are removed, the copy index is removed
(or blanked to a no-op), everything else is kept. -/
def mergeDropFun (dropAlloc dropDealloc i : Nat) (ra : Bool) : Nat × Command → Option Command :=
  fun p =>
    if p.1 = dropAlloc ∨ p.1 = dropDealloc then none
    else if p.1 = i then (if ra then none else some Command.noOperation)
    else some p.2

/-- Modelled from the spec: section 4.2 and design note section 9 — applying
one merge: rewrite every use of the absorbed matrix id to the survivor
(index rewriting over the arena of submatrices), keep the earlier of the two
allocations and the later of the two deallocations (dropping the other two),
eliminate the copy command (or blank it to a no-op when redundant-assignment
removal is disabled), and remove the absorbed matrix from the matrix list by
moving the last matrix into its slot. -/
def applyMerge (ra : Bool) (comp : NnetComputation) (cand : Nat × Nat × Nat) :
    NnetComputation :=
  let i := cand.1
  let surv := cand.2.1
  let other := cand.2.2
  let aS := (comp.commands.findIdx? (fun c => c.isPlainAllocFor surv)).getD 0
  let aO := (comp.commands.findIdx? (fun c => c.isPlainAllocFor other)).getD 0
  let dS := (comp.commands.findIdx? (fun c => c.isPlainDeallocFor surv)).getD 0
  let dO := (comp.commands.findIdx? (fun c => c.isPlainDeallocFor other)).getD 0
  let dropAlloc := max aS aO
  let dropDealloc := min dS dO
  let comp1 := renameMatrixInComp (fun x => if x = other then surv else x) comp
  let cmds2 := comp1.commands.enum.filterMap (mergeDropFun dropAlloc dropDealloc i ra)
  let lastId := comp.matrices.length - 1
  let mats3 :=
    match comp.matrices[lastId]? with
    | some mL => (comp.matrices.set other mL).dropLast
    | none => comp.matrices.dropLast
  let comp3 := renameMatrixInComp (fun x => if x = lastId then other else x)
    { comp1 with commands := cmds2 }
  { comp3 with matrices := mats3 }

/-- The merging loop: repeatedly find a safe candidate and apply it, with
fuel bounding the number of rewrites. -/
def mergeLoop (config : NnetOptimizeOptions) : Nat → NnetComputation → NnetComputation
  | 0, comp => comp
  | fuel + 1, comp =>
    match findMergeCand config comp with
    | some cand => mergeLoop config fuel (applyMerge config.remove_assignments comp cand)
    | none => comp

/-- Modelled from the spec: section 4.2 — `VariableMergingOptimization`
(declared at nnet-optimize.h lines 116-120; its body, class
VariableMergingOptimizer, is not under src/) repeatedly merges pairs of
variables whose live intervals overlap only at an eliminable copy command,
until no safe candidate remains. -/
def VariableMergingOptimization (config : NnetOptimizeOptions) (nnet : Nnet)
    (request : ComputationRequest) (comp : NnetComputation) : NnetComputation :=
  mergeLoop config (comp.commands.length + 1) comp

theorem length_filterMap_enumFrom_lt {α β : Type} (f : Nat × α → Option β) :
    ∀ (l : List α) (j k : Nat) (c : α), l[k]? = some c → f (j + k, c) = none →
      ((l.enumFrom j).filterMap f).length < l.length := by
  intro l
  induction l with
  | nil =>
    intro j k c hc _
    cases hc
  | cons a t ih =>
    intro j k c hc hn
    rw [List.enumFrom_cons, List.filterMap_cons]
    cases k with
    | zero =>
      rw [List.getElem?_cons_zero] at hc
      cases hc
      rw [Nat.add_zero] at hn
      rw [hn]
      have := List.length_filterMap_le f (t.enumFrom (j + 1))
      have hlen : (t.enumFrom (j + 1)).length = t.length := List.enumFrom_length
      simp only [List.length_cons]
      omega
    | succ k =>
      rw [List.getElem?_cons_succ] at hc
      have hn' : f (j + 1 + k, c) = none := by
        rw [show j + 1 + k = j + (k + 1) by omega]
        exact hn
      have hrec := ih (j + 1) k c hc hn'
      cases hv : f (j, a) with
      | none =>
        simp only [List.length_cons]
        omega
      | some b =>
        simp only [List.length_cons, List.length_cons]
        omega

theorem candAt_some {config : NnetOptimizeOptions} {comp : NnetComputation}
    {j i s o : Nat} (h : candAt config comp j = some (i, s, o)) :
    i = j ∧ ∃ srcS dstS smS smD,
      comp.commands[j]? = some (.matrixCopy dstS srcS) ∧
      comp.submatrices[srcS]? = some smS ∧ comp.submatrices[dstS]? = some smD ∧
      mergePairOk config comp j srcS dstS smS.matrixId smD.matrixId = true ∧
      ((s = smS.matrixId ∧ o = smD.matrixId) ∨ (s = smD.matrixId ∧ o = smS.matrixId)) := by
  unfold candAt at h
  split at h
  case _ dstS srcS heq =>
    split at h
    case _ smS smD heqS heqD =>
      split at h
      case isTrue hok =>
        split at h
        case isTrue hdir =>
          cases h
          exact ⟨rfl, srcS, dstS, smS, smD, heq, heqS, heqD, hok, Or.inl ⟨rfl, rfl⟩⟩
        case isFalse =>
          split at h
          case isTrue =>
            cases h
            exact ⟨rfl, srcS, dstS, smS, smD, heq, heqS, heqD, hok, Or.inr ⟨rfl, rfl⟩⟩
          case isFalse => cases h
      case isFalse => cases h
    case _ => cases h
  case _ => cases h

theorem findIdx?_getD_lt {p : Command → Bool} {l : List Command}
    (h : (l.findIdx? p).isSome = true) : (l.findIdx? p).getD 0 < l.length := by
  cases hv : l.findIdx? p with
  | none => rw [hv] at h; cases h
  | some k =>
    have := (List.findIdx?_eq_some_iff_findIdx_eq.mp hv).1
    simpa [hv] using this

theorem applyMerge_commands (ra : Bool) (comp : NnetComputation) (cand : Nat × Nat × Nat) :
    (applyMerge ra comp cand).commands =
      ((renameMatrixInComp (fun x => if x = cand.2.2 then cand.2.1 else x) comp).commands.enum.filterMap
        (mergeDropFun
          (max ((comp.commands.findIdx? (fun c => c.isPlainAllocFor cand.2.1)).getD 0)
            ((comp.commands.findIdx? (fun c => c.isPlainAllocFor cand.2.2)).getD 0))
          (min ((comp.commands.findIdx? (fun c => c.isPlainDeallocFor cand.2.1)).getD 0)
            ((comp.commands.findIdx? (fun c => c.isPlainDeallocFor cand.2.2)).getD 0))
          cand.1 ra)).map
        (renameMatrixInCmd (fun x => if x = comp.matrices.length - 1 then cand.2.2 else x)) := rfl

theorem applyMerge_commands_length {config : NnetOptimizeOptions} {comp : NnetComputation}
    {cand : Nat × Nat × Nat} (h : findMergeCand config comp = some cand) (ra : Bool) :
    (applyMerge ra comp cand).commands.length < comp.commands.length := by
  obtain ⟨j, _, hc⟩ := List.exists_of_findSome?_eq_some h
  obtain ⟨i, s, o⟩ := cand
  obtain ⟨rfl, srcS, dstS, smS, smD, hcmd, hS, hD, hok, hdir⟩ := candAt_some hc
  simp only [mergePairOk, Bool.and_eq_true] at hok
  have hds : (comp.commands.findIdx? (fun c => c.isPlainDeallocFor s)).isSome = true := by
    rcases hdir with ⟨rfl, _⟩ | ⟨rfl, _⟩ <;> tauto
  have hlt : (comp.commands.findIdx? (fun c => c.isPlainDeallocFor s)).getD 0 <
      comp.commands.length := findIdx?_getD_lt hds
  rw [applyMerge_commands, List.length_map]
  have hlen1 : (renameMatrixInComp (fun x => if x = o then s else x) comp).commands.length =
      comp.commands.length := by
    simp [renameMatrixInComp]
  set dA := max ((comp.commands.findIdx? (fun c => c.isPlainAllocFor s)).getD 0)
    ((comp.commands.findIdx? (fun c => c.isPlainAllocFor o)).getD 0) with hdA
  set dd := min ((comp.commands.findIdx? (fun c => c.isPlainDeallocFor s)).getD 0)
    ((comp.commands.findIdx? (fun c => c.isPlainDeallocFor o)).getD 0) with hdd
  have hddlt : dd < (renameMatrixInComp (fun x => if x = o then s else x) comp).commands.length := by
    rw [hlen1]
    omega
  obtain ⟨c0, hc0⟩ : ∃ c0,
      (renameMatrixInComp (fun x => if x = o then s else x) comp).commands[dd]? = some c0 :=
    ⟨_, List.getElem?_eq_getElem hddlt⟩
  rw [List.enum_eq_enumFrom]
  have hres := length_filterMap_enumFrom_lt (mergeDropFun dA dd i ra)
    (renameMatrixInComp (fun x => if x = o then s else x) comp).commands 0 dd c0 hc0
    (by simp [mergeDropFun])
  rw [hlen1] at hres
  exact hres

theorem mergeLoop_of_none {config : NnetOptimizeOptions} {comp : NnetComputation}
    (h : findMergeCand config comp = none) : ∀ fuel, mergeLoop config fuel comp = comp := by
  intro fuel
  cases fuel with
  | zero => rfl
  | succ f =>
    rw [mergeLoop, h]

theorem findMergeCand_mergeLoop (config : NnetOptimizeOptions) :
    ∀ (fuel : Nat) (comp : NnetComputation), comp.commands.length < fuel →
      findMergeCand config (mergeLoop config fuel comp) = none := by
  intro fuel
  induction fuel with
  | zero =>
    intro comp h
    omega
  | succ f ih =>
    intro comp h
    rw [mergeLoop]
    cases hc : findMergeCand config comp with
    | none => exact hc
    | some cand =>
      have hlt := applyMerge_commands_length hc config.remove_assignments
      exact ih (applyMerge config.remove_assignments comp cand) (by omega)

/-- Variable merging is idempotent: the loop runs to a fixpoint (no safe
merge candidate remains), so a second invocation finds nothing to do. -/
theorem vm_idem (config : NnetOptimizeOptions) (n1 n2 : Nnet)
    (r1 r2 : ComputationRequest) (comp : NnetComputation) :
    VariableMergingOptimization config n2 r2 (VariableMergingOptimization config n1 r1 comp) =
      VariableMergingOptimization config n1 r1 comp := by
  unfold VariableMergingOptimization
  exact mergeLoop_of_none
    (findMergeCand_mergeLoop config (comp.commands.length + 1) comp (by omega)) _

/-! ## Model-update consolidation (spec section 4.3, header lines 123-129) -/

/-- The command indices of the per-step model-update commands for parameter
`p`, in order. -/
def updateIdxsFor (comp : NnetComputation) (p : Nat) : List Nat :=
  (comp.commands.enum.filter (fun q =>
    match q.2 with
    | .modelUpdate pp _ => pp = p
    | _ => false)).map (fun q => q.1)

/-- The operand submatrices of the per-step model-update commands for
parameter `p`, in original time order. -/
def updateOperandsFor (comp : NnetComputation) (p : Nat) : List Nat :=
  comp.commands.filterMap (fun c =>
    match c with
    | .modelUpdate pp s => if pp = p then some s else none
    | _ => none)

/-- Modelled from the spec: sections 4.3 and 7 — a parameter group is
consolidated only when it has at least two members and the rewrite is fully
validated before any mutation: every operand matrix stays allocated past the
group's last member, where the consolidated command will sit. -/
def consolidatableParam (comp : NnetComputation) (p : Nat) : Bool :=
  match (updateIdxsFor comp p).getLast? with
  | some last =>
    2 ≤ (updateIdxsFor comp p).length &&
    (updateOperandsFor comp p).all (fun s =>
      match comp.submatrices[s]? with
      | some sm => comp.commands.enum.all (fun q =>
          !(q.2.isDeallocFor sm.matrixId) || decide (last < q.1))
      | none => false)
  | none => false

/-- Modelled from the spec: section 4.3 — one walk over the command
sequence: each validated group of model-update commands sharing a parameter
is replaced by a single consolidated command operating on the concatenation
of their operands, placed at the position of the group's last member. -/
def consolidateRun (comp : NnetComputation) : NnetComputation :=
  { comp with commands := comp.commands.enum.filterMap (fun q =>
      match q.2 with
      | .modelUpdate p s =>
        if consolidatableParam comp p then
          if (updateIdxsFor comp p).getLast? = some q.1 then
            some (.modelUpdateConsolidated p (updateOperandsFor comp p))
          else none
        else some (.modelUpdate p s)
      | c => some c) }

/-- Modelled from the spec: sections 4.3, 7 and design note section 9 —
`ConsolidateModelUpdate` (declared at nnet-optimize.h lines 127-129; its
body, class ModelUpdateConsolidator, is not under src/) consolidates the
model-update parts of the backprop into larger operations; per the header
comment it "will fail if called a second time", modelled as the explicit
one-shot phase flag of design note section 9. -/
def ConsolidateModelUpdate (nnet : Nnet) (request : ComputationRequest)
    (comp : NnetComputation) : Except String NnetComputation :=
  if comp.consolidationDone then
    .error "ConsolidateModelUpdate called a second time on this computation"
  else
    .ok { consolidateRun comp with consolidationDone := true }

/-! ## The top-level driver (spec section 4.8, header lines 84-88) -/

/-- Modelled from the spec: section 4.8 — `Optimize` (declared at
nnet-optimize.h lines 84-88; its body is not under src/) runs the passes in
the fixed order variable merging → model-update consolidation → zero-init
elimination → sizing-command motion → allocation reuse, each gated by its
flag; the master optimize flag disables everything. -/
def Optimize (config : NnetOptimizeOptions) (nnet : Nnet)
    (request : ComputationRequest) (comp : NnetComputation) : NnetComputation :=
  if config.optimize then
    let c1 := VariableMergingOptimization config nnet request comp
    let c2 :=
      if config.consolidate_model_update then
        match ConsolidateModelUpdate nnet request c1 with
        | .ok c => c
        | .error _ => c1
      else c1
    let c3 := if config.initialize_undefined then RemoveUnnecessaryZeroing nnet c2 else c2
    let c4 := if config.move_sizing_commands then MoveSizingCommands nnet c3 else c3
    if config.allocate_from_other then RemoveUnnecessaryAllocation nnet c4 else c4
  else comp

/-! ## The caching compiler (spec section 4.7, header lines 91-113) -/

/-- From nnet-optimize.h lines 94-112: the class state of
CachingOptimizingCompiler — the network (retained by const reference), the
copied options value, and the single cached (request, computation) pair,
modelled as an option-valued slot per design note section 9. -/
structure CachingOptimizingCompiler where
  nnet_ : Nnet
  opt_config_ : NnetOptimizeOptions
  cache_ : Option (ComputationRequest × NnetComputation)

/-- From nnet-optimize.h line 96: the single-argument constructor; the
opt_config_ member is default-initialised, so every optimization is
enabled. -/
def CachingOptimizingCompiler.mk1 (nnet : Nnet) : CachingOptimizingCompiler :=
  { nnet_ := nnet, opt_config_ := NnetOptimizeOptions.default, cache_ := none }

/-- From nnet-optimize.h lines 98-101: the two-argument constructor; "nnet
is retained as a const reference but opt_config is copied". -/
def CachingOptimizingCompiler.mk2 (nnet : Nnet) (opt_config : NnetOptimizeOptions) :
    CachingOptimizingCompiler :=
  { nnet_ := nnet, opt_config_ := opt_config, cache_ := none }

/-- Modelled from the spec: section 4.7 — one full (uncached) compile: build
the initial correctness-first IR through the external graph compiler and run
the optimization pipeline on it. -/
def compileInternal (c : CachingOptimizingCompiler) (request : ComputationRequest) :
    NnetComputation :=
  Optimize c.opt_config_ c.nnet_ request (c.nnet_.build request)

/-- The compiler with its cache slot replaced by the pair (request, comp). -/
def withCache (c : CachingOptimizingCompiler) (request : ComputationRequest)
    (comp : NnetComputation) : CachingOptimizingCompiler :=
  { c with cache_ := some (request, comp) }

/-- Modelled from the spec: section 4.7 — `Compile` (declared at
nnet-optimize.h lines 103-107; its body is not under src/): on a request
that compares equal to the cached one, return the cached computation
unchanged without re-running the pipeline; otherwise run a full compile and
replace the single cached entry.  The returned flag records whether a
recompilation happened. -/
def CachingOptimizingCompiler.Compile (c : CachingOptimizingCompiler)
    (request : ComputationRequest) :
    NnetComputation × CachingOptimizingCompiler × Bool :=
  match c.cache_ with
  | some rc =>
    if rc.1 = request then (rc.2, c, false)
    else (compileInternal c request, withCache c request (compileInternal c request), true)
  | none =>
    (compileInternal c request, withCache c request (compileInternal c request), true)

/-! ## Example computations used by the witnesses -/

/-- The empty computation. -/
def emptyComp : NnetComputation :=
  { matrices := [], submatrices := [], commands := [], consolidationDone := false }

/-- A two-matrix computation on which the zero-init elimination fires for
matrix 0 (it is wholly written by the propagate before any read). -/
def ruzEx : NnetComputation :=
  { matrices := [⟨1, 1⟩, ⟨1, 1⟩]
    submatrices := [⟨0, 0, 1, 0, 1⟩, ⟨1, 0, 1, 0, 1⟩]
    commands := [.allocMatrixZeroed 0, .propagate 0 1, .deallocMatrix 0]
    consolidationDone := false }

/-- A computation on which variable merging fires: the copy at index 3 links
matrix 0 (all accesses at or before 3) with matrix 1 (all accesses at or
after 3). -/
def mergeEx : NnetComputation :=
  { matrices := [⟨2, 2⟩, ⟨2, 2⟩]
    submatrices := [⟨0, 0, 2, 0, 2⟩, ⟨1, 0, 2, 0, 2⟩]
    commands := [.allocMatrixUndefined 0, .allocMatrixUndefined 1, .propagate 0 0,
                 .matrixCopy 1 0, .propagate 1 1, .deallocMatrix 0, .deallocMatrix 1]
    consolidationDone := false }

/-- The spec's allocation-reuse scenario: M1 (zero-initialised, 10 by 5) is
deallocated and M2 (uninitialised, 10 by 5) is allocated two commands
later. -/
def reuseEx : NnetComputation :=
  { matrices := [⟨10, 5⟩, ⟨10, 5⟩]
    submatrices := [⟨0, 0, 10, 0, 5⟩, ⟨1, 0, 10, 0, 5⟩]
    commands := [.allocMatrixZeroed 0, .propagate 0 0, .deallocMatrix 0,
                 .noOperation, .allocMatrixUndefined 1, .propagate 1 1, .deallocMatrix 1]
    consolidationDone := false }

/-- A network whose graph compiler always yields the empty computation. -/
def exNnet : Nnet := ⟨fun _ => emptyComp⟩

/-- An example request. -/
def exReq : ComputationRequest := ⟨[("input", [0, 1])], [("output", [0])], true, false⟩

/-- A second example request, differing from `exReq` in one field. -/
def exReq2 : ComputationRequest := ⟨[("input", [0, 1])], [("output", [0])], false, false⟩

/-! ## The claims -/

/-- C9: a default-constructed NnetOptimizeOptions has all ten boolean fields
equal to true: optimize, consolidate_model_update, propagate_in_place,
backprop_in_place, remove_assignments, allow_left_merge, allow_right_merge,
initialize_undefined, move_sizing_commands, allocate_from_other
(nnet-optimize.h lines 44-53). -/
theorem claim_C9_default_options_all_true :
    NnetOptimizeOptions.default.optimize = true ∧
    NnetOptimizeOptions.default.consolidate_model_update = true ∧
    NnetOptimizeOptions.default.propagate_in_place = true ∧
    NnetOptimizeOptions.default.backprop_in_place = true ∧
    NnetOptimizeOptions.default.remove_assignments = true ∧
    NnetOptimizeOptions.default.allow_left_merge = true ∧
    NnetOptimizeOptions.default.allow_right_merge = true ∧
    NnetOptimizeOptions.default.initialize_undefined = true ∧
    NnetOptimizeOptions.default.move_sizing_commands = true ∧
    NnetOptimizeOptions.default.allocate_from_other = true := by
  exact ⟨rfl, rfl, rfl, rfl, rfl, rfl, rfl, rfl, rfl, rfl⟩

/-- C10: the behaviour of Compile depends only on the options value at
construction time: the two-argument constructor stores a copy of opt_config,
the single-argument constructor behaves exactly as if constructed with a
default NnetOptimizeOptions (every optimization enabled), and a fresh
compiler's Compile result is fully determined by the stored configuration,
the network and the request. -/
theorem claim_C10_compiler_config_at_construction :
    (∀ nnet, CachingOptimizingCompiler.mk1 nnet =
      CachingOptimizingCompiler.mk2 nnet NnetOptimizeOptions.default) ∧
    (∀ nnet opt_config,
      (CachingOptimizingCompiler.mk2 nnet opt_config).opt_config_ = opt_config) ∧
    (∀ nnet opt_config request,
      ((CachingOptimizingCompiler.mk2 nnet opt_config).Compile request).1 =
        Optimize opt_config nnet request (nnet.build request)) := by
  refine ⟨fun nnet => rfl, fun nnet opt_config => rfl, fun nnet opt_config request => rfl⟩

/-- C2: Compile with a request equal (field-by-field value equality) to the
cached one returns the cached computation unchanged without recompiling;
with a request differing in any field (or an empty cache) it performs a full
recompile and replaces the single stored pair; after any call the cache
holds exactly the one pair for the request just compiled. -/
theorem claim_C2_cache_correctness (c : CachingOptimizingCompiler)
    (request req0 : ComputationRequest) (comp0 : NnetComputation) :
    (c.cache_ = some (req0, comp0) → req0 = request →
      c.Compile request = (comp0, c, false)) ∧
    (c.cache_ = some (req0, comp0) → req0 ≠ request →
      c.Compile request =
        (compileInternal c request, withCache c request (compileInternal c request), true)) ∧
    (c.cache_ = none →
      c.Compile request =
        (compileInternal c request, withCache c request (compileInternal c request), true)) ∧
    (c.Compile request).2.1.cache_ = some (request, (c.Compile request).1) := by
  refine ⟨?hit, ?miss, ?cold, ?slot⟩
  case hit =>
    intro hc he
    unfold CachingOptimizingCompiler.Compile
    rw [hc]
    simp [he]
  case miss =>
    intro hc hne
    unfold CachingOptimizingCompiler.Compile
    rw [hc]
    simp [hne]
  case cold =>
    intro hc
    unfold CachingOptimizingCompiler.Compile
    rw [hc]
  case slot =>
    obtain ⟨nn, oc, cache⟩ := c
    cases cache with
    | none => rfl
    | some rc =>
      dsimp only [CachingOptimizingCompiler.Compile]
      by_cases he : rc.1 = request
      · rw [if_pos he]
        rw [← he]
      · rw [if_neg he]
        rfl

/-- C2 witness: a concrete compiler whose cache holds exReq — an equal
request hits the cache, the differing exReq2 recompiles and replaces the
slot. -/
theorem claim_C2_cache_correctness_witness :
    (withCache (CachingOptimizingCompiler.mk2 exNnet NnetOptimizeOptions.default) exReq
        emptyComp).Compile exReq =
      (emptyComp,
       withCache (CachingOptimizingCompiler.mk2 exNnet NnetOptimizeOptions.default) exReq
         emptyComp, false) ∧
    (withCache (CachingOptimizingCompiler.mk2 exNnet NnetOptimizeOptions.default) exReq
        emptyComp).Compile exReq2 =
      (compileInternal (withCache (CachingOptimizingCompiler.mk2 exNnet
          NnetOptimizeOptions.default) exReq emptyComp) exReq2,
       withCache (withCache (CachingOptimizingCompiler.mk2 exNnet
          NnetOptimizeOptions.default) exReq emptyComp) exReq2
         (compileInternal (withCache (CachingOptimizingCompiler.mk2 exNnet
            NnetOptimizeOptions.default) exReq emptyComp) exReq2), true) := by
  constructor
  · exact (claim_C2_cache_correctness _ exReq exReq emptyComp).1 rfl rfl
  · exact (claim_C2_cache_correctness _ exReq2 exReq emptyComp).2.1 rfl (by decide)

/-- C3: ConsolidateModelUpdate succeeds on a computation it has not run on,
and fails fatally (an error, with no recovery path) when invoked again on
the already-consolidated result. -/
theorem claim_C3_consolidate_one_shot (nnet : Nnet) (request : ComputationRequest)
    (comp : NnetComputation) (h : comp.consolidationDone = false) :
    ∃ c2, ConsolidateModelUpdate nnet request comp = .ok c2 ∧
      ∀ (n2 : Nnet) (r2 : ComputationRequest), ∃ msg,
        ConsolidateModelUpdate n2 r2 c2 = .error msg := by
  unfold ConsolidateModelUpdate
  rw [h]
  refine ⟨_, rfl, ?_⟩
  intro n2 r2
  exact ⟨_, rfl⟩

/-- C3 witness: consolidation succeeds on the unconsolidated `mergeEx` and
errors on its own output. -/
theorem claim_C3_consolidate_one_shot_witness :
    mergeEx.consolidationDone = false ∧
    ∃ c2, ConsolidateModelUpdate exNnet exReq mergeEx = .ok c2 ∧
      ∀ (n2 : Nnet) (r2 : ComputationRequest), ∃ msg,
        ConsolidateModelUpdate n2 r2 c2 = .error msg :=
  ⟨rfl, claim_C3_consolidate_one_shot exNnet exReq mergeEx rfl⟩

theorem isPlainAllocOfShape_false_of_not_alloc {sh : Nat → Option (Nat × Nat)}
    {s : Nat × Nat} {c : Command} (hz : ∀ k, c ≠ Command.allocMatrixZeroed k)
    (hu : ∀ k, c ≠ Command.allocMatrixUndefined k) :
    isPlainAllocOfShape sh s c = false := by
  cases c <;> first
    | (exact absurd rfl (hz _))
    | (exact absurd rfl (hu _))
    | rfl

theorem replaceFirstAlloc_cons_not_alloc {sh : Nat → Option (Nat × Nat)} {s : Nat × Nat}
    {src : Nat} {c : Command} {rest : List Command}
    (hz : ∀ k, c ≠ Command.allocMatrixZeroed k)
    (hu : ∀ k, c ≠ Command.allocMatrixUndefined k) :
    replaceFirstAlloc sh s src (c :: rest) =
      (replaceFirstAlloc sh s src rest).map (fun l => c :: l) := by
  cases c <;> first
    | (exact absurd rfl (hz _))
    | (exact absurd rfl (hu _))
    | (rw [replaceFirstAlloc]
       all_goals (intro k hk; cases hk))

/-- The structure of a successful reuse replacement: the list splits at the
first plain allocation of the wanted shape, and that allocation alone is
rewritten into the reuse command whose zeroed / unzeroed variant matches the
original allocation kind. -/
theorem replaceFirstAlloc_some_structure {sh : Nat → Option (Nat × Nat)} {s : Nat × Nat}
    {src : Nat} : ∀ {l l' : List Command}, replaceFirstAlloc sh s src l = some l' →
    ∃ l1 m2 l2, (∀ c ∈ l1, isPlainAllocOfShape sh s c = false) ∧
      ((l = l1 ++ Command.allocMatrixZeroed m2 :: l2 ∧ sh m2 = some s ∧
        l' = l1 ++ Command.allocFromOtherZeroed m2 src :: l2) ∨
       (l = l1 ++ Command.allocMatrixUndefined m2 :: l2 ∧ sh m2 = some s ∧
        l' = l1 ++ Command.allocFromOther m2 src :: l2)) := by
  intro l
  induction l with
  | nil =>
    intro l' h
    cases h
  | cons c rest ih =>
    intro l' h
    by_cases hzc : ∃ k, c = Command.allocMatrixZeroed k
    · obtain ⟨m, rfl⟩ := hzc
      rw [replaceFirstAlloc] at h
      split at h
      · next hc =>
        cases h
        exact ⟨[], m, rest, by simp, Or.inl ⟨rfl, hc, rfl⟩⟩
      · next hc =>
        rcases Option.map_eq_some'.mp h with ⟨l'', hrec, rfl⟩
        obtain ⟨l1, m2, l2, hno, hcase⟩ := ih hrec
        refine ⟨Command.allocMatrixZeroed m :: l1, m2, l2, ?_, ?_⟩
        · intro d hd
          rcases List.mem_cons.mp hd with rfl | hd
          · simp [isPlainAllocOfShape, hc]
          · exact hno d hd
        · rcases hcase with ⟨h1, h2, h3⟩ | ⟨h1, h2, h3⟩
          · exact Or.inl ⟨by rw [h1]; rfl, h2, by rw [h3]; rfl⟩
          · exact Or.inr ⟨by rw [h1]; rfl, h2, by rw [h3]; rfl⟩
    · by_cases huc : ∃ k, c = Command.allocMatrixUndefined k
      · obtain ⟨m, rfl⟩ := huc
        rw [replaceFirstAlloc] at h
        split at h
        · next hc =>
          cases h
          exact ⟨[], m, rest, by simp, Or.inr ⟨rfl, hc, rfl⟩⟩
        · next hc =>
          rcases Option.map_eq_some'.mp h with ⟨l'', hrec, rfl⟩
          obtain ⟨l1, m2, l2, hno, hcase⟩ := ih hrec
          refine ⟨Command.allocMatrixUndefined m :: l1, m2, l2, ?_, ?_⟩
          · intro d hd
            rcases List.mem_cons.mp hd with rfl | hd
            · simp [isPlainAllocOfShape, hc]
            · exact hno d hd
          · rcases hcase with ⟨h1, h2, h3⟩ | ⟨h1, h2, h3⟩
            · exact Or.inl ⟨by rw [h1]; rfl, h2, by rw [h3]; rfl⟩
            · exact Or.inr ⟨by rw [h1]; rfl, h2, by rw [h3]; rfl⟩
      · have hz2 : ∀ k, c ≠ Command.allocMatrixZeroed k := fun k hk => hzc ⟨k, hk⟩
        have hu2 : ∀ k, c ≠ Command.allocMatrixUndefined k := fun k hk => huc ⟨k, hk⟩
        rw [replaceFirstAlloc_cons_not_alloc hz2 hu2] at h
        rcases Option.map_eq_some'.mp h with ⟨l'', hrec, rfl⟩
        obtain ⟨l1, m2, l2, hno, hcase⟩ := ih hrec
        refine ⟨c :: l1, m2, l2, ?_, ?_⟩
        · intro d hd
          rcases List.mem_cons.mp hd with rfl | hd
          · exact isPlainAllocOfShape_false_of_not_alloc hz2 hu2
          · exact hno d hd
        · rcases hcase with ⟨h1, h2, h3⟩ | ⟨h1, h2, h3⟩
          · exact Or.inl ⟨by rw [h1]; rfl, h2, by rw [h3]; rfl⟩
          · exact Or.inr ⟨by rw [h1]; rfl, h2, by rw [h3]; rfl⟩

/-- C4: the passes VariableMergingOptimization, RemoveUnnecessaryZeroing,
MoveSizingCommands and RemoveUnnecessaryAllocation are idempotent: applying
any of them a second time to a computation it has already fully transformed
leaves the computation unchanged (and, being total functions, they do not
fail). -/
theorem claim_C4_passes_idempotent :
    (∀ (config : NnetOptimizeOptions) (n1 n2 : Nnet) (r1 r2 : ComputationRequest)
      (comp : NnetComputation),
      VariableMergingOptimization config n2 r2
        (VariableMergingOptimization config n1 r1 comp) =
        VariableMergingOptimization config n1 r1 comp) ∧
    (∀ (n1 n2 : Nnet) (comp : NnetComputation),
      RemoveUnnecessaryZeroing n2 (RemoveUnnecessaryZeroing n1 comp) =
        RemoveUnnecessaryZeroing n1 comp) ∧
    (∀ (n1 n2 : Nnet) (comp : NnetComputation),
      MoveSizingCommands n2 (MoveSizingCommands n1 comp) = MoveSizingCommands n1 comp) ∧
    (∀ (n1 n2 : Nnet) (comp : NnetComputation),
      RemoveUnnecessaryAllocation n2 (RemoveUnnecessaryAllocation n1 comp) =
        RemoveUnnecessaryAllocation n1 comp) :=
  ⟨vm_idem, ruz_idem, msc_idem, rua_idem⟩

/-- C5: for every pair of variables that the variable-merging pass actually
merges, the live intervals of the two variables, as computed by the analyzer
on the pre-merge computation, do not overlap except at the single copy
command that the merge eliminates: any command index accessing both matrices
is the copy index itself. -/
theorem claim_C5_merge_live_intervals (config : NnetOptimizeOptions)
    (comp : NnetComputation) (i s o : Nat)
    (h : findMergeCand config comp = some (i, s, o)) :
    ∀ j, j ∈ comp.accessIndexes s → j ∈ comp.accessIndexes o → j = i := by
  obtain ⟨j0, _, hc⟩ := List.exists_of_findSome?_eq_some h
  obtain ⟨rfl, srcS, dstS, smS, smD, hcmd, hS, hD, hok, hdir⟩ := candAt_some hc
  simp only [mergePairOk, Bool.and_eq_true] at hok
  have hallA : (comp.accessIndexes smS.matrixId).all (fun k => decide (k ≤ i)) = true := by
    tauto
  have hallB : (comp.accessIndexes smD.matrixId).all (fun k => decide (i ≤ k)) = true := by
    tauto
  intro j hjs hjo
  rcases hdir with ⟨rfl, rfl⟩ | ⟨rfl, rfl⟩
  · have h1 : j ≤ i := of_decide_eq_true (List.all_eq_true.mp hallA j hjs)
    have h2 : i ≤ j := of_decide_eq_true (List.all_eq_true.mp hallB j hjo)
    omega
  · have h1 : i ≤ j := of_decide_eq_true (List.all_eq_true.mp hallB j hjs)
    have h2 : j ≤ i := of_decide_eq_true (List.all_eq_true.mp hallA j hjo)
    omega

/-- C5 witness: on `mergeEx` the pass merges matrices 0 and 1 at the copy
command index 3, and index 3 is indeed the only common access. -/
theorem claim_C5_merge_live_intervals_witness :
    findMergeCand NnetOptimizeOptions.default mergeEx = some (3, 0, 1) ∧
    ∀ j, j ∈ mergeEx.accessIndexes 0 → j ∈ mergeEx.accessIndexes 1 → j = 3 :=
  ⟨by decide,
   claim_C5_merge_live_intervals NnetOptimizeOptions.default mergeEx 3 0 1 (by decide)⟩

/-- C6: zero-init elimination downgrades a kAllocMatrixZeroed command to
kAllocMatrixUndefined exactly when the analyzer proves the matrix fully
written (over its whole extent) before any read; a zeroed allocation without
that proof is kept unchanged, and no other command is touched. -/
theorem claim_C6_zeroing_downgrade_guarded (nnet : Nnet) (comp : NnetComputation)
    (i m : Nat) (c : Command) (h : comp.commands[i]? = some c) :
    ((c = .allocMatrixZeroed m ∧ comp.writtenBeforeRead m = true) →
      (RemoveUnnecessaryZeroing nnet comp).commands[i]? = some (.allocMatrixUndefined m)) ∧
    ((c = .allocMatrixZeroed m ∧ comp.writtenBeforeRead m = false) →
      (RemoveUnnecessaryZeroing nnet comp).commands[i]? = some (.allocMatrixZeroed m)) ∧
    ((∀ k, c ≠ .allocMatrixZeroed k) →
      (RemoveUnnecessaryZeroing nnet comp).commands[i]? = some c) := by
  have hbase : (RemoveUnnecessaryZeroing nnet comp).commands[i]? =
      some (downgradeCmd comp c) := by
    show (comp.commands.map (downgradeCmd comp))[i]? = _
    rw [List.getElem?_map, h]
    rfl
  refine ⟨?_, ?_, ?_⟩
  · rintro ⟨rfl, hw⟩
    rw [hbase]
    simp [downgradeCmd, hw]
  · rintro ⟨rfl, hw⟩
    rw [hbase]
    simp [downgradeCmd, hw]
  · intro hk
    rw [hbase, downgradeCmd_of_not_zeroed comp hk]

/-- C6 witness: in `ruzEx` matrix 0 is wholly written before any read, so
its zeroed allocation at index 0 is downgraded. -/
theorem claim_C6_zeroing_downgrade_guarded_witness :
    (ruzEx.commands[0]? = some (.allocMatrixZeroed 0) ∧
      ruzEx.writtenBeforeRead 0 = true) ∧
    (RemoveUnnecessaryZeroing exNnet ruzEx).commands[0]? =
      some (.allocMatrixUndefined 0) :=
  ⟨⟨by decide, by decide⟩,
   (claim_C6_zeroing_downgrade_guarded exNnet ruzEx 0 0 (.allocMatrixZeroed 0)
     (by decide)).1 ⟨rfl, by decide⟩⟩

/-- C7: when allocation reuse finds a deallocation of a matrix of some
(rows, cols) followed by a plain allocation of another matrix of the same
(rows, cols), it drops the deallocation and rewrites that allocation — the
first same-shape one after the deallocation — into the single reuse command,
kAllocFromOtherZeroed if the replaced allocation was zero-initialising and
kAllocFromOther if it was uninitialised, so the new matrix takes over the
freed storage. -/
theorem claim_C7_reuse_replaces_pair (sh : Nat → Option (Nat × Nat)) (s : Nat × Nat)
    (m : Nat) (rest rest' : List Command) (hs : sh m = some s)
    (hr : replaceFirstAlloc sh s m rest = some rest') :
    ruaGo sh (Command.deallocMatrix m :: rest) = ruaGo sh rest' ∧
    ∃ l1 m2 l2, (∀ c ∈ l1, isPlainAllocOfShape sh s c = false) ∧
      ((rest = l1 ++ Command.allocMatrixZeroed m2 :: l2 ∧ sh m2 = some s ∧
        rest' = l1 ++ Command.allocFromOtherZeroed m2 m :: l2) ∨
       (rest = l1 ++ Command.allocMatrixUndefined m2 :: l2 ∧ sh m2 = some s ∧
        rest' = l1 ++ Command.allocFromOther m2 m :: l2)) :=
  ⟨ruaGo_cons_dealloc_some hs hr, replaceFirstAlloc_some_structure hr⟩

/-- C7 witness: the spec scenario on `reuseEx` — the deallocation of the
10 by 5 matrix 0 pairs with the later uninitialised allocation of the
10 by 5 matrix 1, which becomes kAllocFromOther (the unzeroed variant,
matching matrix 1's original allocation kind). -/
theorem claim_C7_reuse_replaces_pair_witness :
    (reuseEx.shapeOf 0 = some (10, 5) ∧
      replaceFirstAlloc reuseEx.shapeOf (10, 5) 0
        [.noOperation, .allocMatrixUndefined 1, .propagate 1 1, .deallocMatrix 1] =
        some [.noOperation, .allocFromOther 1 0, .propagate 1 1, .deallocMatrix 1]) ∧
    (ruaGo reuseEx.shapeOf (Command.deallocMatrix 0 ::
        [.noOperation, .allocMatrixUndefined 1, .propagate 1 1, .deallocMatrix 1]) =
      ruaGo reuseEx.shapeOf
        [.noOperation, .allocFromOther 1 0, .propagate 1 1, .deallocMatrix 1] ∧
    ∃ l1 m2 l2, (∀ c ∈ l1, isPlainAllocOfShape reuseEx.shapeOf (10, 5) c = false) ∧
      (([.noOperation, .allocMatrixUndefined 1, .propagate 1 1, .deallocMatrix 1] =
          l1 ++ Command.allocMatrixZeroed m2 :: l2 ∧
          reuseEx.shapeOf m2 = some (10, 5) ∧
          [.noOperation, .allocFromOther 1 0, .propagate 1 1, .deallocMatrix 1] =
            l1 ++ Command.allocFromOtherZeroed m2 0 :: l2) ∨
       ([.noOperation, .allocMatrixUndefined 1, .propagate 1 1, .deallocMatrix 1] =
          l1 ++ Command.allocMatrixUndefined m2 :: l2 ∧
          reuseEx.shapeOf m2 = some (10, 5) ∧
          [.noOperation, .allocFromOther 1 0, .propagate 1 1, .deallocMatrix 1] =
            l1 ++ Command.allocFromOther m2 0 :: l2))) :=
  ⟨⟨by decide, by decide⟩,
   claim_C7_reuse_replaces_pair reuseEx.shapeOf (10, 5) 0
     [.noOperation, .allocMatrixUndefined 1, .propagate 1 1, .deallocMatrix 1]
     [.noOperation, .allocFromOther 1 0, .propagate 1 1, .deallocMatrix 1]
     (by decide) (by decide)⟩

/-! ## The structural IR invariants (spec section 3, "Invariants") -/

/-- Command `c` touches matrix `m`: it allocates it, deallocates it, or
accesses its data. -/
def NnetComputation.touches (comp : NnetComputation) (c : Command) (m : Nat) : Bool :=
  c.isAllocFor m || c.isDeallocFor m || comp.accessesMatrix c m

/-- A bundle of lifecycle predicates over commands: allocates, deallocates,
touches — with allocation and deallocation both counting as touching. -/
structure LifePreds where
  isA : Command → Bool
  isD : Command → Bool
  tch : Command → Bool
  tchA : ∀ c, isA c = true → tch c = true
  tchD : ∀ c, isD c = true → tch c = true

/-- The lifecycle predicates of matrix `m` in a computation. -/
def matPreds (comp : NnetComputation) (m : Nat) : LifePreds where
  isA := fun c => c.isAllocFor m
  isD := fun c => c.isDeallocFor m
  tch := fun c => comp.touches c m
  tchA := by
    intro c h
    simp [NnetComputation.touches, h]
  tchD := by
    intro c h
    simp [NnetComputation.touches, h]

/-- The ordering constraint between an earlier command `c` and a later
command `d`: nothing touching may precede the allocation, and nothing
touching may follow the deallocation. -/
def lifeRel (P : LifePreds) (c d : Command) : Prop :=
  (P.isA d = true → P.tch c = false) ∧ (P.isD c = true → P.tch d = false)

instance (P : LifePreds) (c d : Command) : Decidable (lifeRel P c d) := by
  unfold lifeRel
  infer_instance

/-- The lifecycle invariant of one matrix over a command list, as stated in
spec section 3: exactly one allocating command, exactly one deallocating
command (and no command doing both), the former positioned before every
command touching the matrix, the latter after every one. -/
def lifeInv (P : LifePreds) (l : List Command) : Prop :=
  l.countP P.isA = 1 ∧ l.countP P.isD = 1 ∧
  (∀ c ∈ l, ¬(P.isA c = true ∧ P.isD c = true)) ∧
  List.Pairwise (lifeRel P) l

/-- The structural invariants of spec section 3: every submatrix references
a live matrix id, every command operand references a live submatrix id
(matrix id for sizing commands), and every matrix has the lifecycle
invariant. -/
def Command.operandsOk (nsub nmat : Nat) : Command → Prop
  | .allocMatrixZeroed m => m < nmat
  | .allocMatrixUndefined m => m < nmat
  | .allocFromOther m fromM => m < nmat ∧ fromM < nmat
  | .allocFromOtherZeroed m fromM => m < nmat ∧ fromM < nmat
  | .deallocMatrix m => m < nmat
  | .propagate dst src => dst < nsub ∧ src < nsub
  | .backprop dst src => dst < nsub ∧ src < nsub
  | .matrixCopy dst src => dst < nsub ∧ src < nsub
  | .matrixAdd dst src => dst < nsub ∧ src < nsub
  | .modelUpdate _ operand => operand < nsub
  | .modelUpdateConsolidated _ operands => ∀ o ∈ operands, o < nsub
  | .noOperation => True

instance (nsub nmat : Nat) (c : Command) : Decidable (c.operandsOk nsub nmat) := by
  cases c <;> (unfold Command.operandsOk; infer_instance)

/-- The structural IR invariants of a computation (spec section 3). -/
def WellFormed (comp : NnetComputation) : Prop :=
  (∀ sm ∈ comp.submatrices, sm.matrixId < comp.matrices.length) ∧
  (∀ c ∈ comp.commands, c.operandsOk comp.submatrices.length comp.matrices.length) ∧
  (∀ m, m < comp.matrices.length → lifeInv (matPreds comp m) comp.commands)

instance (comp : NnetComputation) : Decidable (WellFormed comp) := by
  unfold WellFormed lifeInv
  infer_instance

/-! ### The lifecycle state machine and its equivalence with the invariant -/

/-- The lifecycle automaton: 0 = before allocation, 1 = live, 2 = after
deallocation, 3 = violated. -/
def lifeStep (P : LifePreds) (st : Nat) (c : Command) : Nat :=
  if P.isA c then (if st = 0 then 1 else 3)
  else if P.isD c then (if st = 1 then 2 else 3)
  else if P.tch c then (if st = 1 then 1 else 3)
  else st

/-- The fold form of the lifecycle invariant. -/
def lifeOk (P : LifePreds) (l : List Command) : Prop :=
  l.foldl (lifeStep P) 0 = 2 ∧ ∀ c ∈ l, ¬(P.isA c = true ∧ P.isD c = true)

theorem lifeStep_of_not_tch {P : LifePreds} {c : Command} (h : P.tch c = false)
    (st : Nat) : lifeStep P st c = st := by
  have hA : P.isA c = false := by
    cases hv : P.isA c
    · rfl
    · rw [P.tchA c hv] at h
      cases h
  have hD : P.isD c = false := by
    cases hv : P.isD c
    · rfl
    · rw [P.tchD c hv] at h
      cases h
  simp [lifeStep, hA, hD, h]

theorem lifeFold_three {P : LifePreds} : ∀ l : List Command, l.foldl (lifeStep P) 3 = 3 := by
  intro l
  induction l with
  | nil => rfl
  | cons c t ih =>
    have hstep : lifeStep P 3 c = 3 := by
      unfold lifeStep
      split
      · rfl
      · split
        · rfl
        · split
          · rfl
          · rfl
    rw [List.foldl_cons, hstep, ih]

theorem lifeFold_nontouch {P : LifePreds} :
    ∀ (l : List Command) (st : Nat), (∀ c ∈ l, P.tch c = false) → l.foldl (lifeStep P) st = st := by
  intro l
  induction l with
  | nil =>
    intro st _
    rfl
  | cons c t ih =>
    intro st h
    rw [List.foldl_cons, lifeStep_of_not_tch (h c (List.mem_cons_self c t)) st]
    exact ih st (fun d hd => h d (List.mem_cons_of_mem c hd))

theorem lifeStep_two_touch {P : LifePreds} {c : Command} (h : P.tch c = true) :
    lifeStep P 2 c = 3 := by
  simp [lifeStep, h]

theorem lifeFold_two_nontouch {P : LifePreds} :
    ∀ l : List Command, l.foldl (lifeStep P) 2 = 2 → ∀ c ∈ l, P.tch c = false := by
  intro l
  induction l with
  | nil =>
    intro _ c hc
    cases hc
  | cons c t ih =>
    intro h d hd
    have hc : P.tch c = false := by
      cases hv : P.tch c
      · rfl
      · exfalso
        rw [List.foldl_cons, lifeStep_two_touch hv, lifeFold_three t] at h
        exact (by decide : (3 : Nat) ≠ 2) h
    cases hd with
    | head => exact hc
    | tail _ hd2 =>
      apply ih _ d hd2
      rw [List.foldl_cons, lifeStep_of_not_tch hc] at h
      exact h

/-- The canonical shape of a command list satisfying the lifecycle
invariant: an untouching prefix, the allocation, an access-only middle,
the deallocation, an untouching suffix. -/
def LifeShape (P : LifePreds) (l : List Command) : Prop :=
  ∃ u a w d v, l = u ++ a :: (w ++ d :: v) ∧ P.isA a = true ∧ P.isD d = true ∧
    P.isD a = false ∧ P.isA d = false ∧
    (∀ c ∈ u, P.tch c = false) ∧ (∀ c ∈ v, P.tch c = false) ∧
    (∀ c ∈ w, P.isA c = false ∧ P.isD c = false)

theorem isA_false_of_tch_false {P : LifePreds} {c : Command} (h : P.tch c = false) :
    P.isA c = false := by
  cases hv : P.isA c
  · rfl
  · rw [P.tchA c hv] at h
    exact Bool.noConfusion h

theorem isD_false_of_tch_false {P : LifePreds} {c : Command} (h : P.tch c = false) :
    P.isD c = false := by
  cases hv : P.isD c
  · rfl
  · rw [P.tchD c hv] at h
    exact Bool.noConfusion h

theorem lifeStep_zero_alloc {P : LifePreds} {c : Command} (h : P.isA c = true) :
    lifeStep P 0 c = 1 := by
  simp [lifeStep, h]

theorem lifeStep_zero_touch {P : LifePreds} {c : Command} (hA : P.isA c = false)
    (h : P.tch c = true) : lifeStep P 0 c = 3 := by
  simp [lifeStep, hA, h]

theorem lifeStep_one_alloc {P : LifePreds} {c : Command} (h : P.isA c = true) :
    lifeStep P 1 c = 3 := by
  simp [lifeStep, h]

theorem lifeStep_one_dealloc {P : LifePreds} {c : Command} (hA : P.isA c = false)
    (hD : P.isD c = true) : lifeStep P 1 c = 2 := by
  simp [lifeStep, hA, hD]

theorem lifeStep_one_keep {P : LifePreds} {c : Command} (hA : P.isA c = false)
    (hD : P.isD c = false) : lifeStep P 1 c = 1 := by
  by_cases ht : P.tch c = true
  · simp [lifeStep, hA, hD, ht]
  · have ht2 : P.tch c = false := by
      revert ht
      cases P.tch c <;> simp
    exact lifeStep_of_not_tch ht2 1

theorem lifeFold_zero_split {P : LifePreds} :
    ∀ l : List Command, l.foldl (lifeStep P) 0 = 2 →
      ∃ u a rest, l = u ++ a :: rest ∧ (∀ c ∈ u, P.tch c = false) ∧ P.isA a = true ∧
        rest.foldl (lifeStep P) 1 = 2 := by
  intro l
  induction l with
  | nil =>
    intro h
    simp at h
  | cons c t ih =>
    intro h
    rw [List.foldl_cons] at h
    by_cases hA : P.isA c = true
    · refine ⟨[], c, t, rfl, ?_, hA, ?_⟩
      · intro e he
        cases he
      · rwa [lifeStep_zero_alloc hA] at h
    · have hA2 : P.isA c = false := by
        revert hA
        cases P.isA c <;> simp
      by_cases ht : P.tch c = true
      · rw [lifeStep_zero_touch hA2 ht, lifeFold_three t] at h
        exact absurd h (by decide)
      · have ht2 : P.tch c = false := by
          revert ht
          cases P.tch c <;> simp
        rw [lifeStep_of_not_tch ht2 0] at h
        obtain ⟨u, a, rest, heq, hu, ha, hrest⟩ := ih h
        refine ⟨c :: u, a, rest, by rw [heq]; rfl, ?_, ha, hrest⟩
        intro e he
        cases he with
        | head => exact ht2
        | tail _ h2 => exact hu e h2

theorem lifeFold_one_split {P : LifePreds} :
    ∀ l : List Command, l.foldl (lifeStep P) 1 = 2 →
      ∃ w d v, l = w ++ d :: v ∧ (∀ c ∈ w, P.isA c = false ∧ P.isD c = false) ∧
        P.isD d = true ∧ P.isA d = false ∧ (∀ c ∈ v, P.tch c = false) := by
  intro l
  induction l with
  | nil =>
    intro h
    simp at h
  | cons c t ih =>
    intro h
    rw [List.foldl_cons] at h
    by_cases hA : P.isA c = true
    · rw [lifeStep_one_alloc hA, lifeFold_three t] at h
      exact absurd h (by decide)
    · have hA2 : P.isA c = false := by
        revert hA
        cases P.isA c <;> simp
      by_cases hD : P.isD c = true
      · rw [lifeStep_one_dealloc hA2 hD] at h
        refine ⟨[], c, t, rfl, ?_, hD, hA2, lifeFold_two_nontouch t h⟩
        intro e he
        cases he
      · have hD2 : P.isD c = false := by
          revert hD
          cases P.isD c <;> simp
        rw [lifeStep_one_keep hA2 hD2] at h
        obtain ⟨w, d, v, heq, hw, hd, hdA, hv⟩ := ih h
        refine ⟨c :: w, d, v, by rw [heq]; rfl, ?_, hd, hdA, hv⟩
        intro e he
        cases he with
        | head => exact ⟨hA2, hD2⟩
        | tail _ h2 => exact hw e h2

theorem lifeOk_shape {P : LifePreds} {l : List Command} (h : lifeOk P l) : LifeShape P l := by
  obtain ⟨hfold, hboth⟩ := h
  obtain ⟨u, a, rest, hequ, hu, ha, hrest⟩ := lifeFold_zero_split l hfold
  obtain ⟨w, d, v, heqr, hw, hd, hdA, hv⟩ := lifeFold_one_split rest hrest
  refine ⟨u, a, w, d, v, by rw [hequ, heqr], ha, hd, ?_, hdA, hu, hv, hw⟩
  have hmem : a ∈ l := by
    rw [hequ]
    exact List.mem_append_right u (List.mem_cons_self a rest)
  cases hv2 : P.isD a
  · rfl
  · exact absurd ⟨ha, hv2⟩ (hboth a hmem)

theorem shape_noboth {P : LifePreds} {l : List Command} (h : LifeShape P l) :
    ∀ c ∈ l, ¬(P.isA c = true ∧ P.isD c = true) := by
  obtain ⟨u, a, w, d, v, heq, ha, hd, haD, hdA, hu, hv, hw⟩ := h
  intro c hc hcon
  obtain ⟨hcA, hcD⟩ := hcon
  rw [heq] at hc
  simp only [List.mem_append, List.mem_cons] at hc
  rcases hc with hc | hc | hc | hc | hc
  · rw [isA_false_of_tch_false (hu c hc)] at hcA
    exact Bool.noConfusion hcA
  · rw [hc, haD] at hcD
    exact Bool.noConfusion hcD
  · rw [(hw c hc).1] at hcA
    exact Bool.noConfusion hcA
  · rw [hc, hdA] at hcA
    exact Bool.noConfusion hcA
  · rw [isA_false_of_tch_false (hv c hc)] at hcA
    exact Bool.noConfusion hcA

theorem lifeFold_one_access {P : LifePreds} :
    ∀ w : List Command, (∀ c ∈ w, P.isA c = false ∧ P.isD c = false) →
      w.foldl (lifeStep P) 1 = 1 := by
  intro w
  induction w with
  | nil =>
    intro _
    rfl
  | cons c t ih =>
    intro h
    obtain ⟨hA, hD⟩ := h c (List.mem_cons_self c t)
    rw [List.foldl_cons, lifeStep_one_keep hA hD]
    exact ih (fun e he => h e (List.mem_cons_of_mem c he))

theorem shape_lifeOk {P : LifePreds} {l : List Command} (h : LifeShape P l) : lifeOk P l := by
  have hnb := shape_noboth h
  obtain ⟨u, a, w, d, v, heq, ha, hd, haD, hdA, hu, hv, hw⟩ := h
  refine ⟨?_, hnb⟩
  rw [heq, List.foldl_append, lifeFold_nontouch u 0 hu, List.foldl_cons,
    lifeStep_zero_alloc ha, List.foldl_append, lifeFold_one_access w hw,
    List.foldl_cons, lifeStep_one_dealloc hdA hd]
  exact lifeFold_nontouch v 2 hv

theorem countP_zero_of_all_false {p : Command → Bool} {l : List Command}
    (h : ∀ c ∈ l, p c = false) : l.countP p = 0 :=
  List.countP_eq_zero.mpr (fun c hc => by simp [h c hc])

theorem all_false_of_countP_zero {p : Command → Bool} {l : List Command}
    (h : l.countP p = 0) : ∀ c ∈ l, p c = false := by
  intro c hc
  cases hv : p c
  · rfl
  · exact absurd hv (List.countP_eq_zero.mp h c hc)

theorem pairwise_of_all {r : Command → Command → Prop} :
    ∀ l : List Command, (∀ a ∈ l, ∀ b ∈ l, r a b) → List.Pairwise r l := by
  intro l
  induction l with
  | nil =>
    intro _
    exact List.Pairwise.nil
  | cons c t ih =>
    intro h
    refine List.Pairwise.cons ?_ (ih ?_)
    · intro b hb
      exact h c (List.mem_cons_self c t) b (List.mem_cons_of_mem c hb)
    · intro x hx y hy
      exact h x (List.mem_cons_of_mem c hx) y (List.mem_cons_of_mem c hy)

theorem lifeRel_of_left_quiet {P : LifePreds} {x y : Command} (h : P.tch x = false) :
    lifeRel P x y :=
  ⟨fun _ => h, fun hD => by
    rw [isD_false_of_tch_false h] at hD
    exact Bool.noConfusion hD⟩

theorem lifeRel_of_mid {P : LifePreds} {x y : Command} (hD : P.isD x = false)
    (hA : P.isA y = false) : lifeRel P x y :=
  ⟨fun hAy => by
    rw [hA] at hAy
    exact Bool.noConfusion hAy,
   fun hDx => by
    rw [hD] at hDx
    exact Bool.noConfusion hDx⟩

theorem lifeRel_of_right_dead {P : LifePreds} {x y : Command} (h : P.tch y = false) :
    lifeRel P x y :=
  ⟨fun hAy => by
    rw [isA_false_of_tch_false h] at hAy
    exact Bool.noConfusion hAy,
   fun _ => h⟩

theorem shape_lifeInv {P : LifePreds} {l : List Command} (h : LifeShape P l) : lifeInv P l := by
  have hnb := shape_noboth h
  obtain ⟨u, a, w, d, v, heq, ha, hd, haD, hdA, hu, hv, hw⟩ := h
  refine ⟨?_, ?_, hnb, ?_⟩
  · have h1 : u.countP P.isA = 0 := countP_zero_of_all_false
      (fun c hc => isA_false_of_tch_false (hu c hc))
    have h2 : w.countP P.isA = 0 := countP_zero_of_all_false (fun c hc => (hw c hc).1)
    have h3 : v.countP P.isA = 0 := countP_zero_of_all_false
      (fun c hc => isA_false_of_tch_false (hv c hc))
    simp [heq, List.countP_append, List.countP_cons, h1, h2, h3, ha, hdA]
  · have h1 : u.countP P.isD = 0 := countP_zero_of_all_false
      (fun c hc => isD_false_of_tch_false (hu c hc))
    have h2 : w.countP P.isD = 0 := countP_zero_of_all_false (fun c hc => (hw c hc).2)
    have h3 : v.countP P.isD = 0 := countP_zero_of_all_false
      (fun c hc => isD_false_of_tch_false (hv c hc))
    simp [heq, List.countP_append, List.countP_cons, h1, h2, h3, hd, haD]
  · rw [heq, List.pairwise_append]
    refine ⟨pairwise_of_all u (fun x hx _ _ => lifeRel_of_left_quiet (hu x hx)), ?_, ?_⟩
    · rw [List.pairwise_cons]
      constructor
      · intro e he
        simp only [List.mem_append, List.mem_cons] at he
        rcases he with he | he | he
        · exact lifeRel_of_mid haD (hw e he).1
        · rw [he]
          exact lifeRel_of_mid haD hdA
        · exact lifeRel_of_mid haD (isA_false_of_tch_false (hv e he))
      · rw [List.pairwise_append]
        refine ⟨pairwise_of_all w (fun x hx y hy => lifeRel_of_mid (hw x hx).2 (hw y hy).1),
          ?_, ?_⟩
        · rw [List.pairwise_cons]
          exact ⟨fun e he => lifeRel_of_right_dead (hv e he),
            pairwise_of_all v (fun x hx _ _ => lifeRel_of_left_quiet (hv x hx))⟩
        · intro x hx e he
          cases he with
          | head => exact lifeRel_of_mid (hw x hx).2 hdA
          | tail _ h2 => exact lifeRel_of_mid (hw x hx).2 (isA_false_of_tch_false (hv e h2))
    · intro x hx e _
      exact lifeRel_of_left_quiet (hu x hx)

theorem countP_one_split {p : Command → Bool} :
    ∀ l : List Command, l.countP p = 1 →
      ∃ u a v, l = u ++ a :: v ∧ p a = true ∧ (∀ c ∈ u, p c = false) ∧
        (∀ c ∈ v, p c = false) := by
  intro l
  induction l with
  | nil =>
    intro h
    simp at h
  | cons c t ih =>
    intro h
    rw [List.countP_cons] at h
    by_cases hc : p c = true
    · rw [if_pos hc] at h
      have h0 : t.countP p = 0 := by omega
      refine ⟨[], c, t, rfl, hc, ?_, all_false_of_countP_zero h0⟩
      intro e he
      cases he
    · have hc2 : p c = false := by
        revert hc
        cases p c <;> simp
      rw [if_neg hc] at h
      obtain ⟨u, a, v, heq, ha, hu, hv2⟩ := ih (by omega)
      refine ⟨c :: u, a, v, by rw [heq]; rfl, ha, ?_, hv2⟩
      intro e he
      cases he with
      | head => exact hc2
      | tail _ h2 => exact hu e h2

theorem lifeInv_shape {P : LifePreds} {l : List Command} (h : lifeInv P l) : LifeShape P l := by
  obtain ⟨hca, hcd, hnb, hpw⟩ := h
  obtain ⟨u, a, rest, hequ, ha, huA, hrestA⟩ := countP_one_split l hca
  rw [hequ, List.pairwise_append] at hpw
  obtain ⟨hpwu, hpwar, hcross⟩ := hpw
  rw [List.pairwise_cons] at hpwar
  obtain ⟨hrel_a, hpwrest⟩ := hpwar
  have hu : ∀ c ∈ u, P.tch c = false := by
    intro c hc
    exact (hcross c hc a (List.mem_cons_self a rest)).1 ha
  have haD : P.isD a = false := by
    cases hv : P.isD a
    · rfl
    · exact absurd ⟨ha, hv⟩ (hnb a (by
        rw [hequ]
        exact List.mem_append_right u (List.mem_cons_self a rest)))
  have hcd_rest : rest.countP P.isD = 1 := by
    have h1 : u.countP P.isD = 0 := countP_zero_of_all_false (fun c hc =>
      isD_false_of_tch_false (hu c hc))
    rw [hequ, List.countP_append, List.countP_cons, h1, haD] at hcd
    simpa using hcd
  obtain ⟨w, d, v, heqr, hd, hwD, hvD⟩ := countP_one_split rest hcd_rest
  have hdA : P.isA d = false := hrestA d (by
    rw [heqr]
    exact List.mem_append_right w (List.mem_cons_self d v))
  rw [heqr, List.pairwise_append] at hpwrest
  obtain ⟨hpww, hpwdv, hcross2⟩ := hpwrest
  rw [List.pairwise_cons] at hpwdv
  obtain ⟨hrel_d, hpwv⟩ := hpwdv
  refine ⟨u, a, w, d, v, by rw [hequ, heqr], ha, hd, haD, hdA, hu, ?_, ?_⟩
  · intro e he
    exact (hrel_d e he).2 hd
  · intro e he
    exact ⟨hrestA e (by
      rw [heqr]
      exact List.mem_append_left _ he), hwD e he⟩

theorem lifeInv_iff_lifeOk {P : LifePreds} {l : List Command} : lifeInv P l ↔ lifeOk P l :=
  ⟨fun h => shape_lifeOk (lifeInv_shape h), fun h => shape_lifeInv (lifeOk_shape h)⟩

/-! ### Preservation of the invariants by zero-init elimination -/

theorem countP_ext {p q : Command → Bool} :
    ∀ l : List Command, (∀ c ∈ l, p c = q c) → l.countP p = l.countP q := by
  intro l
  induction l with
  | nil =>
    intro _
    rfl
  | cons c t ih =>
    intro h
    rw [List.countP_cons, List.countP_cons, h c (List.mem_cons_self c t),
      ih (fun e he => h e (List.mem_cons_of_mem c he))]

/-- Transport of the lifecycle invariant through a command-by-command
rewriting that preserves each command's lifecycle classification. -/
theorem lifeInv_map_of_pointwise {P Q : LifePreds} {l : List Command} {f : Command → Command}
    (hA : ∀ c ∈ l, Q.isA (f c) = P.isA c) (hD : ∀ c ∈ l, Q.isD (f c) = P.isD c)
    (hT : ∀ c ∈ l, Q.tch (f c) = P.tch c) (h : lifeInv P l) : lifeInv Q (l.map f) := by
  obtain ⟨hca, hcd, hnb, hpw⟩ := h
  refine ⟨?_, ?_, ?_, ?_⟩
  · rw [List.countP_map]
    simp only [Function.comp_def]
    rw [countP_ext l (fun c hc => hA c hc)]
    exact hca
  · rw [List.countP_map]
    simp only [Function.comp_def]
    rw [countP_ext l (fun c hc => hD c hc)]
    exact hcd
  · intro c2 hc2
    rw [List.mem_map] at hc2
    obtain ⟨c, hc, rfl⟩ := hc2
    rw [hA c hc, hD c hc]
    exact hnb c hc
  · rw [List.pairwise_map]
    refine List.Pairwise.imp_of_mem ?_ hpw
    intro a b ha hb hr
    constructor
    · intro hh
      rw [hT a ha]
      rw [hA b hb] at hh
      exact hr.1 hh
    · intro hh
      rw [hT b hb]
      rw [hD a ha] at hh
      exact hr.2 hh

theorem isAllocFor_downgradeCmd (comp : NnetComputation) (c : Command) (m : Nat) :
    (downgradeCmd comp c).isAllocFor m = c.isAllocFor m := by
  cases c <;> first
    | rfl
    | (simp only [downgradeCmd]; split <;> rfl)

theorem isDeallocFor_downgradeCmd (comp : NnetComputation) (c : Command) (m : Nat) :
    (downgradeCmd comp c).isDeallocFor m = c.isDeallocFor m := by
  cases c <;> first
    | rfl
    | (simp only [downgradeCmd]; split <;> rfl)

theorem accessesMatrix_downgradeCmd (n : Nnet) (comp : NnetComputation) (c : Command) (m : Nat) :
    (RemoveUnnecessaryZeroing n comp).accessesMatrix (downgradeCmd comp c) m =
      comp.accessesMatrix c m := by
  rw [accessesMatrix_congr (ruz_submatrices n comp)]
  unfold NnetComputation.accessesMatrix NnetComputation.readsMatrix NnetComputation.writesMatrix
  rw [readSubmatrices_downgradeCmd, writeSubmatrices_downgradeCmd]

theorem touches_downgradeCmd (n : Nnet) (comp : NnetComputation) (c : Command) (m : Nat) :
    (RemoveUnnecessaryZeroing n comp).touches (downgradeCmd comp c) m = comp.touches c m := by
  unfold NnetComputation.touches
  rw [isAllocFor_downgradeCmd, isDeallocFor_downgradeCmd, accessesMatrix_downgradeCmd]

theorem operandsOk_downgradeCmd (comp : NnetComputation) (c : Command) (nsub nmat : Nat)
    (h : c.operandsOk nsub nmat) : (downgradeCmd comp c).operandsOk nsub nmat := by
  cases c <;> first
    | exact h
    | (simp only [downgradeCmd]; split
       · exact h
       · exact h)

/-- Zero-init elimination preserves the structural IR invariants. -/
theorem ruz_wellFormed (n : Nnet) (comp : NnetComputation) (h : WellFormed comp) :
    WellFormed (RemoveUnnecessaryZeroing n comp) := by
  obtain ⟨h1, h2, h3⟩ := h
  refine ⟨h1, ?_, ?_⟩
  · intro c hc
    have hc2 : c ∈ comp.commands.map (downgradeCmd comp) := hc
    rw [List.mem_map] at hc2
    obtain ⟨c0, hc0, rfl⟩ := hc2
    exact operandsOk_downgradeCmd comp c0 _ _ (h2 c0 hc0)
  · intro m hm
    show lifeInv (matPreds (RemoveUnnecessaryZeroing n comp) m)
      (comp.commands.map (downgradeCmd comp))
    refine lifeInv_map_of_pointwise ?_ ?_ ?_ (h3 m hm)
    · intro c _
      exact isAllocFor_downgradeCmd comp c m
    · intro c _
      exact isDeallocFor_downgradeCmd comp c m
    · intro c _
      exact touches_downgradeCmd n comp c m

/-! ### Preservation of the invariants by allocation reuse -/

theorem lifeStep_ext {P : LifePreds} {c c2 : Command} (hA : P.isA c = P.isA c2)
    (hD : P.isD c = P.isD c2) (hT : P.tch c = P.tch c2) (t : Nat) :
    lifeStep P t c = lifeStep P t c2 := by
  unfold lifeStep
  rw [hA, hD, hT]

theorem matPreds_tch_congr {c1 c2 : NnetComputation} (hs : c1.submatrices = c2.submatrices)
    (m : Nat) : (matPreds c1 m).tch = (matPreds c2 m).tch := by
  funext c
  show c1.touches c m = c2.touches c m
  unfold NnetComputation.touches
  rw [accessesMatrix_congr hs]

theorem lifeInv_congr {P Q : LifePreds} (hA : P.isA = Q.isA) (hD : P.isD = Q.isD)
    (hT : P.tch = Q.tch) {l : List Command} (h : lifeInv P l) : lifeInv Q l := by
  obtain ⟨hca, hcd, hnb, hpw⟩ := h
  refine ⟨by rw [← hA]; exact hca, by rw [← hD]; exact hcd, ?_, ?_⟩
  · intro c hc
    rw [← hA, ← hD]
    exact hnb c hc
  · refine List.Pairwise.imp ?_ hpw
    intro a b hr
    unfold lifeRel at hr ⊢
    rw [← hA, ← hD, ← hT]
    exact hr

theorem matPreds_tch_dealloc (comp : NnetComputation) (x m : Nat) :
    (matPreds comp x).tch (Command.deallocMatrix m) =
      (matPreds comp x).isD (Command.deallocMatrix m) := by
  simp [matPreds, NnetComputation.touches, Command.isAllocFor, Command.isDeallocFor,
    NnetComputation.accessesMatrix, NnetComputation.readsMatrix,
    NnetComputation.writesMatrix, Command.readSubmatrices, Command.writeSubmatrices]

theorem matPreds_tch_allocZ (comp : NnetComputation) (x m2 : Nat) :
    (matPreds comp x).tch (Command.allocMatrixZeroed m2) =
      (matPreds comp x).isA (Command.allocMatrixZeroed m2) := by
  simp [matPreds, NnetComputation.touches, Command.isAllocFor, Command.isDeallocFor,
    NnetComputation.accessesMatrix, NnetComputation.readsMatrix,
    NnetComputation.writesMatrix, Command.readSubmatrices, Command.writeSubmatrices]

theorem matPreds_tch_allocU (comp : NnetComputation) (x m2 : Nat) :
    (matPreds comp x).tch (Command.allocMatrixUndefined m2) =
      (matPreds comp x).isA (Command.allocMatrixUndefined m2) := by
  simp [matPreds, NnetComputation.touches, Command.isAllocFor, Command.isDeallocFor,
    NnetComputation.accessesMatrix, NnetComputation.readsMatrix,
    NnetComputation.writesMatrix, Command.readSubmatrices, Command.writeSubmatrices]

theorem matPreds_tch_reuseZ (comp : NnetComputation) (x m2 m : Nat) :
    (matPreds comp x).tch (Command.allocFromOtherZeroed m2 m) =
      ((matPreds comp x).isA (Command.allocMatrixZeroed m2) ||
        (matPreds comp x).isD (Command.deallocMatrix m)) := by
  simp [matPreds, NnetComputation.touches, Command.isAllocFor, Command.isDeallocFor,
    NnetComputation.accessesMatrix, NnetComputation.readsMatrix,
    NnetComputation.writesMatrix, Command.readSubmatrices, Command.writeSubmatrices]

theorem matPreds_tch_reuseU (comp : NnetComputation) (x m2 m : Nat) :
    (matPreds comp x).tch (Command.allocFromOther m2 m) =
      ((matPreds comp x).isA (Command.allocMatrixUndefined m2) ||
        (matPreds comp x).isD (Command.deallocMatrix m)) := by
  simp [matPreds, NnetComputation.touches, Command.isAllocFor, Command.isDeallocFor,
    NnetComputation.accessesMatrix, NnetComputation.readsMatrix,
    NnetComputation.writesMatrix, Command.readSubmatrices, Command.writeSubmatrices]

theorem mem_of_mem_replaced {l1 l2 : List Command} {a r d : Command}
    (hd : d ∈ l1 ++ r :: l2) : d ∈ l1 ++ a :: l2 ∨ d = r := by
  rcases List.mem_append.mp hd with h | h
  · exact Or.inl (List.mem_append_left _ h)
  · rcases List.mem_cons.mp h with rfl | h
    · exact Or.inr rfl
    · exact Or.inl (List.mem_append_right _ (List.mem_cons_of_mem _ h))

/-- The single rewriting step of allocation reuse (a deallocation at the
head fused into the first matching later allocation) preserves the fold
form of x's lifecycle invariant, for any entry state. -/
theorem foldPres_reuse_core (P : LifePreds) (dl a r : Command) {l1 l2 : List Command} {t : Nat}
    (hAdl : P.isA dl = false) (hTdl : P.tch dl = P.isD dl)
    (hDa : P.isD a = false) (hTa : P.tch a = P.isA a)
    (hAr : P.isA r = P.isA a) (hDr : P.isD r = P.isD dl)
    (hTr : P.tch r = (P.isA a || P.isD dl))
    (hf : (dl :: (l1 ++ a :: l2)).foldl (lifeStep P) t = 2)
    (hnb : ∀ c ∈ dl :: (l1 ++ a :: l2), ¬(P.isA c = true ∧ P.isD c = true)) :
    (l1 ++ r :: l2).foldl (lifeStep P) t = 2 ∧
      ∀ c ∈ l1 ++ r :: l2, ¬(P.isA c = true ∧ P.isD c = true) := by
  rw [List.foldl_cons] at hf
  have hnb1 : ∀ c ∈ l1, ¬(P.isA c = true ∧ P.isD c = true) := fun c hc =>
    hnb c (List.mem_cons_of_mem _ (List.mem_append_left _ hc))
  have hnb2 : ∀ c ∈ l2, ¬(P.isA c = true ∧ P.isD c = true) := fun c hc =>
    hnb c (List.mem_cons_of_mem _ (List.mem_append_right _ (List.mem_cons_of_mem _ hc)))
  by_cases hD : P.isD dl = true
  · by_cases ht : t = 1
    · subst ht
      rw [lifeStep_one_dealloc hAdl hD] at hf
      have hnt := lifeFold_two_nontouch _ hf
      have hntl1 : ∀ c ∈ l1, P.tch c = false := fun c hc => hnt c (List.mem_append_left _ hc)
      have hnta : P.tch a = false := hnt a (List.mem_append_right _ (List.mem_cons_self a l2))
      have hntl2 : ∀ c ∈ l2, P.tch c = false := fun c hc =>
        hnt c (List.mem_append_right _ (List.mem_cons_of_mem _ hc))
      have hAa : P.isA a = false := by
        rw [← hTa]
        exact hnta
      have hAr2 : P.isA r = false := by
        rw [hAr]
        exact hAa
      constructor
      · rw [List.foldl_append, lifeFold_nontouch l1 1 hntl1, List.foldl_cons,
          lifeStep_one_dealloc hAr2 (by rw [hDr]; exact hD)]
        exact lifeFold_nontouch l2 2 hntl2
      · intro c hc
        rcases mem_of_mem_replaced (a := a) hc with hc | rfl
        · rcases List.mem_append.mp hc with hc | hc
          · exact hnb1 c hc
          · rcases List.mem_cons.mp hc with rfl | hc
            · intro hcon
              rw [hAa] at hcon
              exact Bool.noConfusion hcon.1
            · exact hnb2 c hc
        · intro hcon
          rw [hAr2] at hcon
          exact Bool.noConfusion hcon.1
    · have hstep : lifeStep P t dl = 3 := by
        simp [lifeStep, hAdl, hD, ht]
      rw [hstep, lifeFold_three] at hf
      exact absurd hf (by decide)
  · have hD2 : P.isD dl = false := by
      revert hD
      cases P.isD dl <;> simp
    have hTdl2 : P.tch dl = false := by
      rw [hTdl]
      exact hD2
    rw [lifeStep_of_not_tch hTdl2 t] at hf
    have hstepeq : ∀ s : Nat, lifeStep P s r = lifeStep P s a :=
      lifeStep_ext hAr (by rw [hDr, hD2, hDa]) (by rw [hTr, hD2, Bool.or_false, hTa])
    constructor
    · rw [List.foldl_append, List.foldl_cons, hstepeq]
      rw [List.foldl_append, List.foldl_cons] at hf
      exact hf
    · intro c hc
      rcases mem_of_mem_replaced (a := a) hc with hc | rfl
      · rcases List.mem_append.mp hc with hc | hc
        · exact hnb1 c hc
        · rcases List.mem_cons.mp hc with rfl | hc
          · exact hnb c (List.mem_cons_of_mem _ (List.mem_append_right _
              (List.mem_cons_self c l2)))
          · exact hnb2 c hc
      · intro hcon
        rw [hDr, hD2] at hcon
        exact Bool.noConfusion hcon.2

/-- The allocation-reuse scan preserves the fold form of x's lifecycle
invariant from any entry state. -/
theorem ruaGo_foldPres (comp : NnetComputation) (x : Nat) (sh : Nat → Option (Nat × Nat)) :
    ∀ l : List Command, ∀ t : Nat,
      l.foldl (lifeStep (matPreds comp x)) t = 2 →
      (∀ c ∈ l, ¬((matPreds comp x).isA c = true ∧ (matPreds comp x).isD c = true)) →
      (ruaGo sh l).foldl (lifeStep (matPreds comp x)) t = 2 ∧
        ∀ c ∈ ruaGo sh l, ¬((matPreds comp x).isA c = true ∧ (matPreds comp x).isD c = true) := by
  intro l
  induction l using ruaGo.induct sh with
  | case1 =>
    intro t hf hnb
    rw [ruaGo_nil]
    exact ⟨hf, hnb⟩
  | case2 rest m s hs rest' hr ih =>
    intro t hf hnb
    rw [ruaGo_cons_dealloc_some hs hr]
    obtain ⟨l1, m2, l2, hl1, hcase⟩ := replaceFirstAlloc_some_structure hr
    rcases hcase with ⟨heq, hshm, heq2⟩ | ⟨heq, hshm, heq2⟩
    · rw [heq] at hf hnb
      have hcore := foldPres_reuse_core (matPreds comp x) (Command.deallocMatrix m)
        (Command.allocMatrixZeroed m2) (Command.allocFromOtherZeroed m2 m)
        rfl (matPreds_tch_dealloc comp x m) rfl (matPreds_tch_allocZ comp x m2)
        rfl rfl (matPreds_tch_reuseZ comp x m2 m) hf hnb
      refine ih t ?_ ?_
      · rw [heq2]
        exact hcore.1
      · rw [heq2]
        exact hcore.2
    · rw [heq] at hf hnb
      have hcore := foldPres_reuse_core (matPreds comp x) (Command.deallocMatrix m)
        (Command.allocMatrixUndefined m2) (Command.allocFromOther m2 m)
        rfl (matPreds_tch_dealloc comp x m) rfl (matPreds_tch_allocU comp x m2)
        rfl rfl (matPreds_tch_reuseU comp x m2 m) hf hnb
      refine ih t ?_ ?_
      · rw [heq2]
        exact hcore.1
      · rw [heq2]
        exact hcore.2
  | case3 rest m s hs hr ih =>
    intro t hf hnb
    rw [ruaGo_cons_dealloc_none hs hr]
    rw [List.foldl_cons] at hf
    obtain ⟨hf2, hnb2⟩ := ih _ hf (fun c hc => hnb c (List.mem_cons_of_mem _ hc))
    refine ⟨by rw [List.foldl_cons]; exact hf2, ?_⟩
    intro c hc
    rcases List.mem_cons.mp hc with rfl | hc
    · exact hnb _ (List.mem_cons_self _ rest)
    · exact hnb2 c hc
  | case4 rest m hs ih =>
    intro t hf hnb
    rw [ruaGo_cons_dealloc_noshape hs]
    rw [List.foldl_cons] at hf
    obtain ⟨hf2, hnb2⟩ := ih _ hf (fun c hc => hnb c (List.mem_cons_of_mem _ hc))
    refine ⟨by rw [List.foldl_cons]; exact hf2, ?_⟩
    intro c hc
    rcases List.mem_cons.mp hc with rfl | hc
    · exact hnb _ (List.mem_cons_self _ rest)
    · exact hnb2 c hc
  | case5 rest cOther hne ih =>
    intro t hf hnb
    rw [ruaGo_cons_other (fun m hm => hne m hm)]
    rw [List.foldl_cons] at hf
    obtain ⟨hf2, hnb2⟩ := ih _ hf (fun c hc => hnb c (List.mem_cons_of_mem _ hc))
    refine ⟨by rw [List.foldl_cons]; exact hf2, ?_⟩
    intro c hc
    rcases List.mem_cons.mp hc with rfl | hc
    · exact hnb _ (List.mem_cons_self _ rest)
    · exact hnb2 c hc

/-- Every command in the output of the allocation-reuse scan is either an
input command, or a reuse command fusing an input allocation with an input
deallocation. -/
theorem ruaGo_mem (sh : Nat → Option (Nat × Nat)) :
    ∀ l : List Command, ∀ d ∈ ruaGo sh l,
      d ∈ l ∨ ∃ m2 mm,
        ((d = Command.allocFromOtherZeroed m2 mm ∧ Command.allocMatrixZeroed m2 ∈ l) ∨
         (d = Command.allocFromOther m2 mm ∧ Command.allocMatrixUndefined m2 ∈ l)) ∧
        Command.deallocMatrix mm ∈ l := by
  intro l
  induction l using ruaGo.induct sh with
  | case1 =>
    intro d hd
    rw [ruaGo_nil] at hd
    cases hd
  | case2 rest m s hs rest' hr ih =>
    intro d hd
    rw [ruaGo_cons_dealloc_some hs hr] at hd
    obtain ⟨l1, m2, l2, hl1, hcase⟩ := replaceFirstAlloc_some_structure hr
    rcases hcase with ⟨heq, hshm, heq2⟩ | ⟨heq, hshm, heq2⟩
    · have halloc : Command.allocMatrixZeroed m2 ∈ Command.deallocMatrix m :: rest := by
        rw [heq]
        exact List.mem_cons_of_mem _ (List.mem_append_right _ (List.mem_cons_self _ _))
      have hdl : Command.deallocMatrix m ∈ Command.deallocMatrix m :: rest :=
        List.mem_cons_self _ _
      rcases ih d hd with hmem | ⟨k2, kk, hforms, hkdl⟩
      · rw [heq2] at hmem
        rcases mem_of_mem_replaced (a := Command.allocMatrixZeroed m2) hmem with hmem | rfl
        · rw [← heq] at hmem
          exact Or.inl (List.mem_cons_of_mem _ hmem)
        · exact Or.inr ⟨m2, m, Or.inl ⟨rfl, halloc⟩, hdl⟩
      · rw [heq2] at hforms hkdl
        refine Or.inr ⟨k2, kk, ?_, ?_⟩
        · rcases hforms with ⟨hde, hmem⟩ | ⟨hde, hmem⟩
          · rcases mem_of_mem_replaced (a := Command.allocMatrixZeroed m2) hmem
              with hmem | hbad
            · rw [← heq] at hmem
              exact Or.inl ⟨hde, List.mem_cons_of_mem _ hmem⟩
            · cases hbad
          · rcases mem_of_mem_replaced (a := Command.allocMatrixZeroed m2) hmem
              with hmem | hbad
            · rw [← heq] at hmem
              exact Or.inr ⟨hde, List.mem_cons_of_mem _ hmem⟩
            · cases hbad
        · rcases mem_of_mem_replaced (a := Command.allocMatrixZeroed m2) hkdl
            with hmem | hbad
          · rw [← heq] at hmem
            exact List.mem_cons_of_mem _ hmem
          · cases hbad
    · have halloc : Command.allocMatrixUndefined m2 ∈ Command.deallocMatrix m :: rest := by
        rw [heq]
        exact List.mem_cons_of_mem _ (List.mem_append_right _ (List.mem_cons_self _ _))
      have hdl : Command.deallocMatrix m ∈ Command.deallocMatrix m :: rest :=
        List.mem_cons_self _ _
      rcases ih d hd with hmem | ⟨k2, kk, hforms, hkdl⟩
      · rw [heq2] at hmem
        rcases mem_of_mem_replaced (a := Command.allocMatrixUndefined m2) hmem with hmem | rfl
        · rw [← heq] at hmem
          exact Or.inl (List.mem_cons_of_mem _ hmem)
        · exact Or.inr ⟨m2, m, Or.inr ⟨rfl, halloc⟩, hdl⟩
      · rw [heq2] at hforms hkdl
        refine Or.inr ⟨k2, kk, ?_, ?_⟩
        · rcases hforms with ⟨hde, hmem⟩ | ⟨hde, hmem⟩
          · rcases mem_of_mem_replaced (a := Command.allocMatrixUndefined m2) hmem
              with hmem | hbad
            · rw [← heq] at hmem
              exact Or.inl ⟨hde, List.mem_cons_of_mem _ hmem⟩
            · cases hbad
          · rcases mem_of_mem_replaced (a := Command.allocMatrixUndefined m2) hmem
              with hmem | hbad
            · rw [← heq] at hmem
              exact Or.inr ⟨hde, List.mem_cons_of_mem _ hmem⟩
            · cases hbad
        · rcases mem_of_mem_replaced (a := Command.allocMatrixUndefined m2) hkdl
            with hmem | hbad
          · rw [← heq] at hmem
            exact List.mem_cons_of_mem _ hmem
          · cases hbad
  | case3 rest m s hs hr ih =>
    intro d hd
    rw [ruaGo_cons_dealloc_none hs hr] at hd
    rcases List.mem_cons.mp hd with rfl | hd
    · exact Or.inl (List.mem_cons_self _ _)
    · rcases ih d hd with hmem | ⟨k2, kk, hforms, hkdl⟩
      · exact Or.inl (List.mem_cons_of_mem _ hmem)
      · refine Or.inr ⟨k2, kk, ?_, List.mem_cons_of_mem _ hkdl⟩
        rcases hforms with ⟨hde, hmem⟩ | ⟨hde, hmem⟩
        · exact Or.inl ⟨hde, List.mem_cons_of_mem _ hmem⟩
        · exact Or.inr ⟨hde, List.mem_cons_of_mem _ hmem⟩
  | case4 rest m hs ih =>
    intro d hd
    rw [ruaGo_cons_dealloc_noshape hs] at hd
    rcases List.mem_cons.mp hd with rfl | hd
    · exact Or.inl (List.mem_cons_self _ _)
    · rcases ih d hd with hmem | ⟨k2, kk, hforms, hkdl⟩
      · exact Or.inl (List.mem_cons_of_mem _ hmem)
      · refine Or.inr ⟨k2, kk, ?_, List.mem_cons_of_mem _ hkdl⟩
        rcases hforms with ⟨hde, hmem⟩ | ⟨hde, hmem⟩
        · exact Or.inl ⟨hde, List.mem_cons_of_mem _ hmem⟩
        · exact Or.inr ⟨hde, List.mem_cons_of_mem _ hmem⟩
  | case5 rest cOther hne ih =>
    intro d hd
    rw [ruaGo_cons_other (fun m hm => hne m hm)] at hd
    rcases List.mem_cons.mp hd with rfl | hd
    · exact Or.inl (List.mem_cons_self _ _)
    · rcases ih d hd with hmem | ⟨k2, kk, hforms, hkdl⟩
      · exact Or.inl (List.mem_cons_of_mem _ hmem)
      · refine Or.inr ⟨k2, kk, ?_, List.mem_cons_of_mem _ hkdl⟩
        rcases hforms with ⟨hde, hmem⟩ | ⟨hde, hmem⟩
        · exact Or.inl ⟨hde, List.mem_cons_of_mem _ hmem⟩
        · exact Or.inr ⟨hde, List.mem_cons_of_mem _ hmem⟩

/-- Allocation reuse preserves the structural IR invariants. -/
theorem rua_wellFormed (n : Nnet) (comp : NnetComputation) (h : WellFormed comp) :
    WellFormed (RemoveUnnecessaryAllocation n comp) := by
  obtain ⟨h1, h2, h3⟩ := h
  refine ⟨h1, ?_, ?_⟩
  · intro c hc
    have hc2 : c ∈ ruaGo comp.shapeOf comp.commands := hc
    rcases ruaGo_mem comp.shapeOf comp.commands c hc2 with hmem | ⟨m2, mm, hforms, hdl⟩
    · exact h2 c hmem
    · rcases hforms with ⟨rfl, hal⟩ | ⟨rfl, hal⟩
      · exact ⟨h2 _ hal, h2 _ hdl⟩
      · exact ⟨h2 _ hal, h2 _ hdl⟩
  · intro x hx
    have hin : lifeOk (matPreds comp x) comp.commands := lifeInv_iff_lifeOk.mp (h3 x hx)
    obtain ⟨hf, hnb⟩ := hin
    obtain ⟨hf2, hnb2⟩ := ruaGo_foldPres comp x comp.shapeOf comp.commands 0 hf hnb
    have hout : lifeInv (matPreds comp x) (ruaGo comp.shapeOf comp.commands) :=
      lifeInv_iff_lifeOk.mpr ⟨hf2, hnb2⟩
    exact lifeInv_congr rfl rfl (matPreds_tch_congr rfl x) hout

/-! ### Preservation of the invariants by sizing-command motion -/

theorem lifeFold_filter (P : LifePreds) :
    ∀ (l : List Command) (t : Nat),
      l.foldl (lifeStep P) t = (l.filter P.tch).foldl (lifeStep P) t := by
  intro l
  induction l with
  | nil =>
    intro t
    rfl
  | cons c rest ih =>
    intro t
    rw [List.foldl_cons, List.filter_cons]
    cases hv : P.tch c
    · rw [lifeStep_of_not_tch hv t]
      simp only [Bool.false_eq_true, if_false]
      exact ih t
    · simp only [if_pos]
      rw [List.foldl_cons]
      exact ih (lifeStep P t c)

theorem isPlainAllocFor_iff2 {c : Command} {m : Nat} :
    c.isPlainAllocFor m = true ↔
      c = Command.allocMatrixZeroed m ∨ c = Command.allocMatrixUndefined m := by
  cases c <;> simp [Command.isPlainAllocFor]

theorem tch_plainAlloc (comp : NnetComputation) (x k : Nat) {a : Command}
    (h : a.isPlainAllocFor k = true) :
    (matPreds comp x).tch a = decide (k = x) := by
  rcases isPlainAllocFor_iff2.mp h with rfl | rfl
  · rw [matPreds_tch_allocZ]
    simp [matPreds, Command.isAllocFor]
  · rw [matPreds_tch_allocU]
    simp [matPreds, Command.isAllocFor]

theorem tch_deallocMatrix (comp : NnetComputation) (x k : Nat) :
    (matPreds comp x).tch (Command.deallocMatrix k) = decide (k = x) := by
  rw [matPreds_tch_dealloc]
  simp [matPreds, Command.isDeallocFor]

theorem filter_tch_allocsAt (comp : NnetComputation) (x : Nat) {n : Nat}
    {allocOf : Nat → Option Command} {fk : Nat → Option Nat} (j : Nat) (hx : x < n)
    (hA : ∀ m a, allocOf m = some a → a.isPlainAllocFor m = true) :
    (allocsAt n allocOf fk j).filter (matPreds comp x).tch =
      if fk x = some j then (allocOf x).toList else [] := by
  unfold allocsAt
  rw [List.filter_filterMap]
  have hsingle : ∀ k, k ≠ x →
      Option.filter (matPreds comp x).tch
        (if fk k = some j then allocOf k else none) = none := by
    intro k hk
    by_cases hf : fk k = some j
    · rw [if_pos hf]
      cases hv : allocOf k with
      | none => rfl
      | some a =>
        have htch : (matPreds comp x).tch a = false := by
          rw [tch_plainAlloc comp x k (hA k a hv)]
          simp [hk]
        simp [Option.filter, htch]
    · rw [if_neg hf]
      rfl
  rw [filterMap_range_single x _ hsingle n hx]
  by_cases hf : fk x = some j
  · rw [if_pos hf, if_pos hf]
    cases hv : allocOf x with
    | none => rfl
    | some a =>
      have htch : (matPreds comp x).tch a = true := by
        rw [tch_plainAlloc comp x x (hA x a hv)]
        simp
      simp [Option.filter, htch]
  · rw [if_neg hf, if_neg hf]
    rfl

theorem filter_tch_deallocsAt (comp : NnetComputation) (x : Nat) {n : Nat}
    {hasD : Nat → Bool} {lk : Nat → Option Nat} (j : Nat) (hx : x < n) :
    (deallocsAt n hasD lk j).filter (matPreds comp x).tch =
      if lk x = some j && hasD x then [Command.deallocMatrix x] else [] := by
  unfold deallocsAt
  rw [List.filter_filterMap]
  have hsingle : ∀ k, k ≠ x →
      Option.filter (matPreds comp x).tch
        (if lk k = some j && hasD k then some (Command.deallocMatrix k) else none) = none := by
    intro k hk
    by_cases hf : (lk k = some j && hasD k) = true
    · rw [if_pos hf]
      have htch : (matPreds comp x).tch (Command.deallocMatrix k) = false := by
        rw [tch_deallocMatrix]
        simp [hk]
      simp [Option.filter, htch]
    · rw [if_neg hf]
      rfl
  rw [filterMap_range_single x _ hsingle n hx]
  by_cases hf : (lk x = some j && hasD x) = true
  · rw [if_pos hf, if_pos hf]
    have htch : (matPreds comp x).tch (Command.deallocMatrix x) = true := by
      rw [tch_deallocMatrix]
      simp
    simp [Option.filter, htch]
  · rw [if_neg hf, if_neg hf]
    rfl

theorem filter_tch_sizingTail (comp : NnetComputation) (x : Nat) {n : Nat}
    {allocOf : Nat → Option Command} {hasD : Nat → Bool} {kA fA : Nat → Option Nat}
    (hx : x < n) (hA : ∀ m a, allocOf m = some a → a.isPlainAllocFor m = true) :
    (sizingTail n allocOf hasD kA fA).filter (matPreds comp x).tch =
      (if kA x = none then (allocOf x).toList else []) ++
        (if fA x = none && hasD x then [Command.deallocMatrix x] else []) := by
  unfold sizingTail
  rw [List.filter_flatMap]
  have hsingle : ∀ k, k ≠ x →
      List.filter (matPreds comp x).tch
        ((if kA k = none then (allocOf k).toList else []) ++
          (if fA k = none && hasD k then [Command.deallocMatrix k] else [])) = [] := by
    intro k hk
    rw [List.filter_append, List.filter_eq_nil_iff.mpr, List.filter_eq_nil_iff.mpr,
      List.append_nil]
    · intro c hc
      by_cases hf : (fA k = none && hasD k) = true
      · rw [if_pos hf] at hc
        rcases List.mem_singleton.mp hc with rfl
        rw [tch_deallocMatrix]
        simp [hk]
      · rw [if_neg hf] at hc
        cases hc
    · intro c hc
      by_cases hf : kA k = none
      · rw [if_pos hf] at hc
        have hv : allocOf k = some c := Option.mem_toList.mp hc
        rw [tch_plainAlloc comp x k (hA k c hv)]
        simp [hk]
      · rw [if_neg hf] at hc
        cases hc
  rw [flatMap_range_single x _ hsingle n hx]
  rw [List.filter_eq_self]
  intro c hc
  rcases List.mem_append.mp hc with hc | hc
  · by_cases hf : kA x = none
    · rw [if_pos hf] at hc
      have hv : allocOf x = some c := Option.mem_toList.mp hc
      rw [tch_plainAlloc comp x x (hA x c hv)]
      simp
    · rw [if_neg hf] at hc
      cases hc
  · by_cases hf : (fA x = none && hasD x) = true
    · rw [if_pos hf] at hc
      rcases List.mem_singleton.mp hc with rfl
      rw [tch_deallocMatrix]
      simp
    · rw [if_neg hf] at hc
      cases hc

/-- The lifecycle phase of a matrix at global slot `p` of the rebuilt body:
each core position `j` occupies slots `3j` (placed allocations), `3j+1` (the
core command) and `3j+2` (placed deallocations); `aP` and `dP` are the slots
of the allocation and deallocation. -/
def lifePhase (aP dP p : Nat) : Nat :=
  if p ≤ aP then 0 else if p ≤ dP then 1 else 2

theorem lifePhase_eq_zero {aP dP p : Nat} (h : p ≤ aP) : lifePhase aP dP p = 0 := by
  unfold lifePhase
  rw [if_pos h]

theorem lifePhase_eq_one {aP dP p : Nat} (h1 : ¬p ≤ aP) (h2 : p ≤ dP) :
    lifePhase aP dP p = 1 := by
  unfold lifePhase
  rw [if_neg h1, if_pos h2]

theorem lifePhase_eq_two {aP dP p : Nat} (h1 : ¬p ≤ aP) (h2 : ¬p ≤ dP) :
    lifePhase aP dP p = 2 := by
  unfold lifePhase
  rw [if_neg h1, if_neg h2]

theorem lifePhase_succ_eq {aP dP p : Nat} (ha : aP ≠ p) (hd : dP ≠ p) :
    lifePhase aP dP (p + 1) = lifePhase aP dP p := by
  unfold lifePhase
  by_cases h1 : p + 1 ≤ aP
  · rw [if_pos h1, if_pos (by omega)]
  · rw [if_neg h1]
    by_cases h2 : p ≤ aP
    · exact absurd (by omega : aP = p) ha
    · rw [if_neg h2]
      by_cases h3 : p + 1 ≤ dP
      · rw [if_pos h3, if_pos (by omega)]
      · rw [if_neg h3]
        by_cases h4 : p ≤ dP
        · exact absurd (by omega : dP = p) hd
        · rw [if_neg h4]

/-- Composing the body fold block by block along a phase function. -/
theorem foldl_body_compose (P : LifePreds) (A D : Nat → List Command) (core0 : List Command)
    (f : Nat → Nat)
    (hstep : ∀ j c, core0[j]? = some c →
      (D j).foldl (lifeStep P) (lifeStep P ((A j).foldl (lifeStep P) (f j)) c) = f (j + 1)) :
    ∀ (rest : List Command) (j : Nat), core0.drop j = rest →
      (rebuildBody A D j rest).foldl (lifeStep P) (f j) = f (j + rest.length) := by
  intro rest
  induction rest with
  | nil =>
    intro j _
    rfl
  | cons c rest2 ih =>
    intro j hdrop
    have hc : core0[j]? = some c := by
      have h1 := List.getElem?_drop core0 j 0
      rw [hdrop] at h1
      simpa using h1.symm
    have hdrop2 : core0.drop (j + 1) = rest2 := by
      have h1 := List.drop_drop 1 j core0
      rw [hdrop] at h1
      simpa using h1.symm
    simp only [rebuildBody, List.length_cons]
    rw [List.foldl_append, List.foldl_cons, List.foldl_append]
    rw [hstep j c hc]
    have h2 : j + (rest2.length + 1) = (j + 1) + rest2.length := by omega
    rw [h2]
    exact ih (j + 1) hdrop2

/-- The master lemma for the rebuilt body: when the placed and resident
lifecycle commands of matrix `x` occupy slots `aP < dP` and all data accesses
lie between them, the fold over the rebuilt body follows the phase function. -/
theorem foldl_body_master (P : LifePreds) (A D : Nat → List Command) (core0 : List Command)
    (aP dP : Nat) (ac dc : Command)
    (horder : aP < dP)
    (haPmod : aP % 3 ≠ 2) (hdPmod : dP % 3 ≠ 0)
    (hac : P.isA ac = true)
    (hdcD : P.isD dc = true) (hdcA : P.isA dc = false)
    (hA1 : ∀ j, j < core0.length → (A j).filter P.tch = if aP = 3 * j then [ac] else [])
    (hD1 : ∀ j, j < core0.length → (D j).filter P.tch = if dP = 3 * j + 2 then [dc] else [])
    (haPc : ∀ j, j < core0.length → aP = 3 * j + 1 →
      ∃ c, core0[j]? = some c ∧ P.tch c = true)
    (hdPc : ∀ j, j < core0.length → dP = 3 * j + 1 →
      ∃ c, core0[j]? = some c ∧ P.tch c = true)
    (hcore : ∀ j c, core0[j]? = some c → P.tch c = true →
      (P.isA c = true ↔ 3 * j + 1 = aP) ∧ (P.isD c = true ↔ 3 * j + 1 = dP) ∧
      aP ≤ 3 * j + 1 ∧ 3 * j + 1 ≤ dP) :
    (rebuildBody A D 0 core0).foldl (lifeStep P) 0 =
      lifePhase aP dP (3 * core0.length) := by
  have hstep : ∀ j c, core0[j]? = some c →
      (D j).foldl (lifeStep P) (lifeStep P
        ((A j).foldl (lifeStep P) (lifePhase aP dP (3 * j))) c) =
      lifePhase aP dP (3 * (j + 1)) := by
    intro j c hc
    have hj : j < core0.length := by
      by_contra hge
      rw [List.getElem?_eq_none (by omega)] at hc
      cases hc
    have hs1 : (A j).foldl (lifeStep P) (lifePhase aP dP (3 * j)) =
        lifePhase aP dP (3 * j + 1) := by
      rw [lifeFold_filter P (A j), hA1 j hj]
      by_cases haj : aP = 3 * j
      · rw [if_pos haj]
        rw [lifePhase_eq_zero (by omega)]
        simp only [List.foldl_cons, List.foldl_nil]
        rw [lifeStep_zero_alloc hac]
        rw [lifePhase_eq_one (by omega) (by omega)]
      · rw [if_neg haj]
        simp only [List.foldl_nil]
        exact (lifePhase_succ_eq (fun hv => haj hv) (by omega)).symm
    have hs2 : lifeStep P (lifePhase aP dP (3 * j + 1)) c = lifePhase aP dP (3 * j + 2) := by
      by_cases htc : P.tch c = true
      · obtain ⟨hiA, hiD, hb1, hb2⟩ := hcore j c hc htc
        by_cases hca : 3 * j + 1 = aP
        · have hcA : P.isA c = true := hiA.mpr hca
          rw [lifePhase_eq_zero (by omega), lifeStep_zero_alloc hcA]
          rw [lifePhase_eq_one (by omega) (by omega)]
        · by_cases hcd : 3 * j + 1 = dP
          · have hcD : P.isD c = true := hiD.mpr hcd
            have hcA : P.isA c = false := by
              cases hv : P.isA c
              · rfl
              · exact absurd (hiA.mp hv) hca
            rw [lifePhase_eq_one (by omega) (by omega), lifeStep_one_dealloc hcA hcD]
            rw [lifePhase_eq_two (by omega) (by omega)]
          · have hcA : P.isA c = false := by
              cases hv : P.isA c
              · rfl
              · exact absurd (hiA.mp hv) hca
            have hcD : P.isD c = false := by
              cases hv : P.isD c
              · rfl
              · exact absurd (hiD.mp hv) hcd
            rw [lifePhase_eq_one (by omega) (by omega), lifeStep_one_keep hcA hcD]
            rw [lifePhase_eq_one (by omega) (by omega)]
      · have htc2 : P.tch c = false := by
          revert htc
          cases P.tch c <;> simp
        rw [lifeStep_of_not_tch htc2]
        have hna : ¬(aP = 3 * j + 1) := by
          intro hv
          obtain ⟨c2, hc2, ht2⟩ := haPc j hj hv
          rw [hc] at hc2
          cases hc2
          rw [htc2] at ht2
          cases ht2
        have hnd : ¬(dP = 3 * j + 1) := by
          intro hv
          obtain ⟨c2, hc2, ht2⟩ := hdPc j hj hv
          rw [hc] at hc2
          cases hc2
          rw [htc2] at ht2
          cases ht2
        exact (lifePhase_succ_eq (fun hv => hna hv) (fun hv => hnd hv)).symm
    have hs3 : (D j).foldl (lifeStep P) (lifePhase aP dP (3 * j + 2)) =
        lifePhase aP dP (3 * (j + 1)) := by
      rw [lifeFold_filter P (D j), hD1 j hj]
      by_cases hdj : dP = 3 * j + 2
      · rw [if_pos hdj]
        simp only [List.foldl_cons, List.foldl_nil]
        rw [lifePhase_eq_one (by omega) (by omega), lifeStep_one_dealloc hdcA hdcD]
        rw [lifePhase_eq_two (by omega) (by omega)]
      · rw [if_neg hdj]
        simp only [List.foldl_nil]
        exact (lifePhase_succ_eq (by omega) (fun hv => hdj hv)).symm
    rw [hs1, hs2, hs3]
  have h0 : lifePhase aP dP (3 * 0) = 0 := lifePhase_eq_zero (by omega)
  have hcomp := foldl_body_compose P A D core0 (fun j => lifePhase aP dP (3 * j))
    hstep core0 0 (List.drop_zero core0)
  simp only at hcomp
  rw [h0] at hcomp
  simpa using hcomp

theorem mem_of_getElem2 {α : Type} {l : List α} {i : Nat} {a : α}
    (h : l[i]? = some a) : a ∈ l := by
  obtain ⟨hlt, hv⟩ := List.getElem?_eq_some.mp h
  rw [← hv]
  exact List.getElem_mem hlt

theorem mem_enumFrom_fst_ge {α : Type} :
    ∀ (l : List α) (k : Nat) (p : Nat × α), p ∈ l.enumFrom k → k ≤ p.1 := by
  intro l
  induction l with
  | nil =>
    intro k p hp
    cases hp
  | cons c t ih =>
    intro k p hp
    rw [List.enumFrom_cons] at hp
    rcases List.mem_cons.mp hp with rfl | hp
    · exact le_refl k
    · have := ih (k + 1) p hp
      omega

theorem pairwise_enumFrom {α : Type} :
    ∀ (l : List α) (k : Nat), List.Pairwise (fun p q => p.1 < q.1) (l.enumFrom k) := by
  intro l
  induction l with
  | nil =>
    intro k
    exact List.Pairwise.nil
  | cons c t ih =>
    intro k
    rw [List.enumFrom_cons]
    refine List.Pairwise.cons ?_ (ih (k + 1))
    intro q hq
    have := mem_enumFrom_fst_ge t (k + 1) q hq
    show k < q.1
    omega

theorem mem_enumFrom_iff {α : Type} :
    ∀ (l : List α) (k j : Nat) (a : α),
      (j, a) ∈ l.enumFrom k ↔ k ≤ j ∧ l[j - k]? = some a := by
  intro l
  induction l with
  | nil =>
    intro k j a
    simp [List.enumFrom]
  | cons c t ih =>
    intro k j a
    rw [List.enumFrom_cons]
    simp only [List.mem_cons, Prod.mk.injEq, ih (k + 1)]
    constructor
    · rintro (⟨rfl, rfl⟩ | ⟨h1, h2⟩)
      · exact ⟨le_refl _, by simp⟩
      · refine ⟨by omega, ?_⟩
        have hgt : j - k = (j - (k + 1)) + 1 := by omega
        rw [hgt]
        simpa using h2
    · rintro ⟨h1, h2⟩
      by_cases he : j = k
      · subst he
        left
        simp only [Nat.sub_self] at h2
        simp only [List.getElem?_cons_zero] at h2
        exact ⟨rfl, (Option.some.injEq _ _ ▸ h2).symm⟩
      · right
        refine ⟨by omega, ?_⟩
        have hgt : j - k = (j - (k + 1)) + 1 := by omega
        rw [hgt] at h2
        simpa using h2

theorem coreAccessIdxs_sorted (comp : NnetComputation) (core : List Command) (m : Nat) :
    List.Pairwise (· < ·) (coreAccessIdxs comp core m) := by
  unfold coreAccessIdxs
  rw [List.pairwise_map]
  refine List.Pairwise.sublist (List.filter_sublist _) ?_
  exact pairwise_enumFrom core 0

theorem mem_coreAccessIdxs {comp : NnetComputation} {core : List Command} {m j : Nat} :
    j ∈ coreAccessIdxs comp core m ↔
      ∃ c, core[j]? = some c ∧ comp.accessesMatrix c m = true := by
  unfold coreAccessIdxs
  simp only [List.mem_map, List.mem_filter]
  constructor
  · rintro ⟨⟨j2, c⟩, ⟨hpmem, hpacc⟩, rfl⟩
    have := (mem_enumFrom_iff core 0 j2 c).mp hpmem
    refine ⟨c, ?_, hpacc⟩
    simpa using this.2
  · rintro ⟨c, hc, hacc⟩
    refine ⟨(j, c), ⟨?_, hacc⟩, rfl⟩
    show (j, c) ∈ core.enumFrom 0
    rw [mem_enumFrom_iff core 0 j c]
    exact ⟨Nat.zero_le j, by simpa using hc⟩

theorem sorted_head_le {l : List Nat} {h : Nat} (hp : List.Pairwise (· < ·) l)
    (hh : l.head? = some h) : ∀ i ∈ l, h ≤ i := by
  cases l with
  | nil => cases hh
  | cons a t =>
    have ha : a = h := by
      simpa using hh
    subst ha
    intro i hi
    rcases List.mem_cons.mp hi with rfl | hi
    · exact le_refl i
    · exact le_of_lt ((List.pairwise_cons.mp hp).1 i hi)

theorem sorted_le_getLast :
    ∀ (l : List Nat) (g : Nat), List.Pairwise (· < ·) l → l.getLast? = some g →
      ∀ i ∈ l, i ≤ g := by
  intro l
  induction l with
  | nil =>
    intro g _ hg
    cases hg
  | cons a t ih =>
    intro g hp hg i hi
    cases t with
    | nil =>
      have : a = g := by
        simpa using hg
      subst this
      rcases List.mem_cons.mp hi with rfl | hi2
      · exact le_refl i
      · cases hi2
    | cons b t2 =>
      rw [List.getLast?_cons_cons] at hg
      rcases List.mem_cons.mp hi with rfl | hi2
      · have hgmem : g ∈ b :: t2 := List.mem_of_mem_getLast? hg
        exact le_of_lt ((List.pairwise_cons.mp hp).1 g hgmem)
      · exact ih g (List.pairwise_cons.mp hp).2 hg i hi2

theorem countP_filter_split (p q : Command → Bool) :
    ∀ l : List Command,
      l.countP p = (l.filter q).countP p + (l.filter (fun c => !q c)).countP p := by
  intro l
  induction l with
  | nil => rfl
  | cons c t ih =>
    rw [List.countP_cons, List.filter_cons, List.filter_cons]
    cases hq : q c
    · simp only [Bool.false_eq_true, if_false, Bool.not_false, if_pos, List.countP_cons]
      omega
    · simp only [if_pos, Bool.not_true, Bool.false_eq_true, if_false, List.countP_cons]
      omega

theorem countP_one_pos {p : Command → Bool} {l : List Command} (h : l.countP p = 1) :
    ∃ (j : Nat) (c : Command), l[j]? = some c ∧ p c = true ∧
      ∀ (i : Nat) (d : Command), l[i]? = some d → p d = true → i = j := by
  obtain ⟨u, a, v, heq, ha, hu, hv⟩ := countP_one_split l h
  refine ⟨u.length, a, ?_, ha, ?_⟩
  · rw [heq, List.getElem?_append, if_neg (by omega)]
    simp
  · intro i d hd hpd
    rw [heq, List.getElem?_append] at hd
    by_cases hi : i < u.length
    · rw [if_pos hi] at hd
      have hmem : d ∈ u := mem_of_getElem2 hd
      rw [hu d hmem] at hpd
      cases hpd
    · rw [if_neg hi] at hd
      cases hiu : i - u.length with
      | zero =>
        omega
      | succ k =>
        rw [hiu] at hd
        simp only [List.getElem?_cons_succ] at hd
        have hmem : d ∈ v := mem_of_getElem2 hd
        rw [hv d hmem] at hpd
        cases hpd

theorem pairwise_rel_of_getElem {P : LifePreds} {l : List Command}
    (hpw : List.Pairwise (lifeRel P) l) {i j : Nat} {c d : Command}
    (hc : l[i]? = some c) (hd : l[j]? = some d) (hij : i < j) : lifeRel P c d := by
  obtain ⟨hi, hci⟩ := List.getElem?_eq_some.mp hc
  obtain ⟨hj, hdj⟩ := List.getElem?_eq_some.mp hd
  have := List.pairwise_iff_getElem.mp hpw i j hi hj hij
  rw [hci, hdj] at this
  exact this

theorem findIdx?_spec (p : Command → Bool) :
    ∀ (u v : List Command) (d : Command) (i : Nat),
      (∀ c ∈ u, p c = false) → p d = true →
      List.findIdx? p (u ++ d :: v) i = some (i + u.length) := by
  intro u
  induction u with
  | nil =>
    intro v d i _ hd
    rw [List.nil_append, List.findIdx?_cons, if_pos hd]
    simp
  | cons c t ih =>
    intro v d i hu hd
    rw [List.cons_append, List.findIdx?_cons,
      if_neg (by simp [hu c (List.mem_cons_self c t)])]
    rw [ih v d (i + 1) (fun e he => hu e (List.mem_cons_of_mem c he)) hd]
    congr 1
    simp only [List.length_cons]
    omega

theorem isAllocFor_of_isPlainAllocFor {c : Command} {m : Nat}
    (h : c.isPlainAllocFor m = true) : c.isAllocFor m = true := by
  cases c <;> simp_all [Command.isPlainAllocFor, Command.isAllocFor]

theorem isDeallocFor_of_isPlainDeallocFor {c : Command} {m : Nat}
    (h : c.isPlainDeallocFor m = true) : c.isDeallocFor m = true := by
  cases c <;> simp_all [Command.isPlainDeallocFor, Command.isDeallocFor]

theorem movable_isAllocFor_eq {c : Command} (h : c.isMovableSizing = true) (m : Nat) :
    c.isAllocFor m = c.isPlainAllocFor m := by
  cases c <;> first
    | rfl
    | (cases h)

theorem movable_isDeallocFor_eq {c : Command} (h : c.isMovableSizing = true) (m : Nat) :
    c.isDeallocFor m = c.isPlainDeallocFor m := by
  cases c <;> first
    | rfl
    | (cases h)

theorem accessesMatrix_movable {comp : NnetComputation} {c : Command}
    (h : c.isMovableSizing = true) (m : Nat) : comp.accessesMatrix c m = false := by
  cases c <;> first
    | (exact Bool.noConfusion h)
    | (simp [NnetComputation.accessesMatrix, NnetComputation.readsMatrix,
        NnetComputation.writesMatrix, Command.readSubmatrices, Command.writeSubmatrices])

theorem countP_one_posIdx {p : Command → Bool} {l : List Command} (h : l.countP p = 1) :
    ∃ (j : Nat) (c : Command), l[j]? = some c ∧ p c = true ∧
      (∀ (i : Nat) (d : Command), l[i]? = some d → p d = true → i = j) ∧
      l.findIdx? p = some j := by
  obtain ⟨u, a, v, heq, ha, hu, hv⟩ := countP_one_split l h
  refine ⟨u.length, a, ?_, ha, ?_, ?_⟩
  · rw [heq, List.getElem?_append, if_neg (by omega)]
    simp
  · intro i d hd hpd
    rw [heq, List.getElem?_append] at hd
    by_cases hi : i < u.length
    · rw [if_pos hi] at hd
      have hmem : d ∈ u := mem_of_getElem2 hd
      rw [hu d hmem] at hpd
      cases hpd
    · rw [if_neg hi] at hd
      cases hiu : i - u.length with
      | zero =>
        omega
      | succ k =>
        rw [hiu] at hd
        simp only [List.getElem?_cons_succ] at hd
        have hmem : d ∈ v := mem_of_getElem2 hd
        rw [hv d hmem] at hpd
        cases hpd
  · rw [heq]
    have := findIdx?_spec p u v a 0 hu ha
    simpa using this

theorem accessesMatrix_false_of_isAllocFor {comp : NnetComputation} {c : Command} {m : Nat}
    (h : c.isAllocFor m = true) (k : Nat) : comp.accessesMatrix c k = false := by
  cases c <;> first
    | (exact Bool.noConfusion h)
    | (simp [NnetComputation.accessesMatrix, NnetComputation.readsMatrix,
        NnetComputation.writesMatrix, Command.readSubmatrices, Command.writeSubmatrices])

theorem accessesMatrix_false_of_isDeallocFor {comp : NnetComputation} {c : Command} {m : Nat}
    (h : c.isDeallocFor m = true) (k : Nat) : comp.accessesMatrix c k = false := by
  cases c <;> first
    | (exact Bool.noConfusion h)
    | (simp [NnetComputation.accessesMatrix, NnetComputation.readsMatrix,
        NnetComputation.writesMatrix, Command.readSubmatrices, Command.writeSubmatrices])

theorem matPreds_isA (comp : NnetComputation) (x : Nat) (c : Command) :
    (matPreds comp x).isA c = c.isAllocFor x := rfl

theorem matPreds_isD (comp : NnetComputation) (x : Nat) (c : Command) :
    (matPreds comp x).isD c = c.isDeallocFor x := rfl

theorem matPreds_tch_eq (comp : NnetComputation) (x : Nat) (c : Command) :
    (matPreds comp x).tch c =
      (c.isAllocFor x || c.isDeallocFor x || comp.accessesMatrix c x) := rfl

theorem option_some_or {α : Type} (a : α) (o : Option α) : (some a).or o = some a := rfl

theorem countP_one_mem_eq {p : Command → Bool} {l : List Command} (h : l.countP p = 1)
    {c d : Command} (hc : c ∈ l) (hd : d ∈ l) (hpc : p c = true) (hpd : p d = true) :
    c = d := by
  obtain ⟨u, a, v, heq, _, hu, hv⟩ := countP_one_split l h
  rw [heq] at hc hd
  have hca : c = a := by
    rcases List.mem_append.mp hc with h1 | h1
    · rw [hu c h1] at hpc
      cases hpc
    · rcases List.mem_cons.mp h1 with rfl | h1
      · rfl
      · rw [hv c h1] at hpc
        cases hpc
  have hda : d = a := by
    rcases List.mem_append.mp hd with h1 | h1
    · rw [hu d h1] at hpd
      cases hpd
    · rcases List.mem_cons.mp h1 with rfl | h1
      · rfl
      · rw [hv d h1] at hpd
        cases hpd
  rw [hca, hda]

theorem msc_fold (nnet : Nnet) (comp : NnetComputation) (x : Nat)
    (hx : x < comp.matrices.length)
    (hca : comp.commands.countP (matPreds comp x).isA = 1)
    (hcd : comp.commands.countP (matPreds comp x).isD = 1)
    (hnb : ∀ c ∈ comp.commands,
      ¬((matPreds comp x).isA c = true ∧ (matPreds comp x).isD c = true))
    (hpw : List.Pairwise (lifeRel (matPreds comp x)) comp.commands) :
    (MoveSizingCommands nnet comp).commands.foldl (lifeStep (matPreds comp x)) 0 = 2 := by
  have hAofPlain := allocCmdOf_isPlainAlloc comp
  have hsubl : (coreOf comp).Sublist comp.commands := List.filter_sublist _
  have hpwc : List.Pairwise (lifeRel (matPreds comp x)) (coreOf comp) :=
    List.Pairwise.sublist hsubl hpw
  have hsplitA : comp.commands.countP (matPreds comp x).isA =
      (comp.commands.filter (fun c => c.isMovableSizing)).countP (matPreds comp x).isA +
      (coreOf comp).countP (matPreds comp x).isA :=
    countP_filter_split (matPreds comp x).isA (fun c => c.isMovableSizing) comp.commands
  have hsplitD : comp.commands.countP (matPreds comp x).isD =
      (comp.commands.filter (fun c => c.isMovableSizing)).countP (matPreds comp x).isD +
      (coreOf comp).countP (matPreds comp x).isD :=
    countP_filter_split (matPreds comp x).isD (fun c => c.isMovableSizing) comp.commands
  have hidxs_sorted := coreAccessIdxs_sorted comp (coreOf comp) x
  rw [MoveSizingCommands_commands nnet comp]
  unfold rebuildSizing
  rw [List.foldl_append]
  have hdxD : (matPreds comp x).isD (Command.deallocMatrix x) = true := by
    rw [matPreds_isD]
    simp [Command.isDeallocFor]
  have hdxA : (matPreds comp x).isA (Command.deallocMatrix x) = false := rfl
  cases haO : allocCmdOf comp x with
  | some a =>
    have hamem : a ∈ comp.commands := List.mem_of_find?_eq_some haO
    have haP : a.isPlainAllocFor x = true := hAofPlain x a haO
    have haA : (matPreds comp x).isA a = true := isAllocFor_of_isPlainAllocFor haP
    have hamov : a.isMovableSizing = true := isPlainAllocFor_isMovable haP
    have hAmovpos : 0 < (comp.commands.filter (fun c => c.isMovableSizing)).countP
        (matPreds comp x).isA :=
      List.countP_pos_iff.mpr ⟨a, List.mem_filter.mpr ⟨hamem, hamov⟩, haA⟩
    have hAcore : ∀ c ∈ coreOf comp, (matPreds comp x).isA c = false :=
      all_false_of_countP_zero (by omega)
    cases hDv : hasPlainDealloc comp x with
    | true =>
      have hDcore : ∀ c ∈ coreOf comp, (matPreds comp x).isD c = false := by
        obtain ⟨dl, hdlmem, hdlP⟩ := List.any_eq_true.mp hDv
        have hdlD : (matPreds comp x).isD dl = true := isDeallocFor_of_isPlainDeallocFor hdlP
        have hdlmov : dl.isMovableSizing = true := by
          rw [isPlainDeallocFor_iff.mp hdlP]
          rfl
        have hpos : 0 < (comp.commands.filter (fun c => c.isMovableSizing)).countP
            (matPreds comp x).isD :=
          List.countP_pos_iff.mpr ⟨dl, List.mem_filter.mpr ⟨hdlmem, hdlmov⟩, hdlD⟩
        exact all_false_of_countP_zero (by omega)
      have hdIdx : (coreOf comp).findIdx? (fun c => c.isDeallocFor x) = none :=
        List.findIdx?_eq_none_iff.mpr (fun c hc => hDcore c hc)
      cases hfa : (coreAccessIdxs comp (coreOf comp) x).head? with
      | some j1 =>
        -- case 1: plain alloc, plain dealloc, accesses present
        have hkAx : ((coreAccessIdxs comp (coreOf comp) x).head?).or
            (List.findIdx? (fun c => c.isDeallocFor x) (coreOf comp)) = some j1 := by
          rw [hfa]
          exact option_some_or j1 _
        cases hla : (coreAccessIdxs comp (coreOf comp) x).getLast? with
        | none =>
          rw [List.getLast?_eq_none_iff] at hla
          rw [hla] at hfa
          cases hfa
        | some j2 =>
          have hj1idx : j1 ∈ coreAccessIdxs comp (coreOf comp) x :=
            List.mem_of_mem_head? hfa
          have hj2idx : j2 ∈ coreAccessIdxs comp (coreOf comp) x :=
            List.mem_of_mem_getLast? hla
          have hj1lt := coreAccessIdxs_lt hj1idx
          have hj2lt := coreAccessIdxs_lt hj2idx
          have hj12 : j1 ≤ j2 := sorted_head_le hidxs_sorted hfa j2 hj2idx
          have hA1 : ∀ j, j < (coreOf comp).length →
              (allocsAt comp.matrices.length (allocCmdOf comp) (fun m =>
                ((coreAccessIdxs comp (coreOf comp) m).head?).or
                  (List.findIdx? (fun c => c.isDeallocFor m) (coreOf comp))) j).filter
                (matPreds comp x).tch = if 3 * j1 = 3 * j then [a] else [] := by
            intro j hj
            rw [filter_tch_allocsAt comp x j hx hAofPlain]
            by_cases hjj : j1 = j
            · subst hjj
              rw [if_pos (by exact hkAx), if_pos rfl, haO]
              rfl
            · rw [if_neg (by
                  intro hcon
                  have h2 : some j1 = some j := hkAx.symm.trans hcon
                  exact hjj (Option.some_inj.mp h2)),
                if_neg (by omega)]
          have hD1 : ∀ j, j < (coreOf comp).length →
              (deallocsAt comp.matrices.length (hasPlainDealloc comp) (fun m =>
                (coreAccessIdxs comp (coreOf comp) m).getLast?) j).filter
                (matPreds comp x).tch =
                if 3 * j2 + 2 = 3 * j + 2 then [Command.deallocMatrix x] else [] := by
            intro j hj
            rw [filter_tch_deallocsAt comp x j hx]
            by_cases hjj : j2 = j
            · subst hjj
              rw [if_pos (by simp [hla, hDv]), if_pos rfl]
            · rw [if_neg (by
                  simp only [hla, hDv, Bool.and_true]
                  simp [hjj]),
                if_neg (by omega)]
          have haPc : ∀ j, j < (coreOf comp).length → 3 * j1 = 3 * j + 1 →
              ∃ c, (coreOf comp)[j]? = some c ∧ (matPreds comp x).tch c = true := by
            intro j hj hcon
            exact absurd hcon (by omega)
          have hdPc : ∀ j, j < (coreOf comp).length → 3 * j2 + 2 = 3 * j + 1 →
              ∃ c, (coreOf comp)[j]? = some c ∧ (matPreds comp x).tch c = true := by
            intro j hj hcon
            exact absurd hcon (by omega)
          have hcore : ∀ j c, (coreOf comp)[j]? = some c →
              (matPreds comp x).tch c = true →
              ((matPreds comp x).isA c = true ↔ 3 * j + 1 = 3 * j1) ∧
              ((matPreds comp x).isD c = true ↔ 3 * j + 1 = 3 * j2 + 2) ∧
              3 * j1 ≤ 3 * j + 1 ∧ 3 * j + 1 ≤ 3 * j2 + 2 := by
            intro j c hj htc
            have hcmem : c ∈ coreOf comp := mem_of_getElem2 hj
            have hcA := hAcore c hcmem
            have hcD := hDcore c hcmem
            have hacc : comp.accessesMatrix c x = true := by
              rw [matPreds_tch_eq] at htc
              rw [matPreds_isA] at hcA
              rw [matPreds_isD] at hcD
              rw [hcA, hcD] at htc
              simpa using htc
            have hjidx : j ∈ coreAccessIdxs comp (coreOf comp) x :=
              mem_coreAccessIdxs.mpr ⟨c, hj, hacc⟩
            have h1 : j1 ≤ j := sorted_head_le hidxs_sorted hfa j hjidx
            have h2 : j ≤ j2 := sorted_le_getLast _ j2 hidxs_sorted hla j hjidx
            exact ⟨iff_of_false (by simp [hcA]) (by omega),
              iff_of_false (by simp [hcD]) (by omega), by omega, by omega⟩
          rw [foldl_body_master (matPreds comp x) _ _ (coreOf comp) (3 * j1) (3 * j2 + 2) a
            (Command.deallocMatrix x) (by omega) (by omega) (by omega) haA hdxD hdxA
            hA1 hD1 haPc hdPc hcore]
          rw [lifePhase_eq_two (by omega) (by omega)]
          rw [lifeFold_filter, filter_tch_sizingTail comp x hx hAofPlain]
          rw [if_neg (by
            intro hcon
            have h2 : some j1 = none := hkAx.symm.trans hcon
            cases h2)]
          rw [if_neg (by
            simp only [hfa]
            simp)]
          rfl
      | none =>
        -- case 2: plain alloc, plain dealloc, no accesses: both go to the tail
        have hidxsnil : coreAccessIdxs comp (coreOf comp) x = [] :=
          List.head?_eq_none_iff.mp hfa
        have hgl : (coreAccessIdxs comp (coreOf comp) x).getLast? = none :=
          List.getLast?_eq_none_iff.mpr hidxsnil
        have hkAx : ((coreAccessIdxs comp (coreOf comp) x).head?).or
            (List.findIdx? (fun c => c.isDeallocFor x) (coreOf comp)) = none := by
          rw [hfa, Option.none_or]
          exact hdIdx
        have hA1 : ∀ j, j < (coreOf comp).length →
            (allocsAt comp.matrices.length (allocCmdOf comp) (fun m =>
              ((coreAccessIdxs comp (coreOf comp) m).head?).or
                (List.findIdx? (fun c => c.isDeallocFor m) (coreOf comp))) j).filter
              (matPreds comp x).tch =
              if 3 * (coreOf comp).length + 3 = 3 * j then [a] else [] := by
          intro j hj
          rw [filter_tch_allocsAt comp x j hx hAofPlain]
          rw [if_neg (by
              intro hcon
              have h2 : (none : Option Nat) = some j := hkAx.symm.trans hcon
              cases h2),
            if_neg (by omega)]
        have hD1 : ∀ j, j < (coreOf comp).length →
            (deallocsAt comp.matrices.length (hasPlainDealloc comp) (fun m =>
              (coreAccessIdxs comp (coreOf comp) m).getLast?) j).filter
              (matPreds comp x).tch =
              if 3 * (coreOf comp).length + 4 = 3 * j + 2 then [Command.deallocMatrix x]
              else [] := by
          intro j hj
          rw [filter_tch_deallocsAt comp x j hx]
          rw [if_neg (by simp [hgl]), if_neg (by omega)]
        have haPc : ∀ j, j < (coreOf comp).length →
            3 * (coreOf comp).length + 3 = 3 * j + 1 →
            ∃ c, (coreOf comp)[j]? = some c ∧ (matPreds comp x).tch c = true := by
          intro j hj hcon
          exact absurd hcon (by omega)
        have hdPc : ∀ j, j < (coreOf comp).length →
            3 * (coreOf comp).length + 4 = 3 * j + 1 →
            ∃ c, (coreOf comp)[j]? = some c ∧ (matPreds comp x).tch c = true := by
          intro j hj hcon
          exact absurd hcon (by omega)
        have hcore : ∀ j c, (coreOf comp)[j]? = some c →
            (matPreds comp x).tch c = true →
            ((matPreds comp x).isA c = true ↔ 3 * j + 1 = 3 * (coreOf comp).length + 3) ∧
            ((matPreds comp x).isD c = true ↔ 3 * j + 1 = 3 * (coreOf comp).length + 4) ∧
            3 * (coreOf comp).length + 3 ≤ 3 * j + 1 ∧
            3 * j + 1 ≤ 3 * (coreOf comp).length + 4 := by
          intro j c hj htc
          have hcmem : c ∈ coreOf comp := mem_of_getElem2 hj
          have hcA := hAcore c hcmem
          have hcD := hDcore c hcmem
          have hacc : comp.accessesMatrix c x = true := by
            rw [matPreds_tch_eq] at htc
            rw [matPreds_isA] at hcA
            rw [matPreds_isD] at hcD
            rw [hcA, hcD] at htc
            simpa using htc
          have hjidx : j ∈ coreAccessIdxs comp (coreOf comp) x :=
            mem_coreAccessIdxs.mpr ⟨c, hj, hacc⟩
          rw [hidxsnil] at hjidx
          cases hjidx
        rw [foldl_body_master (matPreds comp x) _ _ (coreOf comp)
          (3 * (coreOf comp).length + 3) (3 * (coreOf comp).length + 4) a
          (Command.deallocMatrix x) (by omega) (by omega) (by omega) haA hdxD hdxA
          hA1 hD1 haPc hdPc hcore]
        rw [lifePhase_eq_zero (by omega)]
        rw [lifeFold_filter, filter_tch_sizingTail comp x hx hAofPlain]
        rw [if_pos (by exact hkAx), if_pos (by simp [hfa, hDv]), haO]
        simp only [Option.toList, List.cons_append, List.nil_append, List.foldl_cons,
          List.foldl_nil]
        rw [lifeStep_zero_alloc haA, lifeStep_one_dealloc hdxA hdxD]
    | false =>
      have hdno : ∀ c ∈ comp.commands, c.isPlainDeallocFor x = false := by
        intro c hcm
        have h0 : comp.commands.any (fun c => c.isPlainDeallocFor x) = false := hDv
        have h1 := List.any_eq_false.mp h0 c hcm
        revert h1
        cases c.isPlainDeallocFor x <;> simp
      have hDmov0 : (comp.commands.filter (fun c => c.isMovableSizing)).countP
          (matPreds comp x).isD = 0 :=
        countP_zero_of_all_false (by
          intro c hc
          obtain ⟨hcm, hcmov⟩ := List.mem_filter.mp hc
          rw [matPreds_isD, movable_isDeallocFor_eq hcmov x]
          exact hdno c hcm)
      have hDcore1 : (coreOf comp).countP (matPreds comp x).isD = 1 := by omega
      obtain ⟨jd, dd, hjd, hddD, hjduniq, hfIdx0⟩ := countP_one_posIdx hDcore1
      have hfIdx : (coreOf comp).findIdx? (fun c => c.isDeallocFor x) = some jd := hfIdx0
      have hddA : (matPreds comp x).isA dd = false := by
        cases hv : (matPreds comp x).isA dd
        · rfl
        · exact absurd ⟨hv, hddD⟩ (hnb dd (hsubl.subset (mem_of_getElem2 hjd)))
      have hjd_lt : jd < (coreOf comp).length := (List.getElem?_eq_some.mp hjd).1
      have hdd_nacc : comp.accessesMatrix dd x = false :=
        accessesMatrix_false_of_isDeallocFor hddD x
      have htchdd : (matPreds comp x).tch dd = true := by
        rw [matPreds_tch_eq]
        have h2 : dd.isDeallocFor x = true := hddD
        simp [h2]
      have hacc_lt_jd : ∀ j c, (coreOf comp)[j]? = some c →
          comp.accessesMatrix c x = true → j < jd := by
        intro j c hj hacc
        by_cases hje : j = jd
        · subst hje
          have hcd : c = dd := Option.some_inj.mp (hj.symm.trans hjd)
          subst hcd
          rw [hdd_nacc] at hacc
          cases hacc
        · rcases Nat.lt_or_ge j jd with hlt | hge
          · exact hlt
          · exfalso
            have hjdlt : jd < j := by omega
            have hrel := pairwise_rel_of_getElem hpwc hjd hj hjdlt
            have h2 := hrel.2 hddD
            rw [matPreds_tch_eq, hacc] at h2
            simp at h2
      cases hfa : (coreAccessIdxs comp (coreOf comp) x).head? with
      | some j1 =>
        -- case 3: plain alloc, fused dealloc, accesses present
        have hkAx : ((coreAccessIdxs comp (coreOf comp) x).head?).or
            (List.findIdx? (fun c => c.isDeallocFor x) (coreOf comp)) = some j1 := by
          rw [hfa]
          exact option_some_or j1 _
        cases hla : (coreAccessIdxs comp (coreOf comp) x).getLast? with
        | none =>
          rw [List.getLast?_eq_none_iff] at hla
          rw [hla] at hfa
          cases hfa
        | some j2 =>
          have hj1idx : j1 ∈ coreAccessIdxs comp (coreOf comp) x :=
            List.mem_of_mem_head? hfa
          have hj2idx : j2 ∈ coreAccessIdxs comp (coreOf comp) x :=
            List.mem_of_mem_getLast? hla
          have hj1lt := coreAccessIdxs_lt hj1idx
          have hj2lt := coreAccessIdxs_lt hj2idx
          have hj12 : j1 ≤ j2 := sorted_head_le hidxs_sorted hfa j2 hj2idx
          have hj2jd : j2 < jd := by
            obtain ⟨c2, hj2get, hacc2⟩ := mem_coreAccessIdxs.mp hj2idx
            exact hacc_lt_jd j2 c2 hj2get hacc2
          have hA1 : ∀ j, j < (coreOf comp).length →
              (allocsAt comp.matrices.length (allocCmdOf comp) (fun m =>
                ((coreAccessIdxs comp (coreOf comp) m).head?).or
                  (List.findIdx? (fun c => c.isDeallocFor m) (coreOf comp))) j).filter
                (matPreds comp x).tch = if 3 * j1 = 3 * j then [a] else [] := by
            intro j hj
            rw [filter_tch_allocsAt comp x j hx hAofPlain]
            by_cases hjj : j1 = j
            · subst hjj
              rw [if_pos (by exact hkAx), if_pos rfl, haO]
              rfl
            · rw [if_neg (by
                  intro hcon
                  have h2 : some j1 = some j := hkAx.symm.trans hcon
                  exact hjj (Option.some_inj.mp h2)),
                if_neg (by omega)]
          have hD1 : ∀ j, j < (coreOf comp).length →
              (deallocsAt comp.matrices.length (hasPlainDealloc comp) (fun m =>
                (coreAccessIdxs comp (coreOf comp) m).getLast?) j).filter
                (matPreds comp x).tch =
                if 3 * jd + 1 = 3 * j + 2 then [dd] else [] := by
            intro j hj
            rw [filter_tch_deallocsAt comp x j hx]
            rw [if_neg (by simp [hDv]), if_neg (by omega)]
          have haPc : ∀ j, j < (coreOf comp).length → 3 * j1 = 3 * j + 1 →
              ∃ c, (coreOf comp)[j]? = some c ∧ (matPreds comp x).tch c = true := by
            intro j hj hcon
            exact absurd hcon (by omega)
          have hdPc : ∀ j, j < (coreOf comp).length → 3 * jd + 1 = 3 * j + 1 →
              ∃ c, (coreOf comp)[j]? = some c ∧ (matPreds comp x).tch c = true := by
            intro j hj hcon
            have hje : j = jd := by omega
            subst hje
            exact ⟨dd, hjd, htchdd⟩
          have hcore : ∀ j c, (coreOf comp)[j]? = some c →
              (matPreds comp x).tch c = true →
              ((matPreds comp x).isA c = true ↔ 3 * j + 1 = 3 * j1) ∧
              ((matPreds comp x).isD c = true ↔ 3 * j + 1 = 3 * jd + 1) ∧
              3 * j1 ≤ 3 * j + 1 ∧ 3 * j + 1 ≤ 3 * jd + 1 := by
            intro j c hj htc
            have hcmem : c ∈ coreOf comp := mem_of_getElem2 hj
            have hcA := hAcore c hcmem
            by_cases hcDv : (matPreds comp x).isD c = true
            · have hjjd : j = jd := hjduniq j c hj hcDv
              subst hjjd
              exact ⟨iff_of_false (by simp [hcA]) (by omega),
                iff_of_true hcDv rfl, by omega, by omega⟩
            · have hcD : (matPreds comp x).isD c = false := by
                revert hcDv
                cases (matPreds comp x).isD c <;> simp
              have hacc : comp.accessesMatrix c x = true := by
                rw [matPreds_tch_eq] at htc
                rw [matPreds_isA] at hcA
                rw [matPreds_isD] at hcD
                rw [hcA, hcD] at htc
                simpa using htc
              have hjidx : j ∈ coreAccessIdxs comp (coreOf comp) x :=
                mem_coreAccessIdxs.mpr ⟨c, hj, hacc⟩
              have h1 : j1 ≤ j := sorted_head_le hidxs_sorted hfa j hjidx
              have h2 : j ≤ j2 := sorted_le_getLast _ j2 hidxs_sorted hla j hjidx
              exact ⟨iff_of_false (by simp [hcA]) (by omega),
                iff_of_false (by simp [hcD]) (by omega), by omega, by omega⟩
          rw [foldl_body_master (matPreds comp x) _ _ (coreOf comp) (3 * j1) (3 * jd + 1) a
            dd (by omega) (by omega) (by omega) haA hddD hddA hA1 hD1 haPc hdPc hcore]
          rw [lifePhase_eq_two (by omega) (by omega)]
          rw [lifeFold_filter, filter_tch_sizingTail comp x hx hAofPlain]
          rw [if_neg (by
            intro hcon
            have h2 : some j1 = none := hkAx.symm.trans hcon
            cases h2)]
          rw [if_neg (by
            simp only [hfa]
            simp)]
          rfl
      | none =>
        -- case 4: plain alloc, fused dealloc, no accesses
        have hidxsnil : coreAccessIdxs comp (coreOf comp) x = [] :=
          List.head?_eq_none_iff.mp hfa
        have hgl : (coreAccessIdxs comp (coreOf comp) x).getLast? = none :=
          List.getLast?_eq_none_iff.mpr hidxsnil
        have hkAx : ((coreAccessIdxs comp (coreOf comp) x).head?).or
            (List.findIdx? (fun c => c.isDeallocFor x) (coreOf comp)) = some jd := by
          rw [hfa, Option.none_or]
          exact hfIdx
        have hA1 : ∀ j, j < (coreOf comp).length →
            (allocsAt comp.matrices.length (allocCmdOf comp) (fun m =>
              ((coreAccessIdxs comp (coreOf comp) m).head?).or
                (List.findIdx? (fun c => c.isDeallocFor m) (coreOf comp))) j).filter
              (matPreds comp x).tch = if 3 * jd = 3 * j then [a] else [] := by
          intro j hj
          rw [filter_tch_allocsAt comp x j hx hAofPlain]
          by_cases hjj : jd = j
          · subst hjj
            rw [if_pos (by exact hkAx), if_pos rfl, haO]
            rfl
          · rw [if_neg (by
                intro hcon
                have h2 : some jd = some j := hkAx.symm.trans hcon
                exact hjj (Option.some_inj.mp h2)),
              if_neg (by omega)]
        have hD1 : ∀ j, j < (coreOf comp).length →
            (deallocsAt comp.matrices.length (hasPlainDealloc comp) (fun m =>
              (coreAccessIdxs comp (coreOf comp) m).getLast?) j).filter
              (matPreds comp x).tch = if 3 * jd + 1 = 3 * j + 2 then [dd] else [] := by
          intro j hj
          rw [filter_tch_deallocsAt comp x j hx]
          rw [if_neg (by simp [hDv]), if_neg (by omega)]
        have haPc : ∀ j, j < (coreOf comp).length → 3 * jd = 3 * j + 1 →
            ∃ c, (coreOf comp)[j]? = some c ∧ (matPreds comp x).tch c = true := by
          intro j hj hcon
          exact absurd hcon (by omega)
        have hdPc : ∀ j, j < (coreOf comp).length → 3 * jd + 1 = 3 * j + 1 →
            ∃ c, (coreOf comp)[j]? = some c ∧ (matPreds comp x).tch c = true := by
          intro j hj hcon
          have hje : j = jd := by omega
          subst hje
          exact ⟨dd, hjd, htchdd⟩
        have hcore : ∀ j c, (coreOf comp)[j]? = some c →
            (matPreds comp x).tch c = true →
            ((matPreds comp x).isA c = true ↔ 3 * j + 1 = 3 * jd) ∧
            ((matPreds comp x).isD c = true ↔ 3 * j + 1 = 3 * jd + 1) ∧
            3 * jd ≤ 3 * j + 1 ∧ 3 * j + 1 ≤ 3 * jd + 1 := by
          intro j c hj htc
          have hcmem : c ∈ coreOf comp := mem_of_getElem2 hj
          have hcA := hAcore c hcmem
          by_cases hcDv : (matPreds comp x).isD c = true
          · have hjjd : j = jd := hjduniq j c hj hcDv
            subst hjjd
            exact ⟨iff_of_false (by simp [hcA]) (by omega),
              iff_of_true hcDv rfl, by omega, by omega⟩
          · exfalso
            have hcD : (matPreds comp x).isD c = false := by
              revert hcDv
              cases (matPreds comp x).isD c <;> simp
            have hacc : comp.accessesMatrix c x = true := by
              rw [matPreds_tch_eq] at htc
              rw [matPreds_isA] at hcA
              rw [matPreds_isD] at hcD
              rw [hcA, hcD] at htc
              simpa using htc
            have hjidx : j ∈ coreAccessIdxs comp (coreOf comp) x :=
              mem_coreAccessIdxs.mpr ⟨c, hj, hacc⟩
            rw [hidxsnil] at hjidx
            cases hjidx
        rw [foldl_body_master (matPreds comp x) _ _ (coreOf comp) (3 * jd) (3 * jd + 1) a
          dd (by omega) (by omega) (by omega) haA hddD hddA hA1 hD1 haPc hdPc hcore]
        rw [lifePhase_eq_two (by omega) (by omega)]
        rw [lifeFold_filter, filter_tch_sizingTail comp x hx hAofPlain]
        rw [if_neg (by
          intro hcon
          have h2 : some jd = none := hkAx.symm.trans hcon
          cases h2)]
        rw [if_neg (by simp [hDv])]
        rfl
  | none =>
    have hnoplain : ∀ c ∈ comp.commands, c.isPlainAllocFor x = false := by
      intro c hcm
      have h1 := List.find?_eq_none.mp haO c hcm
      revert h1
      cases c.isPlainAllocFor x <;> simp
    have hAmov0 : (comp.commands.filter (fun c => c.isMovableSizing)).countP
        (matPreds comp x).isA = 0 :=
      countP_zero_of_all_false (by
        intro c hc
        obtain ⟨hcm, hcmov⟩ := List.mem_filter.mp hc
        rw [matPreds_isA, movable_isAllocFor_eq hcmov x]
        exact hnoplain c hcm)
    have hAcore1 : (coreOf comp).countP (matPreds comp x).isA = 1 := by omega
    obtain ⟨ja, ac, hja, hacA, hjauniq, _⟩ := countP_one_posIdx hAcore1
    have hacD : (matPreds comp x).isD ac = false := by
      cases hv : (matPreds comp x).isD ac
      · rfl
      · exact absurd ⟨hacA, hv⟩ (hnb ac (hsubl.subset (mem_of_getElem2 hja)))
    have hja_lt : ja < (coreOf comp).length := (List.getElem?_eq_some.mp hja).1
    have hac_nacc : comp.accessesMatrix ac x = false :=
      accessesMatrix_false_of_isAllocFor hacA x
    have htchac : (matPreds comp x).tch ac = true := by
      rw [matPreds_tch_eq]
      have h2 : ac.isAllocFor x = true := hacA
      simp [h2]
    have hja_lt_acc : ∀ j c, (coreOf comp)[j]? = some c →
        comp.accessesMatrix c x = true → ja < j := by
      intro j c hj hacc
      by_cases hje : j = ja
      · subst hje
        have hcd : c = ac := Option.some_inj.mp (hj.symm.trans hja)
        subst hcd
        rw [hac_nacc] at hacc
        cases hacc
      · rcases Nat.lt_or_ge ja j with hlt | hge
        · exact hlt
        · exfalso
          have hjlt : j < ja := by omega
          have hrel := pairwise_rel_of_getElem hpwc hj hja hjlt
          have h2 := hrel.1 hacA
          rw [matPreds_tch_eq, hacc] at h2
          simp at h2
    cases hDv : hasPlainDealloc comp x with
    | true =>
      have hDcore : ∀ c ∈ coreOf comp, (matPreds comp x).isD c = false := by
        obtain ⟨dl, hdlmem, hdlP⟩ := List.any_eq_true.mp hDv
        have hdlD : (matPreds comp x).isD dl = true := isDeallocFor_of_isPlainDeallocFor hdlP
        have hdlmov : dl.isMovableSizing = true := by
          rw [isPlainDeallocFor_iff.mp hdlP]
          rfl
        have hpos : 0 < (comp.commands.filter (fun c => c.isMovableSizing)).countP
            (matPreds comp x).isD :=
          List.countP_pos_iff.mpr ⟨dl, List.mem_filter.mpr ⟨hdlmem, hdlmov⟩, hdlD⟩
        exact all_false_of_countP_zero (by omega)
      have hdIdx : (coreOf comp).findIdx? (fun c => c.isDeallocFor x) = none :=
        List.findIdx?_eq_none_iff.mpr (fun c hc => hDcore c hc)
      cases hfa : (coreAccessIdxs comp (coreOf comp) x).head? with
      | some j1 =>
        -- case 5: fused alloc, plain dealloc, accesses present
        have hkAx : ((coreAccessIdxs comp (coreOf comp) x).head?).or
            (List.findIdx? (fun c => c.isDeallocFor x) (coreOf comp)) = some j1 := by
          rw [hfa]
          exact option_some_or j1 _
        cases hla : (coreAccessIdxs comp (coreOf comp) x).getLast? with
        | none =>
          rw [List.getLast?_eq_none_iff] at hla
          rw [hla] at hfa
          cases hfa
        | some j2 =>
          have hj1idx : j1 ∈ coreAccessIdxs comp (coreOf comp) x :=
            List.mem_of_mem_head? hfa
          have hj2idx : j2 ∈ coreAccessIdxs comp (coreOf comp) x :=
            List.mem_of_mem_getLast? hla
          have hj1lt := coreAccessIdxs_lt hj1idx
          have hj2lt := coreAccessIdxs_lt hj2idx
          have hj12 : j1 ≤ j2 := sorted_head_le hidxs_sorted hfa j2 hj2idx
          have hja_j1 : ja < j1 := by
            obtain ⟨c1, hj1get, hacc1⟩ := mem_coreAccessIdxs.mp hj1idx
            exact hja_lt_acc j1 c1 hj1get hacc1
          have hA1 : ∀ j, j < (coreOf comp).length →
              (allocsAt comp.matrices.length (allocCmdOf comp) (fun m =>
                ((coreAccessIdxs comp (coreOf comp) m).head?).or
                  (List.findIdx? (fun c => c.isDeallocFor m) (coreOf comp))) j).filter
                (matPreds comp x).tch = if 3 * ja + 1 = 3 * j then [ac] else [] := by
            intro j hj
            rw [filter_tch_allocsAt comp x j hx hAofPlain, haO]
            rw [if_neg (show ¬(3 * ja + 1 = 3 * j) by omega)]
            simp [Option.toList]
          have hD1 : ∀ j, j < (coreOf comp).length →
              (deallocsAt comp.matrices.length (hasPlainDealloc comp) (fun m =>
                (coreAccessIdxs comp (coreOf comp) m).getLast?) j).filter
                (matPreds comp x).tch =
                if 3 * j2 + 2 = 3 * j + 2 then [Command.deallocMatrix x] else [] := by
            intro j hj
            rw [filter_tch_deallocsAt comp x j hx]
            by_cases hjj : j2 = j
            · subst hjj
              rw [if_pos (by simp [hla, hDv]), if_pos rfl]
            · rw [if_neg (by
                  simp only [hla, hDv, Bool.and_true]
                  simp [hjj]),
                if_neg (by omega)]
          have haPc : ∀ j, j < (coreOf comp).length → 3 * ja + 1 = 3 * j + 1 →
              ∃ c, (coreOf comp)[j]? = some c ∧ (matPreds comp x).tch c = true := by
            intro j hj hcon
            have hje : j = ja := by omega
            subst hje
            exact ⟨ac, hja, htchac⟩
          have hdPc : ∀ j, j < (coreOf comp).length → 3 * j2 + 2 = 3 * j + 1 →
              ∃ c, (coreOf comp)[j]? = some c ∧ (matPreds comp x).tch c = true := by
            intro j hj hcon
            exact absurd hcon (by omega)
          have hcore : ∀ j c, (coreOf comp)[j]? = some c →
              (matPreds comp x).tch c = true →
              ((matPreds comp x).isA c = true ↔ 3 * j + 1 = 3 * ja + 1) ∧
              ((matPreds comp x).isD c = true ↔ 3 * j + 1 = 3 * j2 + 2) ∧
              3 * ja + 1 ≤ 3 * j + 1 ∧ 3 * j + 1 ≤ 3 * j2 + 2 := by
            intro j c hj htc
            have hcmem : c ∈ coreOf comp := mem_of_getElem2 hj
            have hcD := hDcore c hcmem
            by_cases hcAv : (matPreds comp x).isA c = true
            · have hjja : j = ja := hjauniq j c hj hcAv
              subst hjja
              exact ⟨iff_of_true hcAv rfl, iff_of_false (by simp [hcD]) (by omega),
                by omega, by omega⟩
            · have hcA : (matPreds comp x).isA c = false := by
                revert hcAv
                cases (matPreds comp x).isA c <;> simp
              have hacc : comp.accessesMatrix c x = true := by
                rw [matPreds_tch_eq] at htc
                rw [matPreds_isA] at hcA
                rw [matPreds_isD] at hcD
                rw [hcA, hcD] at htc
                simpa using htc
              have hjidx : j ∈ coreAccessIdxs comp (coreOf comp) x :=
                mem_coreAccessIdxs.mpr ⟨c, hj, hacc⟩
              have h1 : j1 ≤ j := sorted_head_le hidxs_sorted hfa j hjidx
              have h2 : j ≤ j2 := sorted_le_getLast _ j2 hidxs_sorted hla j hjidx
              exact ⟨iff_of_false (by simp [hcA]) (by omega),
                iff_of_false (by simp [hcD]) (by omega), by omega, by omega⟩
          rw [foldl_body_master (matPreds comp x) _ _ (coreOf comp) (3 * ja + 1)
            (3 * j2 + 2) ac (Command.deallocMatrix x) (by omega) (by omega) (by omega)
            hacA hdxD hdxA hA1 hD1 haPc hdPc hcore]
          rw [lifePhase_eq_two (by omega) (by omega)]
          rw [lifeFold_filter, filter_tch_sizingTail comp x hx hAofPlain]
          rw [if_neg (by
            intro hcon
            have h2 : some j1 = none := hkAx.symm.trans hcon
            cases h2)]
          rw [if_neg (by
            simp only [hfa]
            simp)]
          rfl
      | none =>
        -- case 6: fused alloc, plain dealloc, no accesses: dealloc goes to the tail
        have hidxsnil : coreAccessIdxs comp (coreOf comp) x = [] :=
          List.head?_eq_none_iff.mp hfa
        have hgl : (coreAccessIdxs comp (coreOf comp) x).getLast? = none :=
          List.getLast?_eq_none_iff.mpr hidxsnil
        have hkAx : ((coreAccessIdxs comp (coreOf comp) x).head?).or
            (List.findIdx? (fun c => c.isDeallocFor x) (coreOf comp)) = none := by
          rw [hfa, Option.none_or]
          exact hdIdx
        have hA1 : ∀ j, j < (coreOf comp).length →
            (allocsAt comp.matrices.length (allocCmdOf comp) (fun m =>
              ((coreAccessIdxs comp (coreOf comp) m).head?).or
                (List.findIdx? (fun c => c.isDeallocFor m) (coreOf comp))) j).filter
              (matPreds comp x).tch = if 3 * ja + 1 = 3 * j then [ac] else [] := by
          intro j hj
          rw [filter_tch_allocsAt comp x j hx hAofPlain, haO]
          rw [if_neg (show ¬(3 * ja + 1 = 3 * j) by omega)]
          simp [Option.toList]
        have hD1 : ∀ j, j < (coreOf comp).length →
            (deallocsAt comp.matrices.length (hasPlainDealloc comp) (fun m =>
              (coreAccessIdxs comp (coreOf comp) m).getLast?) j).filter
              (matPreds comp x).tch =
              if 3 * (coreOf comp).length + 4 = 3 * j + 2 then [Command.deallocMatrix x]
              else [] := by
          intro j hj
          rw [filter_tch_deallocsAt comp x j hx]
          rw [if_neg (by simp [hgl]), if_neg (by omega)]
        have haPc : ∀ j, j < (coreOf comp).length → 3 * ja + 1 = 3 * j + 1 →
            ∃ c, (coreOf comp)[j]? = some c ∧ (matPreds comp x).tch c = true := by
          intro j hj hcon
          have hje : j = ja := by omega
          subst hje
          exact ⟨ac, hja, htchac⟩
        have hdPc : ∀ j, j < (coreOf comp).length →
            3 * (coreOf comp).length + 4 = 3 * j + 1 →
            ∃ c, (coreOf comp)[j]? = some c ∧ (matPreds comp x).tch c = true := by
          intro j hj hcon
          exact absurd hcon (by omega)
        have hcore : ∀ j c, (coreOf comp)[j]? = some c →
            (matPreds comp x).tch c = true →
            ((matPreds comp x).isA c = true ↔ 3 * j + 1 = 3 * ja + 1) ∧
            ((matPreds comp x).isD c = true ↔ 3 * j + 1 = 3 * (coreOf comp).length + 4) ∧
            3 * ja + 1 ≤ 3 * j + 1 ∧ 3 * j + 1 ≤ 3 * (coreOf comp).length + 4 := by
          intro j c hj htc
          have hcmem : c ∈ coreOf comp := mem_of_getElem2 hj
          have hcD := hDcore c hcmem
          by_cases hcAv : (matPreds comp x).isA c = true
          · have hjja : j = ja := hjauniq j c hj hcAv
            subst hjja
            exact ⟨iff_of_true hcAv rfl, iff_of_false (by simp [hcD]) (by omega),
              by omega, by omega⟩
          · exfalso
            have hcA : (matPreds comp x).isA c = false := by
              revert hcAv
              cases (matPreds comp x).isA c <;> simp
            have hacc : comp.accessesMatrix c x = true := by
              rw [matPreds_tch_eq] at htc
              rw [matPreds_isA] at hcA
              rw [matPreds_isD] at hcD
              rw [hcA, hcD] at htc
              simpa using htc
            have hjidx : j ∈ coreAccessIdxs comp (coreOf comp) x :=
              mem_coreAccessIdxs.mpr ⟨c, hj, hacc⟩
            rw [hidxsnil] at hjidx
            cases hjidx
        rw [foldl_body_master (matPreds comp x) _ _ (coreOf comp) (3 * ja + 1)
          (3 * (coreOf comp).length + 4) ac (Command.deallocMatrix x) (by omega) (by omega)
          (by omega) hacA hdxD hdxA hA1 hD1 haPc hdPc hcore]
        rw [lifePhase_eq_one (by omega) (by omega)]
        rw [lifeFold_filter, filter_tch_sizingTail comp x hx hAofPlain]
        rw [if_pos (by exact hkAx), if_pos (by simp [hfa, hDv]), haO]
        simp only [Option.toList, List.nil_append, List.foldl_cons, List.foldl_nil]
        rw [lifeStep_one_dealloc hdxA hdxD]
    | false =>
      have hdno : ∀ c ∈ comp.commands, c.isPlainDeallocFor x = false := by
        intro c hcm
        have h0 : comp.commands.any (fun c => c.isPlainDeallocFor x) = false := hDv
        have h1 := List.any_eq_false.mp h0 c hcm
        revert h1
        cases c.isPlainDeallocFor x <;> simp
      have hDmov0 : (comp.commands.filter (fun c => c.isMovableSizing)).countP
          (matPreds comp x).isD = 0 :=
        countP_zero_of_all_false (by
          intro c hc
          obtain ⟨hcm, hcmov⟩ := List.mem_filter.mp hc
          rw [matPreds_isD, movable_isDeallocFor_eq hcmov x]
          exact hdno c hcm)
      have hDcore1 : (coreOf comp).countP (matPreds comp x).isD = 1 := by omega
      obtain ⟨jd, dd, hjd, hddD, hjduniq, hfIdx0⟩ := countP_one_posIdx hDcore1
      have hfIdx : (coreOf comp).findIdx? (fun c => c.isDeallocFor x) = some jd := hfIdx0
      have hddA : (matPreds comp x).isA dd = false := by
        cases hv : (matPreds comp x).isA dd
        · rfl
        · exact absurd ⟨hv, hddD⟩ (hnb dd (hsubl.subset (mem_of_getElem2 hjd)))
      have hjd_lt : jd < (coreOf comp).length := (List.getElem?_eq_some.mp hjd).1
      have hdd_nacc : comp.accessesMatrix dd x = false :=
        accessesMatrix_false_of_isDeallocFor hddD x
      have htchdd : (matPreds comp x).tch dd = true := by
        rw [matPreds_tch_eq]
        have h2 : dd.isDeallocFor x = true := hddD
        simp [h2]
      have hacc_lt_jd : ∀ j c, (coreOf comp)[j]? = some c →
          comp.accessesMatrix c x = true → j < jd := by
        intro j c hj hacc
        by_cases hje : j = jd
        · subst hje
          have hcd : c = dd := Option.some_inj.mp (hj.symm.trans hjd)
          subst hcd
          rw [hdd_nacc] at hacc
          cases hacc
        · rcases Nat.lt_or_ge j jd with hlt | hge
          · exact hlt
          · exfalso
            have hjdlt : jd < j := by omega
            have hrel := pairwise_rel_of_getElem hpwc hjd hj hjdlt
            have h2 := hrel.2 hddD
            rw [matPreds_tch_eq, hacc] at h2
            simp at h2
      have hja_ne_jd : ja ≠ jd := by
        intro hje
        subst hje
        have hcd : ac = dd := Option.some_inj.mp (hja.symm.trans hjd)
        exact absurd ⟨hacA, by rw [hcd]; exact hddD⟩
          (hnb ac (hsubl.subset (mem_of_getElem2 hja)))
      have hja_jd : ja < jd := by
        rcases Nat.lt_or_ge ja jd with hlt | hge
        · exact hlt
        · exfalso
          have hjdlt : jd < ja := by omega
          have hrel := pairwise_rel_of_getElem hpwc hjd hja hjdlt
          have h2 := hrel.1 hacA
          rw [htchdd] at h2
          cases h2
      cases hfa : (coreAccessIdxs comp (coreOf comp) x).head? with
      | some j1 =>
        -- case 7: fused alloc, fused dealloc, accesses in between
        have hkAx : ((coreAccessIdxs comp (coreOf comp) x).head?).or
            (List.findIdx? (fun c => c.isDeallocFor x) (coreOf comp)) = some j1 := by
          rw [hfa]
          exact option_some_or j1 _
        cases hla : (coreAccessIdxs comp (coreOf comp) x).getLast? with
        | none =>
          rw [List.getLast?_eq_none_iff] at hla
          rw [hla] at hfa
          cases hfa
        | some j2 =>
          have hj1idx : j1 ∈ coreAccessIdxs comp (coreOf comp) x :=
            List.mem_of_mem_head? hfa
          have hj2idx : j2 ∈ coreAccessIdxs comp (coreOf comp) x :=
            List.mem_of_mem_getLast? hla
          have hj1lt := coreAccessIdxs_lt hj1idx
          have hj2lt := coreAccessIdxs_lt hj2idx
          have hj12 : j1 ≤ j2 := sorted_head_le hidxs_sorted hfa j2 hj2idx
          have hja_j1 : ja < j1 := by
            obtain ⟨c1, hj1get, hacc1⟩ := mem_coreAccessIdxs.mp hj1idx
            exact hja_lt_acc j1 c1 hj1get hacc1
          have hj2jd : j2 < jd := by
            obtain ⟨c2, hj2get, hacc2⟩ := mem_coreAccessIdxs.mp hj2idx
            exact hacc_lt_jd j2 c2 hj2get hacc2
          have hA1 : ∀ j, j < (coreOf comp).length →
              (allocsAt comp.matrices.length (allocCmdOf comp) (fun m =>
                ((coreAccessIdxs comp (coreOf comp) m).head?).or
                  (List.findIdx? (fun c => c.isDeallocFor m) (coreOf comp))) j).filter
                (matPreds comp x).tch = if 3 * ja + 1 = 3 * j then [ac] else [] := by
            intro j hj
            rw [filter_tch_allocsAt comp x j hx hAofPlain, haO]
            rw [if_neg (show ¬(3 * ja + 1 = 3 * j) by omega)]
            simp [Option.toList]
          have hD1 : ∀ j, j < (coreOf comp).length →
              (deallocsAt comp.matrices.length (hasPlainDealloc comp) (fun m =>
                (coreAccessIdxs comp (coreOf comp) m).getLast?) j).filter
                (matPreds comp x).tch = if 3 * jd + 1 = 3 * j + 2 then [dd] else [] := by
            intro j hj
            rw [filter_tch_deallocsAt comp x j hx]
            rw [if_neg (by simp [hDv]), if_neg (by omega)]
          have haPc : ∀ j, j < (coreOf comp).length → 3 * ja + 1 = 3 * j + 1 →
              ∃ c, (coreOf comp)[j]? = some c ∧ (matPreds comp x).tch c = true := by
            intro j hj hcon
            have hje : j = ja := by omega
            subst hje
            exact ⟨ac, hja, htchac⟩
          have hdPc : ∀ j, j < (coreOf comp).length → 3 * jd + 1 = 3 * j + 1 →
              ∃ c, (coreOf comp)[j]? = some c ∧ (matPreds comp x).tch c = true := by
            intro j hj hcon
            have hje : j = jd := by omega
            subst hje
            exact ⟨dd, hjd, htchdd⟩
          have hcore : ∀ j c, (coreOf comp)[j]? = some c →
              (matPreds comp x).tch c = true →
              ((matPreds comp x).isA c = true ↔ 3 * j + 1 = 3 * ja + 1) ∧
              ((matPreds comp x).isD c = true ↔ 3 * j + 1 = 3 * jd + 1) ∧
              3 * ja + 1 ≤ 3 * j + 1 ∧ 3 * j + 1 ≤ 3 * jd + 1 := by
            intro j c hj htc
            by_cases hcAv : (matPreds comp x).isA c = true
            · have hjja : j = ja := hjauniq j c hj hcAv
              subst hjja
              have hcd : c = ac := Option.some_inj.mp (hj.symm.trans hja)
              subst hcd
              exact ⟨iff_of_true hcAv rfl, iff_of_false (by simp [hacD]) (by omega),
                by omega, by omega⟩
            · have hcA : (matPreds comp x).isA c = false := by
                revert hcAv
                cases (matPreds comp x).isA c <;> simp
              by_cases hcDv : (matPreds comp x).isD c = true
              · have hjjd : j = jd := hjduniq j c hj hcDv
                subst hjjd
                exact ⟨iff_of_false (by simp [hcA]) (by omega),
                  iff_of_true hcDv rfl, by omega, by omega⟩
              · have hcD : (matPreds comp x).isD c = false := by
                  revert hcDv
                  cases (matPreds comp x).isD c <;> simp
                have hacc : comp.accessesMatrix c x = true := by
                  rw [matPreds_tch_eq] at htc
                  rw [matPreds_isA] at hcA
                  rw [matPreds_isD] at hcD
                  rw [hcA, hcD] at htc
                  simpa using htc
                have hjidx : j ∈ coreAccessIdxs comp (coreOf comp) x :=
                  mem_coreAccessIdxs.mpr ⟨c, hj, hacc⟩
                have h1 : j1 ≤ j := sorted_head_le hidxs_sorted hfa j hjidx
                have h2 : j ≤ j2 := sorted_le_getLast _ j2 hidxs_sorted hla j hjidx
                exact ⟨iff_of_false (by simp [hcA]) (by omega),
                  iff_of_false (by simp [hcD]) (by omega), by omega, by omega⟩
          rw [foldl_body_master (matPreds comp x) _ _ (coreOf comp) (3 * ja + 1)
            (3 * jd + 1) ac dd (by omega) (by omega) (by omega) hacA hddD hddA
            hA1 hD1 haPc hdPc hcore]
          rw [lifePhase_eq_two (by omega) (by omega)]
          rw [lifeFold_filter, filter_tch_sizingTail comp x hx hAofPlain]
          rw [if_neg (by
            intro hcon
            have h2 : some j1 = none := hkAx.symm.trans hcon
            cases h2)]
          rw [if_neg (by
            simp only [hfa]
            simp)]
          rfl
      | none =>
        -- case 8: fused alloc, fused dealloc, no accesses
        have hidxsnil : coreAccessIdxs comp (coreOf comp) x = [] :=
          List.head?_eq_none_iff.mp hfa
        have hkAx : ((coreAccessIdxs comp (coreOf comp) x).head?).or
            (List.findIdx? (fun c => c.isDeallocFor x) (coreOf comp)) = some jd := by
          rw [hfa, Option.none_or]
          exact hfIdx
        have hA1 : ∀ j, j < (coreOf comp).length →
            (allocsAt comp.matrices.length (allocCmdOf comp) (fun m =>
              ((coreAccessIdxs comp (coreOf comp) m).head?).or
                (List.findIdx? (fun c => c.isDeallocFor m) (coreOf comp))) j).filter
              (matPreds comp x).tch = if 3 * ja + 1 = 3 * j then [ac] else [] := by
          intro j hj
          rw [filter_tch_allocsAt comp x j hx hAofPlain, haO]
          rw [if_neg (show ¬(3 * ja + 1 = 3 * j) by omega)]
          simp [Option.toList]
        have hD1 : ∀ j, j < (coreOf comp).length →
            (deallocsAt comp.matrices.length (hasPlainDealloc comp) (fun m =>
              (coreAccessIdxs comp (coreOf comp) m).getLast?) j).filter
              (matPreds comp x).tch = if 3 * jd + 1 = 3 * j + 2 then [dd] else [] := by
          intro j hj
          rw [filter_tch_deallocsAt comp x j hx]
          rw [if_neg (by simp [hDv]), if_neg (by omega)]
        have haPc : ∀ j, j < (coreOf comp).length → 3 * ja + 1 = 3 * j + 1 →
            ∃ c, (coreOf comp)[j]? = some c ∧ (matPreds comp x).tch c = true := by
          intro j hj hcon
          have hje : j = ja := by omega
          subst hje
          exact ⟨ac, hja, htchac⟩
        have hdPc : ∀ j, j < (coreOf comp).length → 3 * jd + 1 = 3 * j + 1 →
            ∃ c, (coreOf comp)[j]? = some c ∧ (matPreds comp x).tch c = true := by
          intro j hj hcon
          have hje : j = jd := by omega
          subst hje
          exact ⟨dd, hjd, htchdd⟩
        have hcore : ∀ j c, (coreOf comp)[j]? = some c →
            (matPreds comp x).tch c = true →
            ((matPreds comp x).isA c = true ↔ 3 * j + 1 = 3 * ja + 1) ∧
            ((matPreds comp x).isD c = true ↔ 3 * j + 1 = 3 * jd + 1) ∧
            3 * ja + 1 ≤ 3 * j + 1 ∧ 3 * j + 1 ≤ 3 * jd + 1 := by
          intro j c hj htc
          by_cases hcAv : (matPreds comp x).isA c = true
          · have hjja : j = ja := hjauniq j c hj hcAv
            subst hjja
            exact ⟨iff_of_true hcAv rfl, iff_of_false (by
                have hcd : c = ac := Option.some_inj.mp (hj.symm.trans hja)
                simp [hcd, hacD]) (by omega),
              by omega, by omega⟩
          · have hcA : (matPreds comp x).isA c = false := by
              revert hcAv
              cases (matPreds comp x).isA c <;> simp
            by_cases hcDv : (matPreds comp x).isD c = true
            · have hjjd : j = jd := hjduniq j c hj hcDv
              subst hjjd
              exact ⟨iff_of_false (by simp [hcA]) (by omega),
                iff_of_true hcDv rfl, by omega, by omega⟩
            · exfalso
              have hcD : (matPreds comp x).isD c = false := by
                revert hcDv
                cases (matPreds comp x).isD c <;> simp
              have hacc : comp.accessesMatrix c x = true := by
                rw [matPreds_tch_eq] at htc
                rw [matPreds_isA] at hcA
                rw [matPreds_isD] at hcD
                rw [hcA, hcD] at htc
                simpa using htc
              have hjidx : j ∈ coreAccessIdxs comp (coreOf comp) x :=
                mem_coreAccessIdxs.mpr ⟨c, hj, hacc⟩
              rw [hidxsnil] at hjidx
              cases hjidx
        rw [foldl_body_master (matPreds comp x) _ _ (coreOf comp) (3 * ja + 1)
          (3 * jd + 1) ac dd (by omega) (by omega) (by omega) hacA hddD hddA
          hA1 hD1 haPc hdPc hcore]
        rw [lifePhase_eq_two (by omega) (by omega)]
        rw [lifeFold_filter, filter_tch_sizingTail comp x hx hAofPlain]
        rw [if_neg (by
          intro hcon
          have h2 : some jd = none := hkAx.symm.trans hcon
          cases h2)]
        rw [if_neg (by simp [hDv])]
        rfl

theorem isDeallocFor_false_of_isPlainAllocFor {c : Command} {m : Nat}
    (h : c.isPlainAllocFor m = true) (k : Nat) : c.isDeallocFor k = false := by
  cases c <;> first
    | (exact Bool.noConfusion h)
    | rfl

/-- Membership in the rebuilt command list of the sizing-motion pass. -/
theorem msc_mem (nnet : Nnet) (comp : NnetComputation) {c : Command}
    (hc : c ∈ (MoveSizingCommands nnet comp).commands) :
    c ∈ comp.commands ∨ ∃ m', m' < comp.matrices.length ∧ c = Command.deallocMatrix m' := by
  rw [MoveSizingCommands_commands nnet comp] at hc
  unfold rebuildSizing at hc
  rcases List.mem_append.mp hc with hc | hc
  · rcases (mem_rebuildBody _ 0).mp hc with ⟨i, _, _, hAD⟩ | hcore
    · rcases hAD with hA | hD
      · obtain ⟨m', _, hsome, _⟩ := mem_allocsAt hA
        exact Or.inl (List.mem_of_find?_eq_some hsome)
      · obtain ⟨m', hm', rfl, _, _⟩ := mem_deallocsAt hD
        exact Or.inr ⟨m', hm', rfl⟩
    · exact Or.inl ((List.filter_sublist comp.commands).subset hcore)
  · obtain ⟨m', hm', hor⟩ := mem_sizingTail hc
    rcases hor with ⟨_, hsome⟩ | ⟨rfl, _, _⟩
    · exact Or.inl (List.mem_of_find?_eq_some hsome)
    · exact Or.inr ⟨m', hm', rfl⟩

/-- No command of the rebuilt list both allocates and deallocates matrix x. -/
theorem msc_noboth (nnet : Nnet) (comp : NnetComputation) (x : Nat)
    (hnb : ∀ c ∈ comp.commands,
      ¬((matPreds comp x).isA c = true ∧ (matPreds comp x).isD c = true)) :
    ∀ c ∈ (MoveSizingCommands nnet comp).commands,
      ¬((matPreds comp x).isA c = true ∧ (matPreds comp x).isD c = true) := by
  intro c hc
  rcases msc_mem nnet comp hc with hmem | ⟨m', _, rfl⟩
  · exact hnb c hmem
  · intro hcon
    exact Bool.noConfusion hcon.1

/-- Sizing-command motion preserves the structural IR invariants. -/
theorem msc_wellFormed (nnet : Nnet) (comp : NnetComputation) (h : WellFormed comp) :
    WellFormed (MoveSizingCommands nnet comp) := by
  obtain ⟨h1, h2, h3⟩ := h
  refine ⟨h1, ?_, ?_⟩
  · intro c hc
    rcases msc_mem nnet comp hc with hmem | ⟨m', hm', rfl⟩
    · exact h2 c hmem
    · exact hm'
  · intro x hx
    obtain ⟨hca, hcd, hnb, hpw⟩ := h3 x hx
    have hfold := msc_fold nnet comp x hx hca hcd hnb hpw
    have hb := msc_noboth nnet comp x hnb
    have hout : lifeInv (matPreds comp x) (MoveSizingCommands nnet comp).commands :=
      lifeInv_iff_lifeOk.mpr ⟨hfold, hb⟩
    exact lifeInv_congr rfl rfl (matPreds_tch_congr rfl x) hout

/-! ### Preservation of the invariants by model-update consolidation -/

theorem countP_filterMap_pres {p : Command → Bool} {f : (Nat × Command) → Option Command} :
    ∀ l : List (Nat × Command),
      (∀ q ∈ l, ∀ c2, f q = some c2 → p c2 = p q.2) →
      (∀ q ∈ l, f q = none → p q.2 = false) →
      (l.filterMap f).countP p = (l.map Prod.snd).countP p := by
  intro l
  induction l with
  | nil =>
    intro _ _
    rfl
  | cons q t ih =>
    intro hs hn
    rw [List.map_cons, List.countP_cons, List.filterMap_cons]
    cases hf : f q with
    | none =>
      rw [hn q (List.mem_cons_self q t) hf]
      simp only [Bool.false_eq_true, if_false, Nat.add_zero]
      exact ih (fun e he c2 hc2 => hs e (List.mem_cons_of_mem q he) c2 hc2)
        (fun e he h2 => hn e (List.mem_cons_of_mem q he) h2)
    | some c2 =>
      rw [List.countP_cons, hs q (List.mem_cons_self q t) c2 hf]
      rw [ih (fun e he c3 hc3 => hs e (List.mem_cons_of_mem q he) c3 hc3)
        (fun e he h2 => hn e (List.mem_cons_of_mem q he) h2)]

theorem mem_updateIdxsFor {comp : NnetComputation} {p j : Nat} :
    j ∈ updateIdxsFor comp p ↔
      ∃ s, comp.commands[j]? = some (Command.modelUpdate p s) := by
  unfold updateIdxsFor
  simp only [List.mem_map, List.mem_filter]
  constructor
  · rintro ⟨⟨j2, c⟩, ⟨hpmem, hmatch⟩, rfl⟩
    have h2 := (mem_enumFrom_iff comp.commands 0 j2 c).mp hpmem
    cases c <;> simp at hmatch
    next pp s =>
      subst hmatch
      exact ⟨s, by simpa using h2.2⟩
  · rintro ⟨s, hj⟩
    refine ⟨(j, Command.modelUpdate p s), ⟨?_, by simp⟩, rfl⟩
    show (j, Command.modelUpdate p s) ∈ comp.commands.enumFrom 0
    rw [mem_enumFrom_iff]
    exact ⟨Nat.zero_le j, by simpa using hj⟩

theorem updateIdxsFor_sorted (comp : NnetComputation) (p : Nat) :
    List.Pairwise (· < ·) (updateIdxsFor comp p) := by
  unfold updateIdxsFor
  rw [List.pairwise_map]
  exact List.Pairwise.sublist (List.filter_sublist _) (pairwise_enumFrom comp.commands 0)

theorem updateOperandsFor_member {comp : NnetComputation} {p s : Nat}
    (h : s ∈ updateOperandsFor comp p) :
    ∃ i : Nat, comp.commands[i]? = some (Command.modelUpdate p s) := by
  unfold updateOperandsFor at h
  rw [List.mem_filterMap] at h
  obtain ⟨c, hcm, hc⟩ := h
  cases c <;> simp at hc
  next pp s0 =>
    obtain ⟨rfl, rfl⟩ := hc
    obtain ⟨i, hi, hv⟩ := List.getElem_of_mem hcm
    exact ⟨i, by rw [List.getElem?_eq_getElem hi, hv]⟩

theorem tch_modelUpdate (comp : NnetComputation) (x pp s : Nat) :
    (matPreds comp x).tch (Command.modelUpdate pp s) = comp.smTouches s x := by
  rw [matPreds_tch_eq]
  simp [Command.isAllocFor, Command.isDeallocFor, NnetComputation.accessesMatrix,
    NnetComputation.readsMatrix, NnetComputation.writesMatrix, Command.readSubmatrices,
    Command.writeSubmatrices]

theorem tch_modelUpdateConsolidated (comp : NnetComputation) (x pp : Nat)
    (ops : List Nat) :
    (matPreds comp x).tch (Command.modelUpdateConsolidated pp ops) =
      ops.any (fun s => comp.smTouches s x) := by
  rw [matPreds_tch_eq]
  simp [Command.isAllocFor, Command.isDeallocFor, NnetComputation.accessesMatrix,
    NnetComputation.readsMatrix, NnetComputation.writesMatrix, Command.readSubmatrices,
    Command.writeSubmatrices]

theorem consolidatable_dealloc_late {comp : NnetComputation} {p s x last : Nat}
    (hcons : consolidatableParam comp p = true)
    (hlast : (updateIdxsFor comp p).getLast? = some last)
    (hs : s ∈ updateOperandsFor comp p)
    (htch : comp.smTouches s x = true) :
    ∀ (i : Nat) (c : Command), comp.commands[i]? = some c → c.isDeallocFor x = true →
      last < i := by
  intro i c hi hd
  unfold consolidatableParam at hcons
  rw [hlast] at hcons
  have hall := (Bool.and_eq_true_iff.mp hcons).2
  rw [List.all_eq_true] at hall
  have hsall := hall s hs
  unfold NnetComputation.smTouches at htch
  cases hsm : comp.submatrices[s]? with
  | none =>
    rw [hsm] at htch
    cases htch
  | some sm =>
    rw [hsm] at htch
    simp only [hsm] at hsall
    have hmid : sm.matrixId = x := by simpa using htch
    rw [List.all_eq_true] at hsall
    have hq := hsall (i, c) (by
      show (i, c) ∈ comp.commands.enumFrom 0
      rw [mem_enumFrom_iff]
      exact ⟨Nat.zero_le i, by simpa using hi⟩)
    rw [hmid] at hq
    simp only [hd] at hq
    simpa using hq

/-- One rewriting step of the consolidation walk. -/
def consolidateStep (comp : NnetComputation) (q : Nat × Command) : Option Command :=
  match q.2 with
  | Command.modelUpdate p s =>
    if consolidatableParam comp p then
      if (updateIdxsFor comp p).getLast? = some q.1 then
        some (Command.modelUpdateConsolidated p (updateOperandsFor comp p))
      else none
    else some (Command.modelUpdate p s)
  | c => some c

theorem consolidateRun_commands (comp : NnetComputation) :
    (consolidateRun comp).commands =
      comp.commands.enum.filterMap (consolidateStep comp) := rfl

theorem consolidateStep_char {comp : NnetComputation} {i : Nat} {c c2 : Command}
    (h : consolidateStep comp (i, c) = some c2) :
    c2 = c ∨ ∃ pp s, c = Command.modelUpdate pp s ∧ consolidatableParam comp pp = true ∧
      (updateIdxsFor comp pp).getLast? = some i ∧
      c2 = Command.modelUpdateConsolidated pp (updateOperandsFor comp pp) := by
  cases c with
  | modelUpdate pp s =>
    simp only [consolidateStep] at h
    by_cases hcons : consolidatableParam comp pp = true
    · rw [if_pos hcons] at h
      by_cases hl : (updateIdxsFor comp pp).getLast? = some i
      · rw [if_pos hl] at h
        exact Or.inr ⟨pp, s, rfl, hcons, hl, (Option.some_inj.mp h).symm⟩
      · rw [if_neg hl] at h
        cases h
    · rw [if_neg hcons] at h
      exact Or.inl (Option.some_inj.mp h).symm
  | allocMatrixZeroed m => exact Or.inl (Option.some_inj.mp h).symm
  | allocMatrixUndefined m => exact Or.inl (Option.some_inj.mp h).symm
  | allocFromOther m fromM => exact Or.inl (Option.some_inj.mp h).symm
  | allocFromOtherZeroed m fromM => exact Or.inl (Option.some_inj.mp h).symm
  | deallocMatrix m => exact Or.inl (Option.some_inj.mp h).symm
  | propagate dst src => exact Or.inl (Option.some_inj.mp h).symm
  | backprop dst src => exact Or.inl (Option.some_inj.mp h).symm
  | matrixCopy dst src => exact Or.inl (Option.some_inj.mp h).symm
  | matrixAdd dst src => exact Or.inl (Option.some_inj.mp h).symm
  | modelUpdateConsolidated pp ops => exact Or.inl (Option.some_inj.mp h).symm
  | noOperation => exact Or.inl (Option.some_inj.mp h).symm

theorem consolidateStep_none {comp : NnetComputation} {i : Nat} {c : Command}
    (h : consolidateStep comp (i, c) = none) :
    ∃ pp s, c = Command.modelUpdate pp s := by
  cases c with
  | modelUpdate pp s => exact ⟨pp, s, rfl⟩
  | allocMatrixZeroed m => cases h
  | allocMatrixUndefined m => cases h
  | allocFromOther m fromM => cases h
  | allocFromOtherZeroed m fromM => cases h
  | deallocMatrix m => cases h
  | propagate dst src => cases h
  | backprop dst src => cases h
  | matrixCopy dst src => cases h
  | matrixAdd dst src => cases h
  | modelUpdateConsolidated pp ops => cases h
  | noOperation => cases h

theorem consolidateRun_lifeInv (comp : NnetComputation) (x : Nat)
    (hinv : lifeInv (matPreds comp x) comp.commands) :
    lifeInv (matPreds comp x) (consolidateRun comp).commands := by
  obtain ⟨hca, hcd, hnb, hpw⟩ := hinv
  rw [consolidateRun_commands]
  have hmemenum : ∀ q ∈ comp.commands.enum, comp.commands[q.1]? = some q.2 := by
    intro q hq
    obtain ⟨q1, q2⟩ := q
    have h2 := (mem_enumFrom_iff comp.commands 0 q1 q2).mp hq
    simpa using h2.2
  have hsndmem : ∀ q ∈ comp.commands.enum, q.2 ∈ comp.commands :=
    fun q hq => mem_of_getElem2 (hmemenum q hq)
  have hisA : ∀ q ∈ comp.commands.enum, ∀ c2, consolidateStep comp q = some c2 →
      (matPreds comp x).isA c2 = (matPreds comp x).isA q.2 := by
    intro q hq c2 hc2
    obtain ⟨q1, q2⟩ := q
    rcases consolidateStep_char hc2 with rfl | ⟨pp, s, rfl, _, _, rfl⟩
    · rfl
    · rfl
  have hisD : ∀ q ∈ comp.commands.enum, ∀ c2, consolidateStep comp q = some c2 →
      (matPreds comp x).isD c2 = (matPreds comp x).isD q.2 := by
    intro q hq c2 hc2
    obtain ⟨q1, q2⟩ := q
    rcases consolidateStep_char hc2 with rfl | ⟨pp, s, rfl, _, _, rfl⟩
    · rfl
    · rfl
  have hnoneA : ∀ q ∈ comp.commands.enum, consolidateStep comp q = none →
      (matPreds comp x).isA q.2 = false := by
    intro q hq hnone
    obtain ⟨q1, q2⟩ := q
    obtain ⟨pp, s, rfl⟩ := consolidateStep_none hnone
    rfl
  have hnoneD : ∀ q ∈ comp.commands.enum, consolidateStep comp q = none →
      (matPreds comp x).isD q.2 = false := by
    intro q hq hnone
    obtain ⟨q1, q2⟩ := q
    obtain ⟨pp, s, rfl⟩ := consolidateStep_none hnone
    rfl
  refine ⟨?_, ?_, ?_, ?_⟩
  · have h1 := countP_filterMap_pres comp.commands.enum hisA hnoneA
    rw [List.enum_map_snd] at h1
    rw [h1]
    exact hca
  · have h1 := countP_filterMap_pres comp.commands.enum hisD hnoneD
    rw [List.enum_map_snd] at h1
    rw [h1]
    exact hcd
  · intro c2 hc2
    rw [List.mem_filterMap] at hc2
    obtain ⟨q, hq, hstep⟩ := hc2
    obtain ⟨q1, q2⟩ := q
    rcases consolidateStep_char hstep with rfl | ⟨pp, s, rfl, _, _, rfl⟩
    · exact hnb c2 (hsndmem (q1, c2) hq)
    · intro hcon
      exact Bool.noConfusion hcon.1
  · have hpwe : List.Pairwise (fun q r : Nat × Command =>
        q.1 < r.1 ∧ lifeRel (matPreds comp x) q.2 r.2) comp.commands.enum := by
      refine List.Pairwise.and (pairwise_enumFrom comp.commands 0) ?_
      have h3 := hpw
      rw [← List.enum_map_snd comp.commands, List.pairwise_map] at h3
      exact h3
    have hpwe2 : List.Pairwise (fun q r : Nat × Command =>
        comp.commands[q.1]? = some q.2 ∧ comp.commands[r.1]? = some r.2 ∧
        q.1 < r.1 ∧ lifeRel (matPreds comp x) q.2 r.2) comp.commands.enum :=
      List.Pairwise.imp_of_mem
        (fun hq hr h12 => ⟨hmemenum _ hq, hmemenum _ hr, h12.1, h12.2⟩) hpwe
    refine List.Pairwise.filterMap (consolidateStep comp) ?_ hpwe2
    intro q r hR c2 hc2 d2 hd2
    obtain ⟨hqget, hrget, hqr, hrel⟩ := hR
    have hc2x : consolidateStep comp q = some c2 := hc2
    have hd2x : consolidateStep comp r = some d2 := hd2
    obtain ⟨q1, q2⟩ := q
    obtain ⟨r1, r2⟩ := r
    rcases consolidateStep_char hc2x with rfl | ⟨pp, s, rfl, hconsq, hlq, rfl⟩
    · rcases consolidateStep_char hd2x with rfl | ⟨pp2, s2, rfl, hconsr, hlr, rfl⟩
      · exact hrel
      · constructor
        · intro hAd
          exact Bool.noConfusion hAd
        · intro hDq
          cases htd : (matPreds comp x).tch
              (Command.modelUpdateConsolidated pp2 (updateOperandsFor comp pp2)) with
          | false => rfl
          | true =>
            exfalso
            rw [tch_modelUpdateConsolidated] at htd
            obtain ⟨s3, hs3, hsm3⟩ := List.any_eq_true.mp htd
            have hlate := consolidatable_dealloc_late hconsr hlr hs3 hsm3 q1 c2 hqget hDq
            omega
    · rcases consolidateStep_char hd2x with rfl | ⟨pp2, s2, rfl, hconsr, hlr, rfl⟩
      · constructor
        · intro hAd
          cases htd : (matPreds comp x).tch
              (Command.modelUpdateConsolidated pp (updateOperandsFor comp pp)) with
          | false => rfl
          | true =>
            exfalso
            rw [tch_modelUpdateConsolidated] at htd
            obtain ⟨s3, hs3, hsm3⟩ := List.any_eq_true.mp htd
            obtain ⟨im, him⟩ := updateOperandsFor_member hs3
            have himidx : im ∈ updateIdxsFor comp pp := mem_updateIdxsFor.mpr ⟨s3, him⟩
            have himle : im ≤ q1 :=
              sorted_le_getLast _ q1 (updateIdxsFor_sorted comp pp) hlq im himidx
            have hrel2 := pairwise_rel_of_getElem hpw him hrget (by omega)
            have h4 := hrel2.1 hAd
            rw [tch_modelUpdate, hsm3] at h4
            cases h4
        · intro hDq
          exact Bool.noConfusion hDq
      · constructor
        · intro hAd
          exact Bool.noConfusion hAd
        · intro hDq
          exact Bool.noConfusion hDq

theorem consolidateRun_mem {comp : NnetComputation} {c2 : Command}
    (h : c2 ∈ (consolidateRun comp).commands) :
    c2 ∈ comp.commands ∨
      ∃ pp, c2 = Command.modelUpdateConsolidated pp (updateOperandsFor comp pp) := by
  rw [consolidateRun_commands, List.mem_filterMap] at h
  obtain ⟨q, hq, hstep⟩ := h
  obtain ⟨q1, q2⟩ := q
  rcases consolidateStep_char hstep with rfl | ⟨pp, s, rfl, _, _, rfl⟩
  · left
    exact mem_of_getElem2 (by
      have h2 := (mem_enumFrom_iff comp.commands 0 q1 c2).mp hq
      simpa using h2.2)
  · exact Or.inr ⟨pp, rfl⟩

/-- Model-update consolidation preserves the structural IR invariants
whenever it succeeds. -/
theorem ConsolidateModelUpdate_wellFormed (nnet : Nnet) (request : ComputationRequest)
    {comp comp2 : NnetComputation} (h : WellFormed comp)
    (hok : ConsolidateModelUpdate nnet request comp = Except.ok comp2) :
    WellFormed comp2 := by
  unfold ConsolidateModelUpdate at hok
  split at hok
  · cases hok
  · cases hok
    obtain ⟨h1, h2, h3⟩ := h
    refine ⟨h1, ?_, ?_⟩
    · intro c hc
      have hc2 : c ∈ (consolidateRun comp).commands := hc
      rcases consolidateRun_mem hc2 with hmem | ⟨pp, rfl⟩
      · exact h2 c hmem
      · intro o ho
        obtain ⟨i, hi⟩ := updateOperandsFor_member ho
        exact h2 _ (mem_of_getElem2 hi)
    · intro x hx
      have hout := consolidateRun_lifeInv comp x (h3 x hx)
      exact lifeInv_congr rfl rfl (matPreds_tch_congr rfl x) hout


/-! ### Preservation of the invariants by variable merging -/

theorem readSubmatrices_rename (f : Nat → Nat) (c : Command) :
    (renameMatrixInCmd f c).readSubmatrices = c.readSubmatrices := by
  cases c <;> rfl

theorem writeSubmatrices_rename (f : Nat → Nat) (c : Command) :
    (renameMatrixInCmd f c).writeSubmatrices = c.writeSubmatrices := by
  cases c <;> rfl

theorem rename1_eq_iff_ne {surv other m y : Nat} (hy1 : y ≠ surv) (hy2 : y ≠ other) :
    ((if m = other then surv else m) = y) ↔ (m = y) := by
  by_cases hm : m = other
  · rw [if_pos hm, hm]
    exact ⟨fun h => absurd h.symm hy1, fun h => absurd h.symm hy2⟩
  · rw [if_neg hm]

theorem rename1_decide_surv {surv other m : Nat} :
    decide ((if m = other then surv else m) = surv) =
      (decide (m = surv) || decide (m = other)) := by
  by_cases hm : m = other
  · rw [if_pos hm]
    simp [hm]
  · rw [if_neg hm]
    simp [hm]

theorem isAllocFor_rename_ne {surv other y : Nat} (hy1 : y ≠ surv) (hy2 : y ≠ other)
    (c : Command) :
    (renameMatrixInCmd (fun x => if x = other then surv else x) c).isAllocFor y =
      c.isAllocFor y := by
  cases c <;> first
    | rfl
    | (exact decide_eq_decide.mpr (rename1_eq_iff_ne hy1 hy2))

theorem isDeallocFor_rename_ne {surv other y : Nat} (hy1 : y ≠ surv) (hy2 : y ≠ other)
    (c : Command) :
    (renameMatrixInCmd (fun x => if x = other then surv else x) c).isDeallocFor y =
      c.isDeallocFor y := by
  cases c <;> first
    | rfl
    | (exact decide_eq_decide.mpr (rename1_eq_iff_ne hy1 hy2))

theorem isAllocFor_rename_surv {surv other : Nat} (c : Command) :
    (renameMatrixInCmd (fun x => if x = other then surv else x) c).isAllocFor surv =
      (c.isAllocFor surv || c.isAllocFor other) := by
  cases c <;> first
    | rfl
    | (exact rename1_decide_surv)

theorem isDeallocFor_rename_surv {surv other : Nat} (c : Command) :
    (renameMatrixInCmd (fun x => if x = other then surv else x) c).isDeallocFor surv =
      (c.isDeallocFor surv || c.isDeallocFor other) := by
  cases c <;> first
    | rfl
    | (exact rename1_decide_surv)

theorem any_ext {α : Type} {p q : α → Bool} :
    ∀ l : List α, (∀ c ∈ l, p c = q c) → l.any p = l.any q := by
  intro l
  induction l with
  | nil =>
    intro _
    rfl
  | cons c t ih =>
    intro h
    rw [List.any_cons, List.any_cons, h c (List.mem_cons_self c t),
      ih (fun e he => h e (List.mem_cons_of_mem c he))]

theorem any_or_distrib {α : Type} (l : List α) (f g : α → Bool) :
    l.any (fun s => f s || g s) = (l.any f || l.any g) := by
  induction l with
  | nil => rfl
  | cons c t ih =>
    rw [List.any_cons, List.any_cons, List.any_cons, ih]
    cases f c <;> cases g c <;> cases t.any f <;> cases t.any g <;> rfl

theorem smTouches_rename_ne {surv other y : Nat} (hy1 : y ≠ surv) (hy2 : y ≠ other)
    (comp : NnetComputation) (s : Nat) :
    (renameMatrixInComp (fun x => if x = other then surv else x) comp).smTouches s y =
      comp.smTouches s y := by
  unfold NnetComputation.smTouches renameMatrixInComp
  simp only [List.getElem?_map]
  cases comp.submatrices[s]? with
  | none => rfl
  | some sm => exact decide_eq_decide.mpr (rename1_eq_iff_ne hy1 hy2)

theorem smTouches_rename_surv {surv other : Nat} (comp : NnetComputation) (s : Nat) :
    (renameMatrixInComp (fun x => if x = other then surv else x) comp).smTouches s surv =
      (comp.smTouches s surv || comp.smTouches s other) := by
  unfold NnetComputation.smTouches renameMatrixInComp
  simp only [List.getElem?_map]
  cases comp.submatrices[s]? with
  | none => rfl
  | some sm => exact rename1_decide_surv

theorem accessesMatrix_rename_ne {surv other y : Nat} (hy1 : y ≠ surv) (hy2 : y ≠ other)
    (comp : NnetComputation) (c : Command) :
    (renameMatrixInComp (fun x => if x = other then surv else x) comp).accessesMatrix
        (renameMatrixInCmd (fun x => if x = other then surv else x) c) y =
      comp.accessesMatrix c y := by
  unfold NnetComputation.accessesMatrix NnetComputation.readsMatrix NnetComputation.writesMatrix
  rw [readSubmatrices_rename, writeSubmatrices_rename,
    any_ext _ (fun s _ => smTouches_rename_ne hy1 hy2 comp s),
    any_ext _ (fun s _ => smTouches_rename_ne hy1 hy2 comp s)]

theorem bool_or_shuffle4 (a b c d : Bool) : ((a || b) || (c || d)) = ((a || c) || (b || d)) := by
  cases a <;> cases b <;> cases c <;> cases d <;> rfl

theorem accessesMatrix_rename_surv {surv other : Nat} (comp : NnetComputation) (c : Command) :
    (renameMatrixInComp (fun x => if x = other then surv else x) comp).accessesMatrix
        (renameMatrixInCmd (fun x => if x = other then surv else x) c) surv =
      (comp.accessesMatrix c surv || comp.accessesMatrix c other) := by
  unfold NnetComputation.accessesMatrix NnetComputation.readsMatrix NnetComputation.writesMatrix
  rw [readSubmatrices_rename, writeSubmatrices_rename,
    any_ext _ (fun s _ => smTouches_rename_surv comp s),
    any_ext _ (fun s _ => smTouches_rename_surv comp s),
    any_or_distrib, any_or_distrib]
  exact bool_or_shuffle4 _ _ _ _

theorem touches_rename_ne {surv other y : Nat} (hy1 : y ≠ surv) (hy2 : y ≠ other)
    (comp : NnetComputation) (c : Command) :
    (renameMatrixInComp (fun x => if x = other then surv else x) comp).touches
        (renameMatrixInCmd (fun x => if x = other then surv else x) c) y =
      comp.touches c y := by
  unfold NnetComputation.touches
  rw [isAllocFor_rename_ne hy1 hy2, isDeallocFor_rename_ne hy1 hy2,
    accessesMatrix_rename_ne hy1 hy2]

theorem bool_or_shuffle6 (a b c d e f : Bool) :
    ((a || b) || ((c || d) || (e || f))) = ((a || (c || e)) || (b || (d || f))) := by
  cases a <;> cases b <;> cases c <;> cases d <;> cases e <;> cases f <;> rfl

theorem touches_rename_surv {surv other : Nat} (comp : NnetComputation) (c : Command) :
    (renameMatrixInComp (fun x => if x = other then surv else x) comp).touches
        (renameMatrixInCmd (fun x => if x = other then surv else x) c) surv =
      (comp.touches c surv || comp.touches c other) := by
  unfold NnetComputation.touches
  rw [isAllocFor_rename_surv, isDeallocFor_rename_surv, accessesMatrix_rename_surv]
  cases c.isAllocFor surv <;> cases c.isAllocFor other <;> cases c.isDeallocFor surv <;>
    cases c.isDeallocFor other <;> cases comp.accessesMatrix c surv <;>
    cases comp.accessesMatrix c other <;> rfl


theorem renameMatrixInCmd_comp (f g : Nat → Nat) (c : Command) :
    renameMatrixInCmd f (renameMatrixInCmd g c) = renameMatrixInCmd (fun m => f (g m)) c := by
  cases c <;> rfl

theorem operandsOk_rename {nsub nmat nmat2 : Nat} {f : Nat → Nat}
    (hf : ∀ m, m < nmat → f m < nmat2) :
    ∀ c : Command, c.operandsOk nsub nmat → (renameMatrixInCmd f c).operandsOk nsub nmat2 := by
  intro c h
  cases c with
  | allocMatrixZeroed m => exact hf m h
  | allocMatrixUndefined m => exact hf m h
  | allocFromOther m fromM => exact ⟨hf m h.1, hf fromM h.2⟩
  | allocFromOtherZeroed m fromM => exact ⟨hf m h.1, hf fromM h.2⟩
  | deallocMatrix m => exact hf m h
  | propagate a b => exact h
  | backprop a b => exact h
  | matrixCopy a b => exact h
  | matrixAdd a b => exact h
  | modelUpdate a b => exact h
  | modelUpdateConsolidated a b => exact h
  | noOperation => exact h

theorem merge_rename_bound {surv other n : Nat} (hs : surv < n) (ho : other < n)
    (hso : surv ≠ other) (m : Nat) (hm : m < n) :
    (if (if m = other then surv else m) = n - 1 then other
      else (if m = other then surv else m)) < n - 1 := by
  by_cases hmo : m = other
  · rw [if_pos hmo]
    by_cases hsl : surv = n - 1
    · rw [if_pos hsl]
      omega
    · rw [if_neg hsl]
      omega
  · rw [if_neg hmo]
    by_cases hml : m = n - 1
    · rw [if_pos hml]
      omega
    · rw [if_neg hml]
      omega

theorem rename1_decide_other {surv other m : Nat} (hso : surv ≠ other) :
    decide ((if m = other then surv else m) = other) = false := by
  by_cases hm : m = other
  · rw [if_pos hm]
    simp [hso]
  · rw [if_neg hm]
    simp [hm]

theorem isAllocFor_rename1_other {surv other : Nat} (hso : surv ≠ other) (c : Command) :
    (renameMatrixInCmd (fun x => if x = other then surv else x) c).isAllocFor other = false := by
  cases c <;> first
    | rfl
    | (exact rename1_decide_other hso)

theorem isDeallocFor_rename1_other {surv other : Nat} (hso : surv ≠ other) (c : Command) :
    (renameMatrixInCmd (fun x => if x = other then surv else x) c).isDeallocFor other = false := by
  cases c <;> first
    | rfl
    | (exact rename1_decide_other hso)

theorem submatrices_rename1_ne_other {surv other : Nat} (hso : surv ≠ other)
    (comp : NnetComputation) :
    ∀ sm ∈ (renameMatrixInComp (fun x => if x = other then surv else x) comp).submatrices,
      sm.matrixId ≠ other := by
  intro sm hsm
  have hm : sm ∈ comp.submatrices.map
      (fun sm => { sm with matrixId := if sm.matrixId = other then surv else sm.matrixId }) := hsm
  rw [List.mem_map] at hm
  obtain ⟨sm0, _, rfl⟩ := hm
  show (if sm0.matrixId = other then surv else sm0.matrixId) ≠ other
  by_cases hm0 : sm0.matrixId = other
  · rw [if_pos hm0]
    exact hso
  · rw [if_neg hm0]
    exact hm0

theorem rename2_eq_iff {lastId other m y : Nat} (hm : m ≠ other) (hy : y ≠ lastId) :
    ((if m = lastId then other else m) = y) ↔ (m = (if y = other then lastId else y)) := by
  by_cases h1 : m = lastId
  · rw [if_pos h1]
    by_cases h2 : y = other
    · rw [if_pos h2]
      exact ⟨fun h => by omega, fun h => by omega⟩
    · rw [if_neg h2]
      exact ⟨fun h => by omega, fun h => by omega⟩
  · rw [if_neg h1]
    by_cases h2 : y = other
    · rw [if_pos h2]
      exact ⟨fun h => by omega, fun h => by omega⟩
    · rw [if_neg h2]

theorem isAllocFor_rename2 {lastId other y : Nat} (hy : y ≠ lastId) {c : Command}
    (hno : c.isAllocFor other = false) :
    (renameMatrixInCmd (fun x => if x = lastId then other else x) c).isAllocFor y =
      c.isAllocFor (if y = other then lastId else y) := by
  cases c with
  | allocMatrixZeroed m =>
    exact decide_eq_decide.mpr (rename2_eq_iff (of_decide_eq_false hno) hy)
  | allocMatrixUndefined m =>
    exact decide_eq_decide.mpr (rename2_eq_iff (of_decide_eq_false hno) hy)
  | allocFromOther m fromM =>
    exact decide_eq_decide.mpr (rename2_eq_iff (of_decide_eq_false hno) hy)
  | allocFromOtherZeroed m fromM =>
    exact decide_eq_decide.mpr (rename2_eq_iff (of_decide_eq_false hno) hy)
  | deallocMatrix m => rfl
  | propagate a b => rfl
  | backprop a b => rfl
  | matrixCopy a b => rfl
  | matrixAdd a b => rfl
  | modelUpdate a b => rfl
  | modelUpdateConsolidated a b => rfl
  | noOperation => rfl

theorem isDeallocFor_rename2 {lastId other y : Nat} (hy : y ≠ lastId) {c : Command}
    (hno : c.isDeallocFor other = false) :
    (renameMatrixInCmd (fun x => if x = lastId then other else x) c).isDeallocFor y =
      c.isDeallocFor (if y = other then lastId else y) := by
  cases c with
  | allocMatrixZeroed m => rfl
  | allocMatrixUndefined m => rfl
  | allocFromOther m fromM =>
    exact decide_eq_decide.mpr (rename2_eq_iff (of_decide_eq_false hno) hy)
  | allocFromOtherZeroed m fromM =>
    exact decide_eq_decide.mpr (rename2_eq_iff (of_decide_eq_false hno) hy)
  | deallocMatrix m =>
    exact decide_eq_decide.mpr (rename2_eq_iff (of_decide_eq_false hno) hy)
  | propagate a b => rfl
  | backprop a b => rfl
  | matrixCopy a b => rfl
  | matrixAdd a b => rfl
  | modelUpdate a b => rfl
  | modelUpdateConsolidated a b => rfl
  | noOperation => rfl

theorem smTouches_rename2 {lastId other y : Nat} (hy : y ≠ lastId)
    {comp : NnetComputation} (hsub : ∀ sm ∈ comp.submatrices, sm.matrixId ≠ other) (s : Nat) :
    (renameMatrixInComp (fun x => if x = lastId then other else x) comp).smTouches s y =
      comp.smTouches s (if y = other then lastId else y) := by
  unfold NnetComputation.smTouches renameMatrixInComp
  simp only [List.getElem?_map]
  cases hv : comp.submatrices[s]? with
  | none => rfl
  | some sm =>
    exact decide_eq_decide.mpr (rename2_eq_iff (hsub sm (mem_of_getElem2 hv)) hy)

theorem accessesMatrix_rename2 {lastId other y : Nat} (hy : y ≠ lastId)
    {comp : NnetComputation} (hsub : ∀ sm ∈ comp.submatrices, sm.matrixId ≠ other)
    (c : Command) :
    (renameMatrixInComp (fun x => if x = lastId then other else x) comp).accessesMatrix
        (renameMatrixInCmd (fun x => if x = lastId then other else x) c) y =
      comp.accessesMatrix c (if y = other then lastId else y) := by
  unfold NnetComputation.accessesMatrix NnetComputation.readsMatrix NnetComputation.writesMatrix
  rw [readSubmatrices_rename, writeSubmatrices_rename,
    any_ext _ (fun s _ => smTouches_rename2 hy hsub s),
    any_ext _ (fun s _ => smTouches_rename2 hy hsub s)]

theorem touches_rename2 {lastId other y : Nat} (hy : y ≠ lastId)
    {comp : NnetComputation} (hsub : ∀ sm ∈ comp.submatrices, sm.matrixId ≠ other)
    {c : Command} (hnoA : c.isAllocFor other = false) (hnoD : c.isDeallocFor other = false) :
    (renameMatrixInComp (fun x => if x = lastId then other else x) comp).touches
        (renameMatrixInCmd (fun x => if x = lastId then other else x) c) y =
      comp.touches c (if y = other then lastId else y) := by
  unfold NnetComputation.touches
  rw [isAllocFor_rename2 hy hnoA, isDeallocFor_rename2 hy hnoD,
    accessesMatrix_rename2 hy hsub]


theorem split_at_pos {α : Type} {l : List α} {j : Nat} {c : α} (h : l[j]? = some c) :
    l = l.take j ++ c :: l.drop (j + 1) := by
  obtain ⟨hj, hc⟩ := List.getElem?_eq_some.mp h
  conv_lhs => rw [← List.take_append_drop j l]
  rw [List.drop_eq_getElem_cons hj, hc]

theorem mem_take_pos {α : Type} {l : List α} {j : Nat} {c : α} (h : c ∈ l.take j) :
    ∃ k, k < j ∧ l[k]? = some c := by
  obtain ⟨k, hk⟩ := List.mem_iff_getElem?.mp h
  rw [List.getElem?_take] at hk
  by_cases hkj : k < j
  · rw [if_pos hkj] at hk
    exact ⟨k, hkj, hk⟩
  · rw [if_neg hkj] at hk
    cases hk

theorem mem_drop_pos {α : Type} {l : List α} {j : Nat} {c : α} (h : c ∈ l.drop j) :
    ∃ k, j ≤ k ∧ l[k]? = some c := by
  obtain ⟨k, hk⟩ := List.mem_iff_getElem?.mp h
  rw [List.getElem?_drop] at hk
  exact ⟨j + k, by omega, hk⟩

theorem split_off {α : Type} {t : List α} {j : Nat} {c : α} (h : t[j]? = some c) :
    ∃ s t2, t = s ++ c :: t2 ∧ s.length = j ∧ t2 = t.drop (j + 1) ∧
      (∀ e ∈ s, ∃ k, k < j ∧ t[k]? = some e) := by
  obtain ⟨hj, -⟩ := List.getElem?_eq_some.mp h
  refine ⟨t.take j, t.drop (j + 1), split_at_pos h, ?_, rfl, ?_⟩
  · rw [List.length_take]
    omega
  · intro e he
    exact mem_take_pos he

theorem five_split {l : List Command} {p1 p2 p3 p4 p5 : Nat} {c1 c2 c3 c4 c5 : Command}
    (o12 : p1 < p2) (o23 : p2 < p3) (o34 : p3 < p4) (o45 : p4 < p5)
    (h1 : l[p1]? = some c1) (h2 : l[p2]? = some c2) (h3 : l[p3]? = some c3)
    (h4 : l[p4]? = some c4) (h5 : l[p5]? = some c5) :
    ∃ s0 s1 s2 s3 s4 s5,
      l = s0 ++ c1 :: (s1 ++ c2 :: (s2 ++ c3 :: (s3 ++ c4 :: (s4 ++ c5 :: s5)))) ∧
      s0.length = p1 ∧ s1.length = p2 - p1 - 1 ∧ s2.length = p3 - p2 - 1 ∧
      s3.length = p4 - p3 - 1 ∧ s4.length = p5 - p4 - 1 ∧
      (∀ c ∈ s0, ∃ k, k < p1 ∧ l[k]? = some c) ∧
      (∀ c ∈ s1, ∃ k, p1 < k ∧ k < p2 ∧ l[k]? = some c) ∧
      (∀ c ∈ s2, ∃ k, p2 < k ∧ k < p3 ∧ l[k]? = some c) ∧
      (∀ c ∈ s3, ∃ k, p3 < k ∧ k < p4 ∧ l[k]? = some c) ∧
      (∀ c ∈ s4, ∃ k, p4 < k ∧ k < p5 ∧ l[k]? = some c) ∧
      (∀ c ∈ s5, ∃ k, p5 < k ∧ l[k]? = some c) := by
  obtain ⟨s0, t1, e1, len0, dt1, mem0⟩ := split_off h1
  have g2 : t1[p2 - p1 - 1]? = some c2 := by
    rw [dt1, List.getElem?_drop, show p1 + 1 + (p2 - p1 - 1) = p2 by omega]
    exact h2
  obtain ⟨s1, t2, e2, len1, dt2, mem1⟩ := split_off g2
  have dt2' : t2 = l.drop (p2 + 1) := by
    rw [dt2, dt1, List.drop_drop, show p1 + 1 + (p2 - p1 - 1 + 1) = p2 + 1 by omega]
  have g3 : t2[p3 - p2 - 1]? = some c3 := by
    rw [dt2', List.getElem?_drop, show p2 + 1 + (p3 - p2 - 1) = p3 by omega]
    exact h3
  obtain ⟨s2, t3, e3, len2, dt3, mem2⟩ := split_off g3
  have dt3' : t3 = l.drop (p3 + 1) := by
    rw [dt3, dt2', List.drop_drop, show p2 + 1 + (p3 - p2 - 1 + 1) = p3 + 1 by omega]
  have g4 : t3[p4 - p3 - 1]? = some c4 := by
    rw [dt3', List.getElem?_drop, show p3 + 1 + (p4 - p3 - 1) = p4 by omega]
    exact h4
  obtain ⟨s3, t4, e4, len3, dt4, mem3⟩ := split_off g4
  have dt4' : t4 = l.drop (p4 + 1) := by
    rw [dt4, dt3', List.drop_drop, show p3 + 1 + (p4 - p3 - 1 + 1) = p4 + 1 by omega]
  have g5 : t4[p5 - p4 - 1]? = some c5 := by
    rw [dt4', List.getElem?_drop, show p4 + 1 + (p5 - p4 - 1) = p5 by omega]
    exact h5
  obtain ⟨s4, t5, e5, len4, dt5, mem4⟩ := split_off g5
  have dt5' : t5 = l.drop (p5 + 1) := by
    rw [dt5, dt4', List.drop_drop, show p4 + 1 + (p5 - p4 - 1 + 1) = p5 + 1 by omega]
  refine ⟨s0, s1, s2, s3, s4, t5, ?_, len0, len1, len2, len3, len4,
    mem0, ?_, ?_, ?_, ?_, ?_⟩
  · rw [e1, e2, e3, e4, e5]
  · intro c hc
    obtain ⟨k, hk1, hk2⟩ := mem1 c hc
    rw [dt1, List.getElem?_drop] at hk2
    exact ⟨p1 + 1 + k, by omega, by omega, hk2⟩
  · intro c hc
    obtain ⟨k, hk1, hk2⟩ := mem2 c hc
    rw [dt2', List.getElem?_drop] at hk2
    exact ⟨p2 + 1 + k, by omega, by omega, hk2⟩
  · intro c hc
    obtain ⟨k, hk1, hk2⟩ := mem3 c hc
    rw [dt3', List.getElem?_drop] at hk2
    exact ⟨p3 + 1 + k, by omega, by omega, hk2⟩
  · intro c hc
    obtain ⟨k, hk1, hk2⟩ := mem4 c hc
    rw [dt4', List.getElem?_drop] at hk2
    exact ⟨p4 + 1 + k, by omega, by omega, hk2⟩
  · intro c hc
    rw [dt5'] at hc
    obtain ⟨k, hk1, hk2⟩ := mem_drop_pos hc
    exact ⟨k, by omega, hk2⟩

theorem mergeDropFun_keep {dA dD i j : Nat} {ra : Bool} (c : Command)
    (h1 : j ≠ dA) (h2 : j ≠ dD) (h3 : j ≠ i) :
    mergeDropFun dA dD i ra (j, c) = some c := by
  unfold mergeDropFun
  rw [if_neg (by
      intro h
      rcases h with h | h
      · exact h1 h
      · exact h2 h), if_neg h3]

theorem mergeDropFun_dropA {dA dD i : Nat} {ra : Bool} (c : Command) :
    mergeDropFun dA dD i ra (dA, c) = none := by
  unfold mergeDropFun
  rw [if_pos (Or.inl rfl)]

theorem mergeDropFun_dropD {dA dD i : Nat} {ra : Bool} (c : Command) :
    mergeDropFun dA dD i ra (dD, c) = none := by
  unfold mergeDropFun
  rw [if_pos (Or.inr rfl)]

theorem mergeDropFun_copy_true {dA dD i : Nat} (c : Command) (h1 : i ≠ dA) (h2 : i ≠ dD) :
    mergeDropFun dA dD i true (i, c) = none := by
  unfold mergeDropFun
  rw [if_neg (by
      intro h
      rcases h with h | h
      · exact h1 h
      · exact h2 h), if_pos rfl]
  rfl

theorem mergeDropFun_copy_false {dA dD i : Nat} (c : Command) (h1 : i ≠ dA) (h2 : i ≠ dD) :
    mergeDropFun dA dD i false (i, c) = some Command.noOperation := by
  unfold mergeDropFun
  rw [if_neg (by
      intro h
      rcases h with h | h
      · exact h1 h
      · exact h2 h), if_pos rfl]
  rfl

theorem filterMap_mdf_keep {dA dD i : Nat} {ra : Bool} :
    ∀ (s : List Command) (k : Nat),
      (∀ j, k ≤ j → j < k + s.length → j ≠ dA ∧ j ≠ dD ∧ j ≠ i) →
      (s.enumFrom k).filterMap (mergeDropFun dA dD i ra) = s := by
  intro s
  induction s with
  | nil =>
    intro k _
    rfl
  | cons c t ih =>
    intro k h
    obtain ⟨n1, n2, n3⟩ := h k (le_refl k) (by simp only [List.length_cons]; omega)
    rw [List.enumFrom_cons, List.filterMap_cons, mergeDropFun_keep c n1 n2 n3,
      ih (k + 1) (fun j hj1 hj2 => h j (by omega)
        (by simp only [List.length_cons]; omega))]

theorem filterMap_mdf_seg_keep {dA dD i k : Nat} {ra : Bool} (s : List Command)
    (rest : List (Nat × Command))
    (hseg : ∀ j, k ≤ j → j < k + s.length → j ≠ dA ∧ j ≠ dD ∧ j ≠ i) :
    (s.enumFrom k ++ rest).filterMap (mergeDropFun dA dD i ra) =
      s ++ rest.filterMap (mergeDropFun dA dD i ra) := by
  rw [List.filterMap_append, filterMap_mdf_keep s k hseg]


theorem filterMap_mdf_eval (p1 p2 p3 p4 p5 : Nat) (ra : Bool)
    (m0 m1 m2 m3 m4 m5 : List Command) (a1 a2 cp d1 d2 : Command)
    (l0 : m0.length = p1) (l1 : m1.length = p2 - p1 - 1) (l2 : m2.length = p3 - p2 - 1)
    (l3 : m3.length = p4 - p3 - 1) (l4 : m4.length = p5 - p4 - 1)
    (o12 : p1 < p2) (o23 : p2 < p3) (o34 : p3 < p4) (o45 : p4 < p5) :
    ((m0 ++ a1 :: (m1 ++ a2 :: (m2 ++ cp :: (m3 ++ d1 :: (m4 ++ d2 :: m5))))).enum).filterMap
        (mergeDropFun p2 p4 p3 ra) =
      m0 ++ a1 :: (m1 ++ (m2 ++ ((if ra then [] else [Command.noOperation]) ++
        (m3 ++ (m4 ++ d2 :: m5))))) := by
  have e : (m0 ++ a1 :: (m1 ++ a2 :: (m2 ++ cp :: (m3 ++ d1 :: (m4 ++ d2 :: m5))))).enum =
      m0.enumFrom 0 ++ (p1, a1) :: (m1.enumFrom (p1 + 1) ++ (p2, a2) ::
        (m2.enumFrom (p2 + 1) ++ (p3, cp) :: (m3.enumFrom (p3 + 1) ++ (p4, d1) ::
          (m4.enumFrom (p4 + 1) ++ (p5, d2) :: m5.enumFrom (p5 + 1))))) := by
    show List.enumFrom 0 _ = _
    rw [List.enumFrom_append, List.enumFrom_cons, List.enumFrom_append, List.enumFrom_cons,
      List.enumFrom_append, List.enumFrom_cons, List.enumFrom_append, List.enumFrom_cons,
      List.enumFrom_append, List.enumFrom_cons, l0, l1, l2, l3, l4,
      Nat.zero_add,
      show p1 + 1 + (p2 - p1 - 1) = p2 by omega,
      show p2 + 1 + (p3 - p2 - 1) = p3 by omega,
      show p3 + 1 + (p4 - p3 - 1) = p4 by omega,
      show p4 + 1 + (p5 - p4 - 1) = p5 by omega]
  have h0 : ∀ j, 0 ≤ j → j < 0 + m0.length → j ≠ p2 ∧ j ≠ p4 ∧ j ≠ p3 := by
    intro j hj1 hj2
    rw [l0] at hj2
    exact ⟨by omega, by omega, by omega⟩
  have h1 : ∀ j, p1 + 1 ≤ j → j < p1 + 1 + m1.length → j ≠ p2 ∧ j ≠ p4 ∧ j ≠ p3 := by
    intro j hj1 hj2
    rw [l1] at hj2
    exact ⟨by omega, by omega, by omega⟩
  have h2 : ∀ j, p2 + 1 ≤ j → j < p2 + 1 + m2.length → j ≠ p2 ∧ j ≠ p4 ∧ j ≠ p3 := by
    intro j hj1 hj2
    rw [l2] at hj2
    exact ⟨by omega, by omega, by omega⟩
  have h3 : ∀ j, p3 + 1 ≤ j → j < p3 + 1 + m3.length → j ≠ p2 ∧ j ≠ p4 ∧ j ≠ p3 := by
    intro j hj1 hj2
    rw [l3] at hj2
    exact ⟨by omega, by omega, by omega⟩
  have h4 : ∀ j, p4 + 1 ≤ j → j < p4 + 1 + m4.length → j ≠ p2 ∧ j ≠ p4 ∧ j ≠ p3 := by
    intro j hj1 hj2
    rw [l4] at hj2
    exact ⟨by omega, by omega, by omega⟩
  have h5 : ∀ j, p5 + 1 ≤ j → j < p5 + 1 + m5.length → j ≠ p2 ∧ j ≠ p4 ∧ j ≠ p3 := by
    intro j hj1 hj2
    exact ⟨by omega, by omega, by omega⟩
  rw [e]
  cases ra with
  | true =>
    rw [filterMap_mdf_seg_keep m0 _ h0, List.filterMap_cons,
      mergeDropFun_keep a1 (by omega) (by omega) (by omega),
      filterMap_mdf_seg_keep m1 _ h1, List.filterMap_cons, mergeDropFun_dropA a2,
      filterMap_mdf_seg_keep m2 _ h2, List.filterMap_cons,
      mergeDropFun_copy_true cp (by omega) (by omega),
      filterMap_mdf_seg_keep m3 _ h3, List.filterMap_cons, mergeDropFun_dropD d1,
      filterMap_mdf_seg_keep m4 _ h4, List.filterMap_cons,
      mergeDropFun_keep d2 (by omega) (by omega) (by omega),
      filterMap_mdf_keep m5 (p5 + 1) h5]
    rw [if_pos rfl, List.nil_append]
  | false =>
    rw [filterMap_mdf_seg_keep m0 _ h0, List.filterMap_cons,
      mergeDropFun_keep a1 (by omega) (by omega) (by omega),
      filterMap_mdf_seg_keep m1 _ h1, List.filterMap_cons, mergeDropFun_dropA a2,
      filterMap_mdf_seg_keep m2 _ h2, List.filterMap_cons,
      mergeDropFun_copy_false cp (by omega) (by omega),
      filterMap_mdf_seg_keep m3 _ h3, List.filterMap_cons, mergeDropFun_dropD d1,
      filterMap_mdf_seg_keep m4 _ h4, List.filterMap_cons,
      mergeDropFun_keep d2 (by omega) (by omega) (by omega),
      filterMap_mdf_keep m5 (p5 + 1) h5]
    rfl


theorem alloc_pos_of_wf {l : List Command} {m : Nat}
    (hca : l.countP (fun c => c.isAllocFor m) = 1)
    (hex : (l.findIdx? (fun c => c.isPlainAllocFor m)).isSome = true) :
    ∃ j a, l[j]? = some a ∧ a.isPlainAllocFor m = true ∧
      l.findIdx? (fun c => c.isPlainAllocFor m) = some j ∧
      ∀ k d, l[k]? = some d → d.isAllocFor m = true → k = j := by
  obtain ⟨u, a, v, heq, ha, hu, hv⟩ := countP_one_split l hca
  have hplain : a.isPlainAllocFor m = true := by
    rw [List.findIdx?_isSome, List.any_eq_true] at hex
    obtain ⟨c, hcmem, hcp⟩ := hex
    have hcalloc := isAllocFor_of_isPlainAllocFor hcp
    rw [heq] at hcmem
    rcases List.mem_append.mp hcmem with h1 | h1
    · rw [hu c h1] at hcalloc
      cases hcalloc
    · rcases List.mem_cons.mp h1 with rfl | h1
      · exact hcp
      · rw [hv c h1] at hcalloc
        cases hcalloc
  have hufalse : ∀ c ∈ u, c.isPlainAllocFor m = false := by
    intro c hc
    cases hcp : c.isPlainAllocFor m
    · rfl
    · have hal := isAllocFor_of_isPlainAllocFor hcp
      rw [hu c hc] at hal
      cases hal
  refine ⟨u.length, a, ?_, hplain, ?_, ?_⟩
  · rw [heq, List.getElem?_append, if_neg (by omega)]
    simp
  · rw [heq]
    have := findIdx?_spec (fun c => c.isPlainAllocFor m) u v a 0 hufalse hplain
    simpa using this
  · intro k d hd hpd
    rw [heq, List.getElem?_append] at hd
    by_cases hk : k < u.length
    · rw [if_pos hk] at hd
      have hmem : d ∈ u := mem_of_getElem2 hd
      rw [hu d hmem] at hpd
      cases hpd
    · rw [if_neg hk] at hd
      cases hku : k - u.length with
      | zero => omega
      | succ k2 =>
        rw [hku] at hd
        simp only [List.getElem?_cons_succ] at hd
        have hmem : d ∈ v := mem_of_getElem2 hd
        rw [hv d hmem] at hpd
        cases hpd

theorem dealloc_pos_of_wf {l : List Command} {m : Nat}
    (hcd : l.countP (fun c => c.isDeallocFor m) = 1)
    (hex : (l.findIdx? (fun c => c.isPlainDeallocFor m)).isSome = true) :
    ∃ j dl, l[j]? = some dl ∧ dl.isPlainDeallocFor m = true ∧
      l.findIdx? (fun c => c.isPlainDeallocFor m) = some j ∧
      ∀ k d, l[k]? = some d → d.isDeallocFor m = true → k = j := by
  obtain ⟨u, a, v, heq, ha, hu, hv⟩ := countP_one_split l hcd
  have hplain : a.isPlainDeallocFor m = true := by
    rw [List.findIdx?_isSome, List.any_eq_true] at hex
    obtain ⟨c, hcmem, hcp⟩ := hex
    have hcalloc := isDeallocFor_of_isPlainDeallocFor hcp
    rw [heq] at hcmem
    rcases List.mem_append.mp hcmem with h1 | h1
    · rw [hu c h1] at hcalloc
      cases hcalloc
    · rcases List.mem_cons.mp h1 with rfl | h1
      · exact hcp
      · rw [hv c h1] at hcalloc
        cases hcalloc
  have hufalse : ∀ c ∈ u, c.isPlainDeallocFor m = false := by
    intro c hc
    cases hcp : c.isPlainDeallocFor m
    · rfl
    · have hal := isDeallocFor_of_isPlainDeallocFor hcp
      rw [hu c hc] at hal
      cases hal
  refine ⟨u.length, a, ?_, hplain, ?_, ?_⟩
  · rw [heq, List.getElem?_append, if_neg (by omega)]
    simp
  · rw [heq]
    have := findIdx?_spec (fun c => c.isPlainDeallocFor m) u v a 0 hufalse hplain
    simpa using this
  · intro k d hd hpd
    rw [heq, List.getElem?_append] at hd
    by_cases hk : k < u.length
    · rw [if_pos hk] at hd
      have hmem : d ∈ u := mem_of_getElem2 hd
      rw [hu d hmem] at hpd
      cases hpd
    · rw [if_neg hk] at hd
      cases hku : k - u.length with
      | zero => omega
      | succ k2 =>
        rw [hku] at hd
        simp only [List.getElem?_cons_succ] at hd
        have hmem : d ∈ v := mem_of_getElem2 hd
        rw [hv d hmem] at hpd
        cases hpd

theorem smTouches_of_covers {comp : NnetComputation} {s m : Nat}
    (h : comp.smCoversMatrix s m = true) : comp.smTouches s m = true := by
  unfold NnetComputation.smCoversMatrix at h
  split at h
  case _ sm heq =>
    rw [Bool.and_eq_true] at h
    unfold NnetComputation.smTouches
    rw [heq]
    exact h.1
  case _ => cases h

theorem accesses_copy_src {comp : NnetComputation} {dstS srcS m : Nat}
    (h : comp.smCoversMatrix srcS m = true) :
    comp.accessesMatrix (Command.matrixCopy dstS srcS) m = true := by
  have ht : comp.smTouches srcS m = true := smTouches_of_covers h
  simp [NnetComputation.accessesMatrix, NnetComputation.readsMatrix,
    NnetComputation.writesMatrix, Command.readSubmatrices, Command.writeSubmatrices, ht]

theorem accesses_copy_dst {comp : NnetComputation} {dstS srcS m : Nat}
    (h : comp.smCoversMatrix dstS m = true) :
    comp.accessesMatrix (Command.matrixCopy dstS srcS) m = true := by
  have ht : comp.smTouches dstS m = true := smTouches_of_covers h
  simp [NnetComputation.accessesMatrix, NnetComputation.readsMatrix,
    NnetComputation.writesMatrix, Command.readSubmatrices, Command.writeSubmatrices, ht]

theorem isAllocFor_unique {c : Command} {m m2 : Nat} (h : c.isAllocFor m = true)
    (h2 : c.isAllocFor m2 = true) : m = m2 := by
  cases c <;> simp_all [Command.isAllocFor] <;> omega

theorem isDeallocFor_unique {c : Command} {m m2 : Nat} (h : c.isDeallocFor m = true)
    (h2 : c.isDeallocFor m2 = true) : m = m2 := by
  cases c <;> simp_all [Command.isDeallocFor] <;> omega

theorem tch_noOperation (comp : NnetComputation) (x : Nat) :
    (matPreds comp x).tch Command.noOperation = false := by
  rw [matPreds_tch_eq]
  rfl

theorem alloc_before_dealloc_after {comp : NnetComputation} {m jA jD i : Nat}
    {a dl cpy : Command}
    (hinv : lifeInv (matPreds comp m) comp.commands)
    (hA : comp.commands[jA]? = some a) (haA : a.isAllocFor m = true)
    (hD : comp.commands[jD]? = some dl) (hdD : dl.isDeallocFor m = true)
    (hI : comp.commands[i]? = some cpy) (hacc : comp.accessesMatrix cpy m = true) :
    jA < i ∧ i < jD := by
  obtain ⟨-, -, hnb, hpw⟩ := hinv
  have htch : (matPreds comp m).tch cpy = true := by
    rw [matPreds_tch_eq]
    simp [hacc]
  have hAne : jA ≠ i := by
    intro he
    rw [he, hI] at hA
    injection hA with he2
    rw [he2] at hacc
    rw [accessesMatrix_false_of_isAllocFor haA] at hacc
    cases hacc
  have hDne : jD ≠ i := by
    intro he
    rw [he, hI] at hD
    injection hD with he2
    rw [he2] at hacc
    rw [accessesMatrix_false_of_isDeallocFor hdD] at hacc
    cases hacc
  have hnAlt : ¬(i < jA) := by
    intro hlt
    have hr := pairwise_rel_of_getElem hpw hI hA hlt
    have := hr.1 (by exact haA)
    rw [htch] at this
    cases this
  have hnDlt : ¬(jD < i) := by
    intro hlt
    have hr := pairwise_rel_of_getElem hpw hD hI hlt
    have := hr.2 (by exact hdD)
    rw [htch] at this
    cases this
  omega

theorem applyMerge_submatrices (ra : Bool) (comp : NnetComputation) (cand : Nat × Nat × Nat) :
    (applyMerge ra comp cand).submatrices =
      ((renameMatrixInComp (fun x => if x = cand.2.2 then cand.2.1 else x) comp).submatrices).map
        (fun sm => { sm with
          matrixId := if sm.matrixId = comp.matrices.length - 1 then cand.2.2
            else sm.matrixId }) := rfl

theorem applyMerge_matrices (ra : Bool) (comp : NnetComputation) (cand : Nat × Nat × Nat) :
    (applyMerge ra comp cand).matrices =
      match comp.matrices[comp.matrices.length - 1]? with
      | some mL => (comp.matrices.set cand.2.2 mL).dropLast
      | none => comp.matrices.dropLast := rfl


theorem applyMerge_commands3 (ra : Bool) (comp : NnetComputation) (i surv other : Nat) :
    (applyMerge ra comp (i, surv, other)).commands =
      (((renameMatrixInComp (fun x => if x = other then surv else x) comp).commands.enum.filterMap
        (mergeDropFun
          (max ((comp.commands.findIdx? (fun c => c.isPlainAllocFor surv)).getD 0)
            ((comp.commands.findIdx? (fun c => c.isPlainAllocFor other)).getD 0))
          (min ((comp.commands.findIdx? (fun c => c.isPlainDeallocFor surv)).getD 0)
            ((comp.commands.findIdx? (fun c => c.isPlainDeallocFor other)).getD 0))
          i ra)).map
        (renameMatrixInCmd (fun x => if x = comp.matrices.length - 1 then other else x))) := rfl

theorem applyMerge_submatrices3 (ra : Bool) (comp : NnetComputation) (i surv other : Nat) :
    (applyMerge ra comp (i, surv, other)).submatrices =
      ((renameMatrixInComp (fun x => if x = other then surv else x) comp).submatrices).map
        (fun sm => { sm with
          matrixId := if sm.matrixId = comp.matrices.length - 1 then other
            else sm.matrixId }) := rfl

theorem applyMerge_matrices3 (ra : Bool) (comp : NnetComputation) (i surv other : Nat) :
    (applyMerge ra comp (i, surv, other)).matrices =
      match comp.matrices[comp.matrices.length - 1]? with
      | some mL => (comp.matrices.set other mL).dropLast
      | none => comp.matrices.dropLast := rfl

theorem applyMerge_wellFormed {config : NnetOptimizeOptions} {comp : NnetComputation}
    {cand : Nat × Nat × Nat} (ra : Bool) (h : WellFormed comp)
    (hc : findMergeCand config comp = some cand) :
    WellFormed (applyMerge ra comp cand) := by
  obtain ⟨i, surv, other⟩ := cand
  unfold findMergeCand at hc
  obtain ⟨j0, -, hcand⟩ := List.exists_of_findSome?_eq_some hc
  obtain ⟨hij, srcS, dstS, smS, smD, hcpy, hgS, hgD, hok, hdir⟩ := candAt_some hcand
  subst hij
  simp only [mergePairOk, Bool.and_eq_true, decide_eq_true_eq] at hok
  obtain ⟨⟨⟨⟨⟨⟨⟨⟨⟨⟨⟨⟨hab, hcovS⟩, hcovD⟩, hsh1⟩, hsh2⟩, hallA⟩, hallB⟩,
    hfaA⟩, hfaB⟩, hfdA⟩, hfdB⟩, hip⟩, hik⟩ := hok
  have hso : surv ≠ other := by
    rcases hdir with ⟨rfl, rfl⟩ | ⟨rfl, rfl⟩
    · exact hab
    · exact fun he => hab he.symm
  have haccSurv : comp.accessesMatrix (Command.matrixCopy dstS srcS) surv = true := by
    rcases hdir with ⟨rfl, rfl⟩ | ⟨rfl, rfl⟩
    · exact accesses_copy_src hcovS
    · exact accesses_copy_dst hcovD
  have haccOther : comp.accessesMatrix (Command.matrixCopy dstS srcS) other = true := by
    rcases hdir with ⟨rfl, rfl⟩ | ⟨rfl, rfl⟩
    · exact accesses_copy_dst hcovD
    · exact accesses_copy_src hcovS
  have hfaS : (comp.commands.findIdx? (fun c => c.isPlainAllocFor surv)).isSome = true := by
    rcases hdir with ⟨rfl, rfl⟩ | ⟨rfl, rfl⟩
    · exact hfaA
    · exact hfaB
  have hfaO : (comp.commands.findIdx? (fun c => c.isPlainAllocFor other)).isSome = true := by
    rcases hdir with ⟨rfl, rfl⟩ | ⟨rfl, rfl⟩
    · exact hfaB
    · exact hfaA
  have hfdS : (comp.commands.findIdx? (fun c => c.isPlainDeallocFor surv)).isSome = true := by
    rcases hdir with ⟨rfl, rfl⟩ | ⟨rfl, rfl⟩
    · exact hfdA
    · exact hfdB
  have hfdO : (comp.commands.findIdx? (fun c => c.isPlainDeallocFor other)).isSome = true := by
    rcases hdir with ⟨rfl, rfl⟩ | ⟨rfl, rfl⟩
    · exact hfdB
    · exact hfdA
  obtain ⟨hW1, hW2, hW3⟩ := h
  have hsurv_lt : surv < comp.matrices.length := by
    rcases hdir with ⟨rfl, rfl⟩ | ⟨rfl, rfl⟩
    · exact hW1 smS (mem_of_getElem2 hgS)
    · exact hW1 smD (mem_of_getElem2 hgD)
  have hother_lt : other < comp.matrices.length := by
    rcases hdir with ⟨rfl, rfl⟩ | ⟨rfl, rfl⟩
    · exact hW1 smD (mem_of_getElem2 hgD)
    · exact hW1 smS (mem_of_getElem2 hgS)
  have hinvS := hW3 surv hsurv_lt
  have hinvO := hW3 other hother_lt
  obtain ⟨jaS, caS, hgaS, hplaS, hfiaS, huaS⟩ := alloc_pos_of_wf hinvS.1 hfaS
  obtain ⟨jaO, caO, hgaO, hplaO, hfiaO, huaO⟩ := alloc_pos_of_wf hinvO.1 hfaO
  obtain ⟨jdS, cdS, hgdS, hpldS, hfidS, hudS⟩ := dealloc_pos_of_wf hinvS.2.1 hfdS
  obtain ⟨jdO, cdO, hgdO, hpldO, hfidO, hudO⟩ := dealloc_pos_of_wf hinvO.2.1 hfdO
  have hpwS : List.Pairwise (lifeRel (matPreds comp surv)) comp.commands := hinvS.2.2.2
  have hpwO : List.Pairwise (lifeRel (matPreds comp other)) comp.commands := hinvO.2.2.2
  have hordS := alloc_before_dealloc_after hinvS hgaS (isAllocFor_of_isPlainAllocFor hplaS)
    hgdS (isDeallocFor_of_isPlainDeallocFor hpldS) hcpy haccSurv
  have hordO := alloc_before_dealloc_after hinvO hgaO (isAllocFor_of_isPlainAllocFor hplaO)
    hgdO (isDeallocFor_of_isPlainDeallocFor hpldO) hcpy haccOther
  have hja_ne : jaS ≠ jaO := by
    intro he
    rw [he, hgaO] at hgaS
    injection hgaS with he2
    have h1 := isAllocFor_of_isPlainAllocFor hplaS
    have h2 := isAllocFor_of_isPlainAllocFor hplaO
    rw [he2] at h2
    exact hso (isAllocFor_unique h1 h2)
  have hjd_ne : jdS ≠ jdO := by
    intro he
    rw [he, hgdO] at hgdS
    injection hgdS with he2
    have h1 := isDeallocFor_of_isPlainDeallocFor hpldS
    have h2 := isDeallocFor_of_isPlainDeallocFor hpldO
    rw [he2] at h2
    exact hso (isDeallocFor_unique h1 h2)
  obtain ⟨A1, A2, cA1, cA2, hA1lt, hminA, hmaxA, hgA1, hgA2, hplA1, hplA2, huniqA⟩ :
      ∃ A1 A2 cA1 cA2, A1 < A2 ∧ min jaS jaO = A1 ∧ max jaS jaO = A2 ∧
        comp.commands[A1]? = some cA1 ∧ comp.commands[A2]? = some cA2 ∧
        (cA1.isPlainAllocFor surv = true ∨ cA1.isPlainAllocFor other = true) ∧
        (cA2.isPlainAllocFor surv = true ∨ cA2.isPlainAllocFor other = true) ∧
        (∀ k d, comp.commands[k]? = some d →
          d.isAllocFor surv = true ∨ d.isAllocFor other = true → k = A1 ∨ k = A2) := by
    rcases Nat.lt_or_ge jaS jaO with hlt | hge
    · exact ⟨jaS, jaO, caS, caO, hlt, by omega, by omega, hgaS, hgaO, Or.inl hplaS,
        Or.inr hplaO, fun k d hk hd => hd.elim (fun x => Or.inl (huaS k d hk x))
          (fun x => Or.inr (huaO k d hk x))⟩
    · have hlt : jaO < jaS := by omega
      exact ⟨jaO, jaS, caO, caS, hlt, by omega, by omega, hgaO, hgaS, Or.inr hplaO,
        Or.inl hplaS, fun k d hk hd => hd.elim (fun x => Or.inr (huaS k d hk x))
          (fun x => Or.inl (huaO k d hk x))⟩
  obtain ⟨D1, D2, cD1, cD2, hD1lt, hminD, hmaxD, hgD1, hgD2, hplD1, hplD2, huniqD⟩ :
      ∃ D1 D2 cD1 cD2, D1 < D2 ∧ min jdS jdO = D1 ∧ max jdS jdO = D2 ∧
        comp.commands[D1]? = some cD1 ∧ comp.commands[D2]? = some cD2 ∧
        (cD1.isPlainDeallocFor surv = true ∨ cD1.isPlainDeallocFor other = true) ∧
        (cD2.isPlainDeallocFor surv = true ∨ cD2.isPlainDeallocFor other = true) ∧
        (∀ k d, comp.commands[k]? = some d →
          d.isDeallocFor surv = true ∨ d.isDeallocFor other = true → k = D1 ∨ k = D2) := by
    rcases Nat.lt_or_ge jdS jdO with hlt | hge
    · exact ⟨jdS, jdO, cdS, cdO, hlt, by omega, by omega, hgdS, hgdO, Or.inl hpldS,
        Or.inr hpldO, fun k d hk hd => hd.elim (fun x => Or.inl (hudS k d hk x))
          (fun x => Or.inr (hudO k d hk x))⟩
    · have hlt : jdO < jdS := by omega
      exact ⟨jdO, jdS, cdO, cdS, hlt, by omega, by omega, hgdO, hgdS, Or.inr hpldO,
        Or.inl hpldS, fun k d hk hd => hd.elim (fun x => Or.inr (hudS k d hk x))
          (fun x => Or.inl (hudO k d hk x))⟩
  have hA2i : A2 < i := by omega
  have hiD1 : i < D1 := by omega
  obtain ⟨s0, s1, s2, s3, s4, s5, hsplit, hl0, hl1, hl2, hl3, hl4,
    hm0, hm1, hm2, hm3, hm4, hm5⟩ :=
    five_split hA1lt hA2i hiD1 hD1lt hgA1 hgA2 hcpy hgD1 hgD2
  have hcomp1 : (renameMatrixInComp (fun x => if x = other then surv else x) comp).commands = ((s0.map (renameMatrixInCmd (fun x => if x = other then surv else x))) ++ (renameMatrixInCmd (fun x => if x = other then surv else x)) cA1 :: ((s1.map (renameMatrixInCmd (fun x => if x = other then surv else x))) ++ (renameMatrixInCmd (fun x => if x = other then surv else x)) cA2 :: ((s2.map (renameMatrixInCmd (fun x => if x = other then surv else x))) ++ (renameMatrixInCmd (fun x => if x = other then surv else x)) (Command.matrixCopy dstS srcS) :: ((s3.map (renameMatrixInCmd (fun x => if x = other then surv else x))) ++ (renameMatrixInCmd (fun x => if x = other then surv else x)) cD1 :: ((s4.map (renameMatrixInCmd (fun x => if x = other then surv else x))) ++ (renameMatrixInCmd (fun x => if x = other then surv else x)) cD2 :: (s5.map (renameMatrixInCmd (fun x => if x = other then surv else x)))))))) := by
    show comp.commands.map (renameMatrixInCmd (fun x => if x = other then surv else x)) = _
    rw [hsplit]
    simp only [List.map_append, List.map_cons]
  have hceq : (applyMerge ra comp (i, surv, other)).commands = ((s0.map (renameMatrixInCmd (fun x => if x = other then surv else x))) ++ (renameMatrixInCmd (fun x => if x = other then surv else x)) cA1 :: ((s1.map (renameMatrixInCmd (fun x => if x = other then surv else x))) ++ ((s2.map (renameMatrixInCmd (fun x => if x = other then surv else x))) ++ ((if ra then ([] : List Command) else [Command.noOperation]) ++ ((s3.map (renameMatrixInCmd (fun x => if x = other then surv else x))) ++ ((s4.map (renameMatrixInCmd (fun x => if x = other then surv else x))) ++ (renameMatrixInCmd (fun x => if x = other then surv else x)) cD2 :: (s5.map (renameMatrixInCmd (fun x => if x = other then surv else x))))))))).map (renameMatrixInCmd (fun x => if x = comp.matrices.length - 1 then other else x)) := by
    rw [applyMerge_commands3, hfiaS, hfiaO, hfidS, hfidO]
    simp only [Option.getD_some]
    rw [show max jaS jaO = A2 from hmaxA, show min jdS jdO = D1 from hminD, hcomp1]
    rw [filterMap_mdf_eval A1 A2 i D1 D2 ra _ _ _ _ _ _ _ _ _ _ _
      (by rw [List.length_map]; exact hl0)
      (by rw [List.length_map]; exact hl1)
      (by rw [List.length_map]; exact hl2)
      (by rw [List.length_map]; exact hl3)
      (by rw [List.length_map]; exact hl4)
      hA1lt hA2i hiD1 hD1lt]
  have hmemL2 : ∀ c2 ∈ ((s0.map (renameMatrixInCmd (fun x => if x = other then surv else x))) ++ (renameMatrixInCmd (fun x => if x = other then surv else x)) cA1 :: ((s1.map (renameMatrixInCmd (fun x => if x = other then surv else x))) ++ ((s2.map (renameMatrixInCmd (fun x => if x = other then surv else x))) ++ ((if ra then ([] : List Command) else [Command.noOperation]) ++ ((s3.map (renameMatrixInCmd (fun x => if x = other then surv else x))) ++ ((s4.map (renameMatrixInCmd (fun x => if x = other then surv else x))) ++ (renameMatrixInCmd (fun x => if x = other then surv else x)) cD2 :: (s5.map (renameMatrixInCmd (fun x => if x = other then surv else x))))))))), (∃ c0, c0 ∈ comp.commands ∧ c2 = (renameMatrixInCmd (fun x => if x = other then surv else x)) c0) ∨
      c2 = Command.noOperation := by
    intro c2 hc2
    rcases List.mem_append.mp hc2 with h1 | h1
    · rw [List.mem_map] at h1
      obtain ⟨c0, hc0, rfl⟩ := h1
      obtain ⟨k, -, hgk⟩ := hm0 c0 hc0
      exact Or.inl ⟨c0, mem_of_getElem2 hgk, rfl⟩
    · rcases List.mem_cons.mp h1 with rfl | h1
      · exact Or.inl ⟨cA1, mem_of_getElem2 hgA1, rfl⟩
      · rcases List.mem_append.mp h1 with h1 | h1
        · rw [List.mem_map] at h1
          obtain ⟨c0, hc0, rfl⟩ := h1
          obtain ⟨k, -, -, hgk⟩ := hm1 c0 hc0
          exact Or.inl ⟨c0, mem_of_getElem2 hgk, rfl⟩
        · rcases List.mem_append.mp h1 with h1 | h1
          · rw [List.mem_map] at h1
            obtain ⟨c0, hc0, rfl⟩ := h1
            obtain ⟨k, -, -, hgk⟩ := hm2 c0 hc0
            exact Or.inl ⟨c0, mem_of_getElem2 hgk, rfl⟩
          · rcases List.mem_append.mp h1 with h1 | h1
            · cases ra with
              | true => cases h1
              | false =>
                rcases List.mem_cons.mp h1 with rfl | h1
                · exact Or.inr rfl
                · cases h1
            · rcases List.mem_append.mp h1 with h1 | h1
              · rw [List.mem_map] at h1
                obtain ⟨c0, hc0, rfl⟩ := h1
                obtain ⟨k, -, -, hgk⟩ := hm3 c0 hc0
                exact Or.inl ⟨c0, mem_of_getElem2 hgk, rfl⟩
              · rcases List.mem_append.mp h1 with h1 | h1
                · rw [List.mem_map] at h1
                  obtain ⟨c0, hc0, rfl⟩ := h1
                  obtain ⟨k, -, -, hgk⟩ := hm4 c0 hc0
                  exact Or.inl ⟨c0, mem_of_getElem2 hgk, rfl⟩
                · rcases List.mem_cons.mp h1 with rfl | h1
                  · exact Or.inl ⟨cD2, mem_of_getElem2 hgD2, rfl⟩
                  · rw [List.mem_map] at h1
                    obtain ⟨c0, hc0, rfl⟩ := h1
                    obtain ⟨k, -, hgk⟩ := hm5 c0 hc0
                    exact Or.inl ⟨c0, mem_of_getElem2 hgk, rfl⟩
  have hsurvShape : LifeShape (matPreds (renameMatrixInComp (fun x => if x = other then surv else x) comp) surv) ((s0.map (renameMatrixInCmd (fun x => if x = other then surv else x))) ++ (renameMatrixInCmd (fun x => if x = other then surv else x)) cA1 :: ((s1.map (renameMatrixInCmd (fun x => if x = other then surv else x))) ++ ((s2.map (renameMatrixInCmd (fun x => if x = other then surv else x))) ++ ((if ra then ([] : List Command) else [Command.noOperation]) ++ ((s3.map (renameMatrixInCmd (fun x => if x = other then surv else x))) ++ ((s4.map (renameMatrixInCmd (fun x => if x = other then surv else x))) ++ (renameMatrixInCmd (fun x => if x = other then surv else x)) cD2 :: (s5.map (renameMatrixInCmd (fun x => if x = other then surv else x))))))))) := by
    refine ⟨(s0.map (renameMatrixInCmd (fun x => if x = other then surv else x))), (renameMatrixInCmd (fun x => if x = other then surv else x)) cA1,
      (s1.map (renameMatrixInCmd (fun x => if x = other then surv else x))) ++ ((s2.map (renameMatrixInCmd (fun x => if x = other then surv else x))) ++ ((if ra then ([] : List Command) else [Command.noOperation]) ++ ((s3.map (renameMatrixInCmd (fun x => if x = other then surv else x))) ++ (s4.map (renameMatrixInCmd (fun x => if x = other then surv else x)))))), (renameMatrixInCmd (fun x => if x = other then surv else x)) cD2, (s5.map (renameMatrixInCmd (fun x => if x = other then surv else x))),
      ?_, ?_, ?_, ?_, ?_, ?_, ?_, ?_⟩
    · simp only [List.append_assoc, List.cons_append]
    · rw [matPreds_isA, isAllocFor_rename_surv]
      rcases hplA1 with hp | hp
      · rw [isAllocFor_of_isPlainAllocFor hp, Bool.true_or]
      · rw [isAllocFor_of_isPlainAllocFor hp, Bool.or_true]
    · rw [matPreds_isD, isDeallocFor_rename_surv]
      rcases hplD2 with hp | hp
      · rw [isDeallocFor_of_isPlainDeallocFor hp, Bool.true_or]
      · rw [isDeallocFor_of_isPlainDeallocFor hp, Bool.or_true]
    · rw [matPreds_isD, isDeallocFor_rename_surv]
      rcases hplA1 with hp | hp <;>
        (rw [isDeallocFor_false_of_isPlainAllocFor hp,
          isDeallocFor_false_of_isPlainAllocFor hp]; rfl)
    · rcases hplD2 with hp | hp <;>
        (rw [isPlainDeallocFor_iff] at hp; subst hp; rfl)
    · intro c2 hc2
      rw [List.mem_map] at hc2
      obtain ⟨c0, hc0, rfl⟩ := hc2
      obtain ⟨k, hk, hgk⟩ := hm0 c0 hc0
      show (renameMatrixInComp (fun x => if x = other then surv else x) comp).touches ((renameMatrixInCmd (fun x => if x = other then surv else x)) c0) surv = false
      rw [touches_rename_surv]
      have htS : comp.touches c0 surv = false := by
        cases hv : comp.touches c0 surv
        · rfl
        · exfalso
          have hr := pairwise_rel_of_getElem hpwS hgk hgaS (by omega)
          have hx := hr.1 (isAllocFor_of_isPlainAllocFor hplaS)
          rw [show (matPreds comp surv).tch c0 = comp.touches c0 surv from rfl, hv] at hx
          cases hx
      have htO : comp.touches c0 other = false := by
        cases hv : comp.touches c0 other
        · rfl
        · exfalso
          have hr := pairwise_rel_of_getElem hpwO hgk hgaO (by omega)
          have hx := hr.1 (isAllocFor_of_isPlainAllocFor hplaO)
          rw [show (matPreds comp other).tch c0 = comp.touches c0 other from rfl, hv] at hx
          cases hx
      rw [htS, htO]
      rfl
    · intro c2 hc2
      rw [List.mem_map] at hc2
      obtain ⟨c0, hc0, rfl⟩ := hc2
      obtain ⟨k, hk, hgk⟩ := hm5 c0 hc0
      show (renameMatrixInComp (fun x => if x = other then surv else x) comp).touches ((renameMatrixInCmd (fun x => if x = other then surv else x)) c0) surv = false
      rw [touches_rename_surv]
      have htS : comp.touches c0 surv = false := by
        cases hv : comp.touches c0 surv
        · rfl
        · exfalso
          have hr := pairwise_rel_of_getElem hpwS hgdS hgk (by omega)
          have hx := hr.2 (isDeallocFor_of_isPlainDeallocFor hpldS)
          rw [show (matPreds comp surv).tch c0 = comp.touches c0 surv from rfl, hv] at hx
          cases hx
      have htO : comp.touches c0 other = false := by
        cases hv : comp.touches c0 other
        · rfl
        · exfalso
          have hr := pairwise_rel_of_getElem hpwO hgdO hgk (by omega)
          have hx := hr.2 (isDeallocFor_of_isPlainDeallocFor hpldO)
          rw [show (matPreds comp other).tch c0 = comp.touches c0 other from rfl, hv] at hx
          cases hx
      rw [htS, htO]
      rfl
    · intro c2 hc2
      have hgen : ∀ k c0, comp.commands[k]? = some c0 → A1 < k → k < D2 → k ≠ A2 →
          k ≠ D1 →
          (matPreds (renameMatrixInComp (fun x => if x = other then surv else x) comp) surv).isA ((renameMatrixInCmd (fun x => if x = other then surv else x)) c0) = false ∧
          (matPreds (renameMatrixInComp (fun x => if x = other then surv else x) comp) surv).isD ((renameMatrixInCmd (fun x => if x = other then surv else x)) c0) = false := by
        intro k c0 hgk hb1 hb2 hbA hbD
        constructor
        · rw [matPreds_isA, isAllocFor_rename_surv]
          have h1 : c0.isAllocFor surv = false := by
            cases hv : c0.isAllocFor surv
            · rfl
            · exfalso
              rcases huniqA k c0 hgk (Or.inl hv) with he | he <;> omega
          have h2 : c0.isAllocFor other = false := by
            cases hv : c0.isAllocFor other
            · rfl
            · exfalso
              rcases huniqA k c0 hgk (Or.inr hv) with he | he <;> omega
          rw [h1, h2]
          rfl
        · rw [matPreds_isD, isDeallocFor_rename_surv]
          have h1 : c0.isDeallocFor surv = false := by
            cases hv : c0.isDeallocFor surv
            · rfl
            · exfalso
              rcases huniqD k c0 hgk (Or.inl hv) with he | he <;> omega
          have h2 : c0.isDeallocFor other = false := by
            cases hv : c0.isDeallocFor other
            · rfl
            · exfalso
              rcases huniqD k c0 hgk (Or.inr hv) with he | he <;> omega
          rw [h1, h2]
          rfl
      rcases List.mem_append.mp hc2 with h1 | h1
      · rw [List.mem_map] at h1
        obtain ⟨c0, hc0, rfl⟩ := h1
        obtain ⟨k, hk1, hk2, hgk⟩ := hm1 c0 hc0
        exact hgen k c0 hgk (by omega) (by omega) (by omega) (by omega)
      · rcases List.mem_append.mp h1 with h1 | h1
        · rw [List.mem_map] at h1
          obtain ⟨c0, hc0, rfl⟩ := h1
          obtain ⟨k, hk1, hk2, hgk⟩ := hm2 c0 hc0
          exact hgen k c0 hgk (by omega) (by omega) (by omega) (by omega)
        · rcases List.mem_append.mp h1 with h1 | h1
          · cases ra with
            | true => cases h1
            | false =>
              rcases List.mem_cons.mp h1 with rfl | h1
              · exact ⟨rfl, rfl⟩
              · cases h1
          · rcases List.mem_append.mp h1 with h1 | h1
            · rw [List.mem_map] at h1
              obtain ⟨c0, hc0, rfl⟩ := h1
              obtain ⟨k, hk1, hk2, hgk⟩ := hm3 c0 hc0
              exact hgen k c0 hgk (by omega) (by omega) (by omega) (by omega)
            · rw [List.mem_map] at h1
              obtain ⟨c0, hc0, rfl⟩ := h1
              obtain ⟨k, hk1, hk2, hgk⟩ := hm4 c0 hc0
              exact hgen k c0 hgk (by omega) (by omega) (by omega) (by omega)
  have hsurvInv : lifeInv (matPreds (renameMatrixInComp (fun x => if x = other then surv else x) comp) surv) ((s0.map (renameMatrixInCmd (fun x => if x = other then surv else x))) ++ (renameMatrixInCmd (fun x => if x = other then surv else x)) cA1 :: ((s1.map (renameMatrixInCmd (fun x => if x = other then surv else x))) ++ ((s2.map (renameMatrixInCmd (fun x => if x = other then surv else x))) ++ ((if ra then ([] : List Command) else [Command.noOperation]) ++ ((s3.map (renameMatrixInCmd (fun x => if x = other then surv else x))) ++ ((s4.map (renameMatrixInCmd (fun x => if x = other then surv else x))) ++ (renameMatrixInCmd (fun x => if x = other then surv else x)) cD2 :: (s5.map (renameMatrixInCmd (fun x => if x = other then surv else x))))))))) := shape_lifeInv hsurvShape
  have hAother : ∀ y, y ≠ surv → y ≠ other →
      lifeInv (matPreds comp y) comp.commands →
      lifeInv (matPreds (renameMatrixInComp (fun x => if x = other then surv else x) comp) y) ((s0.map (renameMatrixInCmd (fun x => if x = other then surv else x))) ++ (renameMatrixInCmd (fun x => if x = other then surv else x)) cA1 :: ((s1.map (renameMatrixInCmd (fun x => if x = other then surv else x))) ++ ((s2.map (renameMatrixInCmd (fun x => if x = other then surv else x))) ++ ((if ra then ([] : List Command) else [Command.noOperation]) ++ ((s3.map (renameMatrixInCmd (fun x => if x = other then surv else x))) ++ ((s4.map (renameMatrixInCmd (fun x => if x = other then surv else x))) ++ (renameMatrixInCmd (fun x => if x = other then surv else x)) cD2 :: (s5.map (renameMatrixInCmd (fun x => if x = other then surv else x))))))))) := by
    intro y hy1 hy2 hinvY
    have hL1 : lifeInv (matPreds (renameMatrixInComp (fun x => if x = other then surv else x) comp) y) (comp.commands.map (renameMatrixInCmd (fun x => if x = other then surv else x))) :=
      lifeInv_map_of_pointwise (P := matPreds comp y) (Q := matPreds (renameMatrixInComp (fun x => if x = other then surv else x) comp) y)
        (fun c _ => by rw [matPreds_isA, matPreds_isA, isAllocFor_rename_ne hy1 hy2])
        (fun c _ => by rw [matPreds_isD, matPreds_isD, isDeallocFor_rename_ne hy1 hy2])
        (fun c _ => touches_rename_ne hy1 hy2 comp c)
        hinvY
    have htchA2 : (matPreds (renameMatrixInComp (fun x => if x = other then surv else x) comp) y).tch ((renameMatrixInCmd (fun x => if x = other then surv else x)) cA2) = false := by
      show (renameMatrixInComp (fun x => if x = other then surv else x) comp).touches ((renameMatrixInCmd (fun x => if x = other then surv else x)) cA2) y = false
      rw [touches_rename_ne hy1 hy2]
      rcases hplA2 with hp | hp
      · rw [show comp.touches cA2 y = (matPreds comp y).tch cA2 from rfl,
          tch_plainAlloc comp y surv hp]
        exact decide_eq_false (fun he => hy1 he.symm)
      · rw [show comp.touches cA2 y = (matPreds comp y).tch cA2 from rfl,
          tch_plainAlloc comp y other hp]
        exact decide_eq_false (fun he => hy2 he.symm)
    have htchD1 : (matPreds (renameMatrixInComp (fun x => if x = other then surv else x) comp) y).tch ((renameMatrixInCmd (fun x => if x = other then surv else x)) cD1) = false := by
      show (renameMatrixInComp (fun x => if x = other then surv else x) comp).touches ((renameMatrixInCmd (fun x => if x = other then surv else x)) cD1) y = false
      rw [touches_rename_ne hy1 hy2]
      rcases hplD1 with hp | hp
      · rw [isPlainDeallocFor_iff] at hp
        subst hp
        rw [show comp.touches (Command.deallocMatrix surv) y =
            (matPreds comp y).tch (Command.deallocMatrix surv) from rfl,
          tch_deallocMatrix comp y surv]
        exact decide_eq_false (fun he => hy1 he.symm)
      · rw [isPlainDeallocFor_iff] at hp
        subst hp
        rw [show comp.touches (Command.deallocMatrix other) y =
            (matPreds comp y).tch (Command.deallocMatrix other) from rfl,
          tch_deallocMatrix comp y other]
        exact decide_eq_false (fun he => hy2 he.symm)
    have htchCp : (matPreds (renameMatrixInComp (fun x => if x = other then surv else x) comp) y).tch ((renameMatrixInCmd (fun x => if x = other then surv else x)) (Command.matrixCopy dstS srcS)) = false := by
      show (renameMatrixInComp (fun x => if x = other then surv else x) comp).touches ((renameMatrixInCmd (fun x => if x = other then surv else x)) (Command.matrixCopy dstS srcS)) y = false
      rw [touches_rename_ne hy1 hy2]
      have hsrc : comp.smTouches srcS y = false := by
        unfold NnetComputation.smTouches
        rw [hgS]
        rcases hdir with ⟨rfl, rfl⟩ | ⟨rfl, rfl⟩
        · exact decide_eq_false (fun he => hy1 he.symm)
        · exact decide_eq_false (fun he => hy2 he.symm)
      have hdst : comp.smTouches dstS y = false := by
        unfold NnetComputation.smTouches
        rw [hgD]
        rcases hdir with ⟨rfl, rfl⟩ | ⟨rfl, rfl⟩
        · exact decide_eq_false (fun he => hy2 he.symm)
        · exact decide_eq_false (fun he => hy1 he.symm)
      unfold NnetComputation.touches NnetComputation.accessesMatrix
        NnetComputation.readsMatrix NnetComputation.writesMatrix
      simp [Command.readSubmatrices, Command.writeSubmatrices, Command.isAllocFor,
        Command.isDeallocFor, hsrc, hdst]
    have hXf : (if ra then ([] : List Command) else [Command.noOperation]).filter (matPreds (renameMatrixInComp (fun x => if x = other then surv else x) comp) y).tch = [] := by
      cases ra with
      | true => rfl
      | false =>
        show List.filter (matPreds (renameMatrixInComp (fun x => if x = other then surv else x) comp) y).tch [Command.noOperation] = []
        rw [List.filter_cons, if_neg (by rw [tch_noOperation]; simp)]
        rfl
    rw [lifeInv_iff_lifeOk] at hL1 ⊢
    constructor
    · have hfeq : ((s0.map (renameMatrixInCmd (fun x => if x = other then surv else x))) ++ (renameMatrixInCmd (fun x => if x = other then surv else x)) cA1 :: ((s1.map (renameMatrixInCmd (fun x => if x = other then surv else x))) ++ ((s2.map (renameMatrixInCmd (fun x => if x = other then surv else x))) ++ ((if ra then ([] : List Command) else [Command.noOperation]) ++ ((s3.map (renameMatrixInCmd (fun x => if x = other then surv else x))) ++ ((s4.map (renameMatrixInCmd (fun x => if x = other then surv else x))) ++ (renameMatrixInCmd (fun x => if x = other then surv else x)) cD2 :: (s5.map (renameMatrixInCmd (fun x => if x = other then surv else x))))))))).filter (matPreds (renameMatrixInComp (fun x => if x = other then surv else x) comp) y).tch =
          ((renameMatrixInComp (fun x => if x = other then surv else x) comp).commands).filter (matPreds (renameMatrixInComp (fun x => if x = other then surv else x) comp) y).tch := by
        rw [hcomp1]
        simp only [List.filter_append, List.filter_cons, htchA2, htchD1, htchCp,
          Bool.false_eq_true, if_false, hXf, List.nil_append]
      rw [lifeFold_filter, hfeq, ← lifeFold_filter]
      exact hL1.1
    · intro c2 hc2
      rcases hmemL2 c2 hc2 with ⟨c0, hc0, rfl⟩ | rfl
      · exact hL1.2 ((renameMatrixInCmd (fun x => if x = other then surv else x)) c0) (List.mem_map_of_mem (renameMatrixInCmd (fun x => if x = other then surv else x)) hc0)
      · exact fun hcon => Bool.noConfusion hcon.1
  have hnoA : ∀ c2 ∈ ((s0.map (renameMatrixInCmd (fun x => if x = other then surv else x))) ++ (renameMatrixInCmd (fun x => if x = other then surv else x)) cA1 :: ((s1.map (renameMatrixInCmd (fun x => if x = other then surv else x))) ++ ((s2.map (renameMatrixInCmd (fun x => if x = other then surv else x))) ++ ((if ra then ([] : List Command) else [Command.noOperation]) ++ ((s3.map (renameMatrixInCmd (fun x => if x = other then surv else x))) ++ ((s4.map (renameMatrixInCmd (fun x => if x = other then surv else x))) ++ (renameMatrixInCmd (fun x => if x = other then surv else x)) cD2 :: (s5.map (renameMatrixInCmd (fun x => if x = other then surv else x))))))))), c2.isAllocFor other = false := by
    intro c2 hc2
    rcases hmemL2 c2 hc2 with ⟨c0, -, rfl⟩ | rfl
    · exact isAllocFor_rename1_other hso c0
    · rfl
  have hnoD : ∀ c2 ∈ ((s0.map (renameMatrixInCmd (fun x => if x = other then surv else x))) ++ (renameMatrixInCmd (fun x => if x = other then surv else x)) cA1 :: ((s1.map (renameMatrixInCmd (fun x => if x = other then surv else x))) ++ ((s2.map (renameMatrixInCmd (fun x => if x = other then surv else x))) ++ ((if ra then ([] : List Command) else [Command.noOperation]) ++ ((s3.map (renameMatrixInCmd (fun x => if x = other then surv else x))) ++ ((s4.map (renameMatrixInCmd (fun x => if x = other then surv else x))) ++ (renameMatrixInCmd (fun x => if x = other then surv else x)) cD2 :: (s5.map (renameMatrixInCmd (fun x => if x = other then surv else x))))))))), c2.isDeallocFor other = false := by
    intro c2 hc2
    rcases hmemL2 c2 hc2 with ⟨c0, -, rfl⟩ | rfl
    · exact isDeallocFor_rename1_other hso c0
    · rfl
  have hsub1 : ∀ sm ∈ (renameMatrixInComp (fun x => if x = other then surv else x) comp).submatrices, sm.matrixId ≠ other :=
    submatrices_rename1_ne_other hso comp
  have hn1 : 1 ≤ comp.matrices.length := by omega
  have hmats : (applyMerge ra comp (i, surv, other)).matrices.length =
      comp.matrices.length - 1 := by
    rw [applyMerge_matrices3]
    cases hv : comp.matrices[comp.matrices.length - 1]? with
    | none =>
      exfalso
      rw [List.getElem?_eq_none_iff] at hv
      omega
    | some mL =>
      rw [List.length_dropLast, List.length_set]
  have hfinalInv : ∀ y, y < comp.matrices.length - 1 →
      lifeInv (matPreds (applyMerge ra comp (i, surv, other)) y)
        (applyMerge ra comp (i, surv, other)).commands := by
    intro y hy
    rw [hceq]
    have hyl : y ≠ comp.matrices.length - 1 := by omega
    have hpre : lifeInv (matPreds (renameMatrixInComp (fun x => if x = other then surv else x) comp) (if y = other then comp.matrices.length - 1 else y))
        ((s0.map (renameMatrixInCmd (fun x => if x = other then surv else x))) ++ (renameMatrixInCmd (fun x => if x = other then surv else x)) cA1 :: ((s1.map (renameMatrixInCmd (fun x => if x = other then surv else x))) ++ ((s2.map (renameMatrixInCmd (fun x => if x = other then surv else x))) ++ ((if ra then ([] : List Command) else [Command.noOperation]) ++ ((s3.map (renameMatrixInCmd (fun x => if x = other then surv else x))) ++ ((s4.map (renameMatrixInCmd (fun x => if x = other then surv else x))) ++ (renameMatrixInCmd (fun x => if x = other then surv else x)) cD2 :: (s5.map (renameMatrixInCmd (fun x => if x = other then surv else x))))))))) := by
      by_cases hyo : y = other
      · rw [if_pos hyo]
        by_cases hps : comp.matrices.length - 1 = surv
        · rw [hps]
          exact hsurvInv
        · exact hAother _ hps (by omega) (hW3 _ (by omega))
      · rw [if_neg hyo]
        by_cases hps : y = surv
        · rw [hps]
          exact hsurvInv
        · exact hAother y hps hyo (hW3 y (by omega))
    have hQ : lifeInv (matPreds (renameMatrixInComp (fun x => if x = comp.matrices.length - 1 then other else x) (renameMatrixInComp (fun x => if x = other then surv else x) comp)) y) (((s0.map (renameMatrixInCmd (fun x => if x = other then surv else x))) ++ (renameMatrixInCmd (fun x => if x = other then surv else x)) cA1 :: ((s1.map (renameMatrixInCmd (fun x => if x = other then surv else x))) ++ ((s2.map (renameMatrixInCmd (fun x => if x = other then surv else x))) ++ ((if ra then ([] : List Command) else [Command.noOperation]) ++ ((s3.map (renameMatrixInCmd (fun x => if x = other then surv else x))) ++ ((s4.map (renameMatrixInCmd (fun x => if x = other then surv else x))) ++ (renameMatrixInCmd (fun x => if x = other then surv else x)) cD2 :: (s5.map (renameMatrixInCmd (fun x => if x = other then surv else x))))))))).map (renameMatrixInCmd (fun x => if x = comp.matrices.length - 1 then other else x))) :=
      lifeInv_map_of_pointwise
        (P := matPreds (renameMatrixInComp (fun x => if x = other then surv else x) comp) (if y = other then comp.matrices.length - 1 else y))
        (Q := matPreds (renameMatrixInComp (fun x => if x = comp.matrices.length - 1 then other else x) (renameMatrixInComp (fun x => if x = other then surv else x) comp)) y)
        (fun c hc => by
          rw [matPreds_isA, matPreds_isA]
          exact isAllocFor_rename2 hyl (hnoA c hc))
        (fun c hc => by
          rw [matPreds_isD, matPreds_isD]
          exact isDeallocFor_rename2 hyl (hnoD c hc))
        (fun c hc => touches_rename2 hyl hsub1 (hnoA c hc) (hnoD c hc))
        hpre
    exact lifeInv_congr rfl rfl (matPreds_tch_congr rfl y) hQ
  have hW1new : ∀ sm ∈ (applyMerge ra comp (i, surv, other)).submatrices,
      sm.matrixId < (applyMerge ra comp (i, surv, other)).matrices.length := by
    intro sm hsm
    rw [hmats]
    rw [applyMerge_submatrices3] at hsm
    rw [List.mem_map] at hsm
    obtain ⟨sm1, hsm1, rfl⟩ := hsm
    have hsm1b : sm1 ∈ comp.submatrices.map
        (fun sm => { sm with
          matrixId := if sm.matrixId = other then surv else sm.matrixId }) := hsm1
    rw [List.mem_map] at hsm1b
    obtain ⟨sm0, hsm0, rfl⟩ := hsm1b
    show (if (if sm0.matrixId = other then surv else sm0.matrixId) =
        comp.matrices.length - 1 then other
      else (if sm0.matrixId = other then surv else sm0.matrixId)) <
      comp.matrices.length - 1
    exact merge_rename_bound hsurv_lt hother_lt hso sm0.matrixId (hW1 sm0 hsm0)
  have hW2new : ∀ c2 ∈ (applyMerge ra comp (i, surv, other)).commands,
      c2.operandsOk (applyMerge ra comp (i, surv, other)).submatrices.length
        (applyMerge ra comp (i, surv, other)).matrices.length := by
    intro c2 hc2
    rw [hceq] at hc2
    rw [List.mem_map] at hc2
    obtain ⟨c3, hc3, rfl⟩ := hc2
    have hsubl : (applyMerge ra comp (i, surv, other)).submatrices.length =
        comp.submatrices.length := by
      rw [applyMerge_submatrices3, List.length_map]
      simp [renameMatrixInComp]
    rw [hsubl, hmats]
    rcases hmemL2 c3 hc3 with ⟨c0, hc0, rfl⟩ | rfl
    · rw [renameMatrixInCmd_comp]
      refine operandsOk_rename ?_ c0 (hW2 c0 hc0)
      intro m hm
      show (if (if m = other then surv else m) = comp.matrices.length - 1 then other
        else (if m = other then surv else m)) < comp.matrices.length - 1
      exact merge_rename_bound hsurv_lt hother_lt hso m hm
    · exact trivial
  refine ⟨hW1new, hW2new, ?_⟩
  intro y hy
  rw [hmats] at hy
  exact hfinalInv y hy




/-- The merging loop preserves the structural IR invariants. -/
theorem mergeLoop_wellFormed (config : NnetOptimizeOptions) :
    ∀ (fuel : Nat) (comp : NnetComputation), WellFormed comp →
      WellFormed (mergeLoop config fuel comp) := by
  intro fuel
  induction fuel with
  | zero =>
    intro comp h
    exact h
  | succ n ih =>
    intro comp h
    unfold mergeLoop
    cases hv : findMergeCand config comp with
    | none => exact h
    | some cand => exact ih _ (applyMerge_wellFormed config.remove_assignments h hv)

/-- Variable merging preserves the structural IR invariants. -/
theorem vm_wellFormed (config : NnetOptimizeOptions) (nnet : Nnet)
    (request : ComputationRequest) (comp : NnetComputation) (h : WellFormed comp) :
    WellFormed (VariableMergingOptimization config nnet request comp) :=
  mergeLoop_wellFormed config (comp.commands.length + 1) comp h

theorem wf_ite (b : Bool) (f : NnetComputation → NnetComputation) (c : NnetComputation)
    (hf : WellFormed c → WellFormed (f c)) (h : WellFormed c) :
    WellFormed (if b then f c else c) := by
  cases b
  · exact h
  · exact hf h

theorem wf_consolidate_branch (b : Bool) (nnet : Nnet) (request : ComputationRequest)
    (c : NnetComputation) (h : WellFormed c) :
    WellFormed (if b then
      match ConsolidateModelUpdate nnet request c with
      | .ok c2 => c2
      | .error _ => c
    else c) := by
  cases b
  · exact h
  · show WellFormed (match ConsolidateModelUpdate nnet request c with
      | .ok c2 => c2
      | .error _ => c)
    cases hv : ConsolidateModelUpdate nnet request c with
    | ok c2 => exact ConsolidateModelUpdate_wellFormed nnet request h hv
    | error e => exact h

/-- The full optimization driver preserves the structural IR invariants. -/
theorem Optimize_wellFormed (config : NnetOptimizeOptions) (nnet : Nnet)
    (request : ComputationRequest) (comp : NnetComputation) (h : WellFormed comp) :
    WellFormed (Optimize config nnet request comp) := by
  unfold Optimize
  by_cases ho : config.optimize
  · rw [if_pos ho]
    exact wf_ite config.allocate_from_other (RemoveUnnecessaryAllocation nnet) _
      (fun hh => rua_wellFormed nnet _ hh)
      (wf_ite config.move_sizing_commands (MoveSizingCommands nnet) _
        (fun hh => msc_wellFormed nnet _ hh)
        (wf_ite config.initialize_undefined (RemoveUnnecessaryZeroing nnet) _
          (fun hh => ruz_wellFormed nnet _ hh)
          (wf_consolidate_branch config.consolidate_model_update nnet request _
            (vm_wellFormed config nnet request comp h))))
  · rw [if_neg ho]
    exact h



/-- C8: every optimization pass preserves the structural IR invariants of
spec section 3 — after variable merging, model-update consolidation (when it
succeeds), zero-init elimination, sizing-command motion and allocation
reuse, and after the full `Optimize` driver, every submatrix still
references a live matrix id, every command operand still references a live
submatrix id (matrix ids for sizing commands), and for every matrix the
command sequence contains exactly one allocating command positioned before
every command touching that matrix and exactly one deallocating command
positioned after every one. -/
theorem claim_C8_passes_preserve_invariants (config : NnetOptimizeOptions)
    (nnet : Nnet) (request : ComputationRequest) (comp comp2 : NnetComputation)
    (h : WellFormed comp) :
    WellFormed (VariableMergingOptimization config nnet request comp) ∧
    (ConsolidateModelUpdate nnet request comp = Except.ok comp2 → WellFormed comp2) ∧
    WellFormed (RemoveUnnecessaryZeroing nnet comp) ∧
    WellFormed (MoveSizingCommands nnet comp) ∧
    WellFormed (RemoveUnnecessaryAllocation nnet comp) ∧
    WellFormed (Optimize config nnet request comp) :=
  ⟨vm_wellFormed config nnet request comp h,
   fun hok => ConsolidateModelUpdate_wellFormed nnet request h hok,
   ruz_wellFormed nnet comp h,
   msc_wellFormed nnet comp h,
   rua_wellFormed nnet comp h,
   Optimize_wellFormed config nnet request comp h⟩

theorem claim_C8_witness :
    WellFormed mergeEx ∧
    WellFormed (Optimize NnetOptimizeOptions.default exNnet exReq mergeEx) :=
  ⟨by decide,
   (claim_C8_passes_preserve_invariants NnetOptimizeOptions.default exNnet exReq
     mergeEx emptyComp (by decide)).2.2.2.2.2⟩

end KaldiNnet3
